import Mathlib

/-!
Verification of the efikit EFI boot-device toolkit.

The development shallowly embeds the C sources of the toolkit:

* the boot-entry library (`efiboot_from_option`, `efiboot_to_option`, the
  setters, `efiboot_autoindex`, `efiboot_save`, `efiboot_save_all`) from
  `libefibootdev.c`;
* the device-path plausibility check (`efidp_plausible`) and the
  `efidp_from_text` / `efidp_to_text` wrappers from `efidevpath.c`;
* the EFI variable access layer (`efivars.c`), modelled as an abstract
  key/blob store.

Byte buffers are embedded as `List Nat` whose elements are below 256
(stated as hypotheses where it matters).  Machine integers are `Nat`
with explicit `% 2^w` at the points where the C code truncates.

The EDK2 `UefiDevicePathLib` (node table, text writer, text reader,
`IsDevicePathValid`, `GetDevicePathSize`) and the iconv-based UTF-8 ⇆
UCS-2LE conversion are vendored outside the library sources; their
behaviour is modelled from the specification, with each such definition
marked `Modelled from the spec:` in its doc comment.
-/

/-! ## Byte-level utilities -/

/-- Read a little-endian 16-bit value at offset `i` of a byte list. -/
def u16le (b : List Nat) (i : Nat) : Nat :=
  b.getD i 0 + 256 * b.getD (i + 1) 0

/-- Read a little-endian 32-bit value at offset `i` of a byte list. -/
def u32le (b : List Nat) (i : Nat) : Nat :=
  b.getD i 0 + 256 * b.getD (i + 1) 0 + 65536 * b.getD (i + 2) 0 +
    16777216 * b.getD (i + 3) 0

/-- Little-endian 16-bit byte serialisation (truncating to 16 bits). -/
def u16leBytes (x : Nat) : List Nat :=
  [x % 256, x / 256 % 256]

/-- Little-endian 32-bit byte serialisation (truncating to 32 bits). -/
def u32leBytes (x : Nat) : List Nat :=
  [x % 256, x / 256 % 256, x / 65536 % 256, x / 16777216 % 256]

/-- Group a byte list into little-endian 16-bit units (UCS-2LE code
units); a trailing odd byte is dropped. -/
def ucs2Units : List Nat → List Nat
  | b0 :: b1 :: rest => (b0 + 256 * b1) :: ucs2Units rest
  | _ => []

/-- Serialise 16-bit units as little-endian byte pairs. -/
def ucs2Bytes (us : List Nat) : List Nat :=
  us.flatMap (fun u => [u % 256, u / 256 % 256])

/-- All elements of a byte list are in range. -/
def ByteList (b : List Nat) : Prop := ∀ x ∈ b, x < 256

instance : DecidablePred ByteList := fun b =>
  inferInstanceAs (Decidable (∀ x ∈ b, x < 256))

/-! ## Device-path chains at the byte level

A device-path node is `Type (1 byte) | SubType (1 byte) | Length (2
bytes LE, ≥ 4, including the header)`.  A chain is a non-empty sequence
of non-End nodes followed by the End-Entire node `7F FF 04 00`. -/

/-- Modelled from the spec: EDK2 `IsDevicePathValid` combined with
`GetDevicePathSize` (the `UefiDevicePathLib` sources are vendored
outside the library sources).  Walks the device-path nodes at the head
of `b`: every node must declare `Length ≥ 4`, must not overrun `b`, the
walk must reach an End-Entire node (`Type=0x7F, SubType=0xFF`) of the
fixed length 4, and at least one non-End node must be present.  Returns
the byte length of the chain including its End node.  `fuel` bounds the
recursion and is immaterial once it is at least `b.length`. -/
def chainLenGo : Nat → Bool → List Nat → Option Nat
  | 0, _, _ => none
  | fuel + 1, seen, b =>
    if b.length < 4 then none
    else if u16le b 2 < 4 then none
    else if b.length < u16le b 2 then none
    else if b.getD 0 0 = 0x7f ∧ b.getD 1 0 = 0xff then
      if u16le b 2 = 4 ∧ seen then some 4 else none
    else
      (chainLenGo fuel true (b.drop (u16le b 2))).map
        (fun r => u16le b 2 + r)

/-- Length of the first well-formed chain of `b`, if any (`none` means
`efidp_valid` fails on `b` with bound `b.length`). -/
def efidp_first_chain (b : List Nat) : Option Nat :=
  chainLenGo b.length false b

/-- Validity of the device path at the head of `b`, bounded by the
length of `b` (the embedding of `efidp_valid ( path, remaining )`). -/
def efidp_valid (b : List Nat) : Bool :=
  (efidp_first_chain b).isSome

/-- Modelled from the spec: EDK2 `UefiDevicePathLibGetDevicePathSize`
(vendored outside the library sources), the embedding of `efidp_len`.
Walks nodes to the End-Entire node and sums the declared lengths,
including the End node's declared length; the walk trusts the input the
way the C code does, stopping defensively when fuel runs out or a node
declares length 0. -/
def efidpLenGo : Nat → List Nat → Nat → Nat
  | 0, _, acc => acc
  | fuel + 1, b, acc =>
    if b.getD 0 0 = 0x7f ∧ b.getD 1 0 = 0xff then acc + u16le b 2
    else if u16le b 2 = 0 then acc
    else efidpLenGo fuel (b.drop (u16le b 2)) (acc + u16le b 2)

/-- Byte length of a device path (including the End node). -/
def efidp_len (b : List Nat) : Nat :=
  efidpLenGo (b.length + 1) b 0

/-- The device-path region walk of `efiboot_from_option`: repeatedly
check `efidp_valid` on the remaining region and split off `efidp_len`
bytes, until the region is exactly consumed.  Returns the list of chain
byte lists. -/
def pathsWalkGo : Nat → List Nat → Option (List (List Nat))
  | 0, b => if b = [] then some [] else none
  | fuel + 1, b =>
    if b = [] then some []
    else
      match efidp_first_chain b with
      | none => none
      | some l => (pathsWalkGo fuel (b.drop l)).map (fun cs => b.take l :: cs)

/-- Split a device-path region into its chains, exactly consuming it. -/
def pathsWalk (b : List Nat) : Option (List (List Nat)) :=
  pathsWalkGo b.length b

/-! ## UTF-8 ⇆ UCS-2LE conversion

`strconvert.c` converts via iconv; the conversion itself is external
library behaviour. -/

/-- UTF-8 encoding of a single code point below 0x10000. -/
def utf8EncUnit (u : Nat) : List Nat :=
  if u < 0x80 then [u]
  else if u < 0x800 then [0xC0 + u / 64, 0x80 + u % 64]
  else [0xE0 + u / 4096, 0x80 + u / 64 % 64, 0x80 + u % 64]

/-- Modelled from the spec: the iconv UCS-2LE → UTF-8 conversion behind
`efi_to_utf8` (strconvert.c defers to iconv, which rejects surrogate
code units).  Input is the list of UCS-2 code units of the description
(the NUL terminator excluded); output the UTF-8 bytes. -/
def efi_to_utf8 : List Nat → Option (List Nat)
  | [] => some []
  | u :: rest =>
    if 0xD800 ≤ u ∧ u < 0xE000 then none
    else if 65536 ≤ u then none
    else (efi_to_utf8 rest).map (fun d => utf8EncUnit u ++ d)

/-- Modelled from the spec: the iconv UTF-8 → UCS-2LE conversion behind
`utf8_to_efi` (strconvert.c defers to iconv), as a byte-at-a-time
decoder.  `pending` counts the continuation bytes still expected,
`acc` the partial code point, `mn` the smallest non-overlong value of
the current sequence.  Rejects malformed or overlong sequences,
surrogates, and code points beyond the BMP. -/
def utf8DecGo : List Nat → Nat → Nat → Nat → Option (List Nat)
  | [], 0, _, _ => some []
  | [], _ + 1, _, _ => none
  | b :: rest, 0, _, _ =>
    if b < 0x80 then (utf8DecGo rest 0 0 0).map (fun us => b :: us)
    else if b < 0xC2 then none
    else if b < 0xE0 then utf8DecGo rest 1 (b - 0xC0) 0x80
    else if b < 0xF0 then utf8DecGo rest 2 (b - 0xE0) 0x800
    else none
  | b :: rest, k + 1, acc, mn =>
    if 0x80 ≤ b ∧ b < 0xC0 then
      if k = 0 then
        if acc * 64 + (b - 0x80) < mn ∨
           (0xD800 ≤ acc * 64 + (b - 0x80) ∧ acc * 64 + (b - 0x80) < 0xE000)
        then none
        else (utf8DecGo rest 0 0 0).map
          (fun us => (acc * 64 + (b - 0x80)) :: us)
      else utf8DecGo rest k (acc * 64 + (b - 0x80)) mn
    else none

/-- The UTF-8 bytes of the description back to UCS-2 code units. -/
def utf8_to_efi (d : List Nat) : Option (List Nat) :=
  utf8DecGo d 0 0 0

/-! ## Boot entries (libefibootdev.c) -/

/-- The `enum efi_boot_option_type` values `EFIBOOT_TYPE_BOOT (1)`,
`EFIBOOT_TYPE_DRIVER (2)`, `EFIBOOT_TYPE_SYSPREP (3)`. -/
inductive BootOptionType
  | boot
  | driver
  | sysprep
deriving DecidableEq

/-- The `efiboot_prefix` table. -/
def efiboot_prefixes : BootOptionType → String
  | .boot => "Boot"
  | .driver => "Driver"
  | .sysprep => "SysPrep"

/-- Maximum valid boot index (`EFIBOOT_INDEX_MAX`). -/
def EFIBOOT_INDEX_MAX : Nat := 0xffff

/-- Auto-assign sentinel (`EFIBOOT_INDEX_AUTO`, `-1U` as unsigned int). -/
def EFIBOOT_INDEX_AUTO : Nat := 0xffffffff

/-- Uppercase hexadecimal digit. -/
def hexDigit (n : Nat) : Char :=
  if n < 10 then Char.ofNat (48 + n) else Char.ofNat (55 + n)

/-- Uppercase 4-digit hexadecimal rendering (the `"%04X"` of
`efiboot_index_name`, for values up to 0xFFFF). -/
def hex4 (n : Nat) : String :=
  String.mk [hexDigit (n / 4096 % 16), hexDigit (n / 256 % 16),
             hexDigit (n / 16 % 16), hexDigit (n % 16)]

/-- The embedding of `efiboot_index_name`: the variable name
`{prefix}{index:04X}`, or failure (`EINVAL`) for an out-of-range index
(in particular for `EFIBOOT_INDEX_AUTO`). -/
def efiboot_index_name (t : BootOptionType) (index : Nat) : Option String :=
  if index > EFIBOOT_INDEX_MAX then none
  else some (efiboot_prefixes t ++ hex4 index)

/-- The embedding of `efiboot_order_name`: `{prefix}Order`. -/
def efiboot_order_name (t : BootOptionType) : String :=
  efiboot_prefixes t ++ "Order"

/-- The observable state of a `struct efi_boot_entry`.  `description`
holds the UTF-8 bytes of the description C string; `paths` the byte
lists of the owned device-path chains; `name` the contents of the
`name[]` buffer (`""` when no variable name is set). -/
structure EfiBootEntry where
  modified : Bool
  type : BootOptionType
  index : Nat
  attributes : Nat
  description : List Nat
  paths : List (List Nat)
  data : List Nat
  name : String
deriving DecidableEq

/-- The embedding of `efiboot_name`: the variable name, or `none` while
the name buffer is empty. -/
def efiboot_name (e : EfiBootEntry) : Option String :=
  if e.name = "" then none else some e.name

/-- The UCS-2 NUL scan of `StrnSizeS`: the index of the first NUL code
unit, or `none` when there is none among the units. -/
def descNulIdx : List Nat → Option Nat
  | [] => none
  | u :: rest => if u = 0 then some 0 else (descNulIdx rest).map (fun j => j + 1)

/-- The embedding of `efiboot_from_option`: decode an `EFI_LOAD_OPTION`
byte record into a boot entry, or fail (`EINVAL` / conversion failure).
Mirrors the C validation order: header length, UCS-2LE NUL scan for the
description, `FilePathListLength` bound, device-path region walk,
non-zero chain count, then the description conversion. -/
def efiboot_from_option (bytes : List Nat) : Option EfiBootEntry :=
  if bytes.length < 6 then none
  else
    (descNulIdx (ucs2Units (bytes.drop 6))).bind (fun i =>
      if u16le bytes 4 > ((bytes.drop 6).drop (2 * (i + 1))).length then none
      else
        (pathsWalk (((bytes.drop 6).drop (2 * (i + 1))).take
            (u16le bytes 4))).bind (fun chains =>
          if chains.length = 0 then none
          else
            (efi_to_utf8 ((ucs2Units (bytes.drop 6)).take i)).bind (fun desc =>
              some { modified := false, type := .boot,
                     index := EFIBOOT_INDEX_AUTO, attributes := u32le bytes 0,
                     description := desc, paths := chains,
                     data := ((bytes.drop 6).drop (2 * (i + 1))).drop
                       (u16le bytes 4), name := "" })))

/-- The embedding of `efiboot_to_option`: serialise a boot entry back
into an `EFI_LOAD_OPTION` byte record (header, description with its
UCS-2LE NUL, each chain's `efidp_len` bytes, optional data).  Fails
when the description cannot be converted back to UCS-2LE. -/
def efiboot_to_option (e : EfiBootEntry) : Option (List Nat) :=
  (utf8_to_efi e.description).map (fun units =>
    u32leBytes e.attributes ++ u16leBytes ((e.paths.map efidp_len).sum) ++
    ucs2Bytes (units ++ [0]) ++
    (e.paths.map (fun p => p.take (efidp_len p))).flatten ++ e.data)

/-- The embedding of `efiboot_set_type_index`: validate, then update
type, index, variable name (cleared when `efiboot_index_name` fails,
i.e. for `AUTO`) and the modification flag.  The index argument is a C
`unsigned int`, hence the truncation. -/
def efiboot_set_type_index (e : EfiBootEntry) (t : BootOptionType)
    (index : Nat) : EfiBootEntry × Bool :=
  let index := index % 4294967296
  if index > EFIBOOT_INDEX_MAX ∧ index ≠ EFIBOOT_INDEX_AUTO then (e, false)
  else
    let name := match efiboot_index_name t index with
                | some n => n
                | none => ""
    ({ e with type := t, index := index, name := name, modified := true }, true)

/-- The embedding of `efiboot_set_type`. -/
def efiboot_set_type (e : EfiBootEntry) (t : BootOptionType) :
    EfiBootEntry × Bool :=
  efiboot_set_type_index e t e.index

/-- The embedding of `efiboot_set_index`. -/
def efiboot_set_index (e : EfiBootEntry) (index : Nat) :
    EfiBootEntry × Bool :=
  efiboot_set_type_index e e.type index

/-- The embedding of `efiboot_set_attributes` (always succeeds). -/
def efiboot_set_attributes (e : EfiBootEntry) (attributes : Nat) :
    EfiBootEntry × Bool :=
  ({ e with attributes := attributes % 4294967296, modified := true }, true)

/-- The embedding of `efiboot_set_description`.  `allocOk` is the
outcome of the `strdup` allocation, which happens before the entry is
touched. -/
def efiboot_set_description (e : EfiBootEntry) (allocOk : Bool)
    (desc : List Nat) : EfiBootEntry × Bool :=
  if ¬ allocOk then (e, false)
  else ({ e with description := desc, modified := true }, true)

/-- The embedding of `efiboot_set_paths`.  The count check and the
single allocation happen before the entry is touched; each path is
copied for its `efidp_len` bytes. -/
def efiboot_set_paths (e : EfiBootEntry) (allocOk : Bool)
    (paths : List (List Nat)) : EfiBootEntry × Bool :=
  if paths.length < 1 then (e, false)
  else if ¬ allocOk then (e, false)
  else ({ e with modified := true,
                 paths := paths.map (fun p => p.take (efidp_len p)) }, true)

/-- The embedding of `efiboot_set_path`: bounds check, build the
updated path list, defer to `efiboot_set_paths`. -/
def efiboot_set_path (e : EfiBootEntry) (allocOk1 allocOk2 : Bool)
    (index : Nat) (path : List Nat) : EfiBootEntry × Bool :=
  if index ≥ e.paths.length then (e, false)
  else if ¬ allocOk1 then (e, false)
  else efiboot_set_paths e allocOk2 (e.paths.set index path)

/-- The embedding of `efiboot_set_data`.  The copy allocation (for a
non-empty payload) happens before the entry is touched. -/
def efiboot_set_data (e : EfiBootEntry) (allocOk : Bool)
    (data : List Nat) : EfiBootEntry × Bool :=
  if data.length ≠ 0 ∧ ¬ allocOk then (e, false)
  else ({ e with data := data, modified := true }, true)

/-- UTF-8 bytes of the string `"Unknown"`. -/
def utf8Unknown : List Nat := [85, 110, 107, 110, 111, 119, 110]

/-- The End-Entire device path node. -/
def endNodeBytes : List Nat := [0x7f, 0xff, 4, 0]

/-- The embedding of `efiboot_new` (the successful path): zeroed entry,
`modified = true`, type Boot, index AUTO, attributes
`LOAD_OPTION_ACTIVE`, then `efiboot_set_description ( entry, "Unknown" )`
and `efiboot_set_paths ( entry, { end-only chain }, 1 )`. -/
def efiboot_new : EfiBootEntry :=
  let e0 : EfiBootEntry :=
    { modified := true, type := .boot, index := EFIBOOT_INDEX_AUTO,
      attributes := 1, description := [], paths := [], data := [], name := "" }
  let e1 := (efiboot_set_description e0 true utf8Unknown).1
  (efiboot_set_paths e1 true [endNodeBytes]).1

/-! ## The EFI variable store (efivars.c)

The claims about saving run against the specification's mock store: an
abstract name → blob map whose `exists` probe and `write` always
answer; this is the shape of the efivars.c interface
(`efivars_read` / `efivars_write` / `efivars_exists`). -/

/-- An EFI variable store state. -/
structure EfiVarStore where
  vars : List (String × List Nat)
deriving DecidableEq

/-- The `efivars_exists` probe. -/
def efivars_exists (st : EfiVarStore) (name : String) : Bool :=
  st.vars.any (fun v => v.1 == name)

/-- The `efivars_write` operation (create or replace). -/
def efivars_write (st : EfiVarStore) (name : String) (data : List Nat) :
    EfiVarStore :=
  { vars := (name, data) :: st.vars.filter (fun v => ¬ v.1 == name) }

/-- The `efivars_read` lookup. -/
def efivars_read (st : EfiVarStore) (name : String) : Option (List Nat) :=
  (st.vars.find? (fun v => v.1 == name)).map (fun v => v.2)

/-- The scan loop of `efiboot_autoindex`: starting from `i`, return the
first index whose variable name is not in the store; `fuel` counts the
remaining loop iterations (65536 at the top call).  Indices failing
`efiboot_index_name` are skipped, as in the source. -/
def autoindexGo (st : EfiVarStore) (t : BootOptionType) :
    Nat → Nat → Option Nat
  | 0, _ => none
  | fuel + 1, i =>
    match efiboot_index_name t i with
    | none => autoindexGo st t fuel (i + 1)
    | some n =>
      if efivars_exists st n then autoindexGo st t fuel (i + 1)
      else some i

/-- The embedding of `efiboot_autoindex`: find the first unused index
and record it.  Note that, as in the source, only `index` and
`modified` are updated — the `name` buffer is left untouched. -/
def efiboot_autoindex (st : EfiVarStore) (e : EfiBootEntry) :
    EfiBootEntry × Bool :=
  match autoindexGo st e.type 65536 0 with
  | some i => ({ e with index := i, modified := true }, true)
  | none => (e, false)

/-- The embedding of `efiboot_save`: skip unmodified entries, resolve
an AUTO index, serialise, write under `efiboot_name`.  A write with no
variable name (the NULL-name case) cannot succeed.  Returns the store,
the entry as left by the call, and the success flag. -/
def efiboot_save (st : EfiVarStore) (e : EfiBootEntry) :
    EfiVarStore × EfiBootEntry × Bool :=
  if ¬ e.modified then (st, e, true)
  else
    match (if e.index = EFIBOOT_INDEX_AUTO
           then efiboot_autoindex st e else (e, true)) with
    | (e1, ok) =>
      if ¬ ok then (st, e1, false)
      else
        match efiboot_to_option e1 with
        | none => (st, e1, false)
        | some bytes =>
          match efiboot_name e1 with
          | none => (st, e1, false)
          | some n => (efivars_write st n bytes,
                       { e1 with modified := false }, true)

/-- The per-entry loop of `efiboot_save_all`: check the type of each
entry as the loop reaches it, then save it.  Returns the store and
entry list as left on exit (mutations before a failure persist). -/
def saveAllGo (t : BootOptionType) :
    EfiVarStore → List EfiBootEntry →
    EfiVarStore × List EfiBootEntry × Bool
  | st, [] => (st, [], true)
  | st, e :: rest =>
    if e.type ≠ t then (st, e :: rest, false)
    else
      match efiboot_save st e with
      | (st1, e1, ok) =>
        if ¬ ok then (st1, e1 :: rest, false)
        else
          match saveAllGo t st1 rest with
          | (st2, rest1, ok2) => (st2, e1 :: rest1, ok2)

/-- The embedding of `efiboot_save_all`: save each entry in order, then
build the order blob from the (now assigned) indices (truncated to
`uint16_t`, little-endian) and write the order variable. -/
def efiboot_save_all (t : BootOptionType) (st : EfiVarStore)
    (entries : List EfiBootEntry) :
    EfiVarStore × List EfiBootEntry × Bool :=
  match saveAllGo t st entries with
  | (st1, es1, ok) =>
    if ¬ ok then (st1, es1, false)
    else
      let order := es1.flatMap (fun e => u16leBytes e.index)
      (efivars_write st1 (efiboot_order_name t) order, es1, true)

/-! ## Device-path text codec: character utilities

The EDK2 `UefiDevicePathLib` text writer and reader are vendored
outside the library sources; the codec below is modelled from the
specification (node table dispatch on `(Type, SubType)`, `/` as node
separator, hex tolerated on input and uppercase on output, unrecognised
segments embedded as file-path nodes). -/

/-- Read a little-endian 64-bit value at offset `i` of a byte list. -/
def u64le (b : List Nat) (i : Nat) : Nat :=
  u32le b i + 4294967296 * u32le b (i + 4)

/-- Little-endian 64-bit byte serialisation (truncating to 64 bits). -/
def u64leBytes (x : Nat) : List Nat :=
  u32leBytes x ++ u32leBytes (x / 4294967296)

/-- Uppercase hexadecimal digits of a positive number, most significant
first; `fuel` bounds the recursion (`fuel ≥ n` suffices). -/
def hexGo : Nat → Nat → List Char
  | 0, _ => []
  | fuel + 1, n =>
    if n = 0 then [] else hexGo fuel (n / 16) ++ [hexDigit (n % 16)]

/-- Uppercase hexadecimal rendering of a number (`"0"` for zero,
otherwise no leading zeros), as produced by the text writer. -/
def hexChars (n : Nat) : List Char :=
  if n = 0 then ['0'] else hexGo n n

/-- Fixed-width uppercase hexadecimal rendering. -/
def hexPad : Nat → Nat → List Char
  | 0, _ => []
  | w + 1, n => hexPad w (n / 16) ++ [hexDigit (n % 16)]

/-- Decimal digits of a positive number, most significant first. -/
def decGo : Nat → Nat → List Char
  | 0, _ => []
  | fuel + 1, n =>
    if n = 0 then [] else decGo fuel (n / 10) ++ [Char.ofNat (48 + n % 10)]

/-- Decimal rendering of a number. -/
def decChars (n : Nat) : List Char :=
  if n = 0 then ['0'] else decGo n n

/-- Numeric value of a hexadecimal digit character (0 for others, in
the style of the tolerant EDK2 text readers). -/
def hexVal (c : Char) : Nat :=
  if 48 ≤ c.toNat ∧ c.toNat ≤ 57 then c.toNat - 48
  else if 65 ≤ c.toNat ∧ c.toNat ≤ 70 then c.toNat - 55
  else if 97 ≤ c.toNat ∧ c.toNat ≤ 102 then c.toNat - 87
  else 0

/-- Numeric value of a decimal digit character (0 for others). -/
def decVal (c : Char) : Nat :=
  if 48 ≤ c.toNat ∧ c.toNat ≤ 57 then c.toNat - 48 else 0

/-- Tolerant hexadecimal reading of a whole argument. -/
def parseHex (cs : List Char) : Nat :=
  cs.foldl (fun acc c => acc * 16 + hexVal c) 0

/-- Tolerant decimal reading of a whole argument. -/
def parseDec (cs : List Char) : Nat :=
  cs.foldl (fun acc c => acc * 10 + decVal c) 0

/-- Numeric argument reading: `0x`/`0X` prefix selects hexadecimal,
otherwise decimal (the `Strtoi` convention). -/
def parseNum : List Char → Nat
  | '0' :: 'x' :: rest => parseHex rest
  | '0' :: 'X' :: rest => parseHex rest
  | cs => parseDec cs

/-- Canonical numeric argument rendering: `0x` plus uppercase hex. -/
def renderNum (n : Nat) : List Char :=
  '0' :: 'x' :: hexChars n

/-- Hexadecimal byte-pair rendering (two uppercase digits per byte). -/
def hexPairs (bs : List Nat) : List Char :=
  bs.flatMap (fun b => hexPad 2 b)

/-- Hexadecimal byte-pair reading (a trailing odd digit is dropped). -/
def parsePairs : List Char → List Nat
  | c1 :: c2 :: rest => (hexVal c1 * 16 + hexVal c2) :: parsePairs rest
  | _ => []

/-- Canonical 8-4-4-4-12 GUID rendering of the 16-byte wire form
(little-endian `u32`, two little-endian `u16`s, eight plain bytes),
with uppercase hexadecimal digits as the repository's tests pin. -/
def guidText (g : List Nat) : List Char :=
  hexPad 8 (u32le g 0) ++ '-' ::
  (hexPad 4 (u16le g 4) ++ '-' ::
   (hexPad 4 (u16le g 6) ++ '-' ::
    (hexPad 2 (g.getD 8 0) ++ hexPad 2 (g.getD 9 0) ++ '-' ::
     hexPairs [g.getD 10 0, g.getD 11 0, g.getD 12 0, g.getD 13 0,
               g.getD 14 0, g.getD 15 0])))

/-- GUID reading: the five dash-separated groups back to the 16-byte
wire form. -/
def guidBytes (cs : List Char) : List Nat :=
  match cs.splitOn '-' with
  | [s1, s2, s3, s4, s5] =>
    u32leBytes (parseHex s1) ++ u16leBytes (parseHex s2) ++
    u16leBytes (parseHex s3) ++ parsePairs s4 ++ parsePairs s5
  | _ => List.replicate 16 0

/-- Depth bookkeeping of the parenthesis-aware scan. -/
def depthStep (d : Nat) (c : Char) : Nat :=
  if c = '(' then d + 1 else if c = ')' then d - 1 else d

/-- A segment is safe for the `/` splitter: scanning it from the given
depth never meets `/` at depth 0, and it ends back at depth 0. -/
def segSafeGo : List Char → Nat → Bool
  | [], d => d = 0
  | c :: rest, d =>
    if c = '/' ∧ d = 0 then false else segSafeGo rest (depthStep d c)

/-- A segment is safe for the `/` splitter from depth 0. -/
def segSafe (s : List Char) : Bool := segSafeGo s 0

/-- Split a device-path text on `/` separators that are outside
parentheses (the `GetNextDeviceNodeStr` convention). -/
def splitTopGo : List Char → Nat → List Char → List (List Char)
  | [], _, acc => [acc.reverse]
  | c :: rest, d, acc =>
    if c = '/' ∧ d = 0 then acc.reverse :: splitTopGo rest 0 []
    else splitTopGo rest (depthStep d c) (c :: acc)

/-- Split a device-path text into node segments. -/
def splitTop (cs : List Char) : List (List Char) := splitTopGo cs 0 []

/-- Split a node argument list on commas. -/
def splitCommaGo : List Char → List Char → List (List Char)
  | [], acc => [acc.reverse]
  | c :: rest, acc =>
    if c = ',' then acc.reverse :: splitCommaGo rest []
    else splitCommaGo rest (c :: acc)

/-- Split a node argument list on commas. -/
def splitComma (cs : List Char) : List (List Char) := splitCommaGo cs []

/-- Find the first opening parenthesis: returns the node name before it
and everything after it. -/
def nameSplitGo : List Char → List Char → Option (List Char × List Char)
  | [], _ => none
  | c :: rest, acc =>
    if c = '(' then some (acc.reverse, rest) else nameSplitGo rest (c :: acc)

/-- Decompose a segment of the shape `Name(Args)`: the name before the
first `(` and the argument text up to the final `)`.  `none` when there
is no `(` or the segment does not end with `)`. -/
def nodeNameArgs (s : List Char) : Option (List Char × List Char) :=
  match nameSplitGo s [] with
  | none => none
  | some (name, rest) =>
    if rest.getLast? = some ')' then some (name, rest.dropLast) else none

/-! ## Device-path nodes, structured -/

/-- A device-path node: type byte, subtype byte, payload (the bytes
after the 4-byte header). -/
structure DpNode where
  typ : Nat
  sub : Nat
  payload : List Nat
deriving DecidableEq

/-- Wire form of a node: header with little-endian inclusive length,
then the payload. -/
def encodeNode (n : DpNode) : List Nat :=
  n.typ :: n.sub :: u16leBytes (n.payload.length + 4) ++ n.payload

/-- Wire form of a chain: the non-End nodes followed by End-Entire. -/
def encodeChain (ns : List DpNode) : List Nat :=
  (ns.map encodeNode).flatten ++ endNodeBytes

/-- The EISA PNP identifier of PNP0A03 (PCI root bridge), as stored in
the `HID` field of an ACPI node. -/
def HID_PCIROOT : Nat := 0x0a0341d0

/-- Text of an ACPI PciRoot node. -/
def renderPciRoot (n : DpNode) : List Char :=
  'P' :: 'c' :: 'i' :: 'R' :: 'o' :: 'o' :: 't' :: '(' ::
    (renderNum (u32le n.payload 4) ++ [')'])

/-- Text of a PCI node (`Pci(Device,Function)`; the payload stores
Function first). -/
def renderPci (n : DpNode) : List Char :=
  'P' :: 'c' :: 'i' :: '(' ::
    (renderNum (n.payload.getD 1 0) ++ ',' ::
     (renderNum (n.payload.getD 0 0) ++ [')']))

/-- Text of an ATAPI node: the display form shows only the LUN, the
full form also the primary/secondary and master/slave selectors. -/
def renderAta (displayOnly : Bool) (n : DpNode) : List Char :=
  if displayOnly then
    'A' :: 't' :: 'a' :: '(' :: (renderNum (u16le n.payload 2) ++ [')'])
  else
    'A' :: 't' :: 'a' :: '(' ::
      ((if n.payload.getD 0 0 = 1 then "Secondary".data else "Primary".data) ++
       ',' :: ((if n.payload.getD 1 0 = 1 then "Slave".data else "Master".data) ++
       ',' :: (renderNum (u16le n.payload 2) ++ [')'])))

/-- Text of a MAC node: six address bytes for interface types 0 and 1,
all 32 otherwise, then the interface type. -/
def renderMac (n : DpNode) : List Char :=
  'M' :: 'A' :: 'C' :: '(' ::
    (hexPairs (if n.payload.getD 32 0 = 0 ∨ n.payload.getD 32 0 = 1
               then n.payload.take 6 else n.payload.take 32) ++
     ',' :: (renderNum (n.payload.getD 32 0) ++ [')']))

/-- Text of a URI node: the payload is the ASCII text of the URI. -/
def renderUri (n : DpNode) : List Char :=
  'U' :: 'r' :: 'i' :: '(' :: (n.payload.map Char.ofNat ++ [')'])

/-- Text of a GPT hard-disk node:
`HD(Partition,GPT,Signature,Start,Size)`. -/
def renderHd (n : DpNode) : List Char :=
  'H' :: 'D' :: '(' ::
    (decChars (u32le n.payload 0) ++ ',' ::
     ('G' :: 'P' :: 'T' :: ',' ::
      (guidText ((n.payload.drop 20).take 16) ++ ',' ::
       (renderNum (u64le n.payload 4) ++ ',' ::
        (renderNum (u64le n.payload 12) ++ [')'])))))

/-- Text of a file-path node: the UCS-2 path up to its NUL. -/
def renderFilePath (n : DpNode) : List Char :=
  ((ucs2Units n.payload).takeWhile (fun u => ¬ u = 0)).map Char.ofNat

/-- Text of a firmware-volume node. -/
def renderFv (n : DpNode) : List Char :=
  'F' :: 'v' :: '(' :: (guidText n.payload ++ [')'])

/-- Text of a firmware-file node. -/
def renderFvFile (n : DpNode) : List Char :=
  'F' :: 'v' :: 'F' :: 'i' :: 'l' :: 'e' :: '(' :: (guidText n.payload ++ [')'])

/-- Text of a node of unrecognised type: the generic
`Path(type,subtype,hex-data)` fallback form. -/
def renderPathFallback (n : DpNode) : List Char :=
  'P' :: 'a' :: 't' :: 'h' :: '(' ::
    (decChars n.typ ++ ',' :: (decChars n.sub ++ ',' ::
     (hexPairs n.payload ++ [')'])))

/-- Modelled from the spec: the node-table dispatch of the EDK2 text
writer (vendored outside the library sources) over the node kinds the
specification exercises; any other `(Type, SubType, payload shape)`
falls through to the generic `Path(type,subtype,hex-data)` form. -/
def dpNodeText (displayOnly : Bool) (n : DpNode) : List Char :=
  if n.typ = 2 ∧ n.sub = 1 ∧ n.payload.length = 8 ∧
     u32le n.payload 0 = HID_PCIROOT then renderPciRoot n
  else if n.typ = 1 ∧ n.sub = 1 ∧ n.payload.length = 2 then renderPci n
  else if n.typ = 3 ∧ n.sub = 1 ∧ n.payload.length = 4 then
    renderAta displayOnly n
  else if n.typ = 3 ∧ n.sub = 11 ∧ n.payload.length = 33 then renderMac n
  else if n.typ = 3 ∧ n.sub = 24 then renderUri n
  else if n.typ = 4 ∧ n.sub = 1 ∧ n.payload.length = 38 ∧
          n.payload.getD 36 0 = 2 ∧ n.payload.getD 37 0 = 2 then renderHd n
  else if n.typ = 4 ∧ n.sub = 4 then renderFilePath n
  else if n.typ = 4 ∧ n.sub = 6 ∧ n.payload.length = 16 then renderFvFile n
  else if n.typ = 4 ∧ n.sub = 7 ∧ n.payload.length = 16 then renderFv n
  else renderPathFallback n

/-- Modelled from the spec: the text of a whole chain, nodes joined
with `/` (EDK2 `ConvertDevicePathToText`, vendored outside the library
sources). -/
def dpChainText (displayOnly : Bool) (ns : List DpNode) : List Char :=
  List.intercalate ['/'] (ns.map (dpNodeText displayOnly))

/-- The embedding of `efidp_to_text` over structured chains (the
`allow_shortcuts` flag affects none of the modelled node forms). -/
def efidp_to_text (ns : List DpNode) (displayOnly allowShortcuts : Bool) :
    String :=
  String.mk (dpChainText displayOnly ns)

/-! ## Device-path text reader -/

/-- A file-path node embedding a whole segment (UCS-2 text plus NUL). -/
def filePathNodeOf (s : List Char) : DpNode :=
  ⟨4, 4, ucs2Bytes (s.map Char.toNat ++ [0])⟩

/-- The typed-node reader for a recognised `Name(Args)` segment, or
`none` when the name is not in the table. -/
def dpTypedFromText (name args : List Char) : Option DpNode :=
  if name = "PciRoot".data then
    some ⟨2, 1, u32leBytes HID_PCIROOT ++ u32leBytes (parseNum args)⟩
  else if name = "Pci".data then
    match splitComma args with
    | [a1, a2] => some ⟨1, 1, [parseNum a2 % 256, parseNum a1 % 256]⟩
    | _ => some ⟨1, 1, [0, parseNum args % 256]⟩
  else if name = "Ata".data then
    match splitComma args with
    | [a1] => some ⟨3, 1, [0, 0] ++ u16leBytes (parseNum a1)⟩
    | [a1, a2, a3] =>
      some ⟨3, 1, [if a1 = "Secondary".data then 1 else 0,
                   if a2 = "Slave".data then 1 else 0] ++
                  u16leBytes (parseNum a3)⟩
    | _ => some ⟨3, 1, [0, 0, 0, 0]⟩
  else if name = "MAC".data then
    match splitComma args with
    | [a1, a2] =>
      some ⟨3, 11, (parsePairs a1 ++ List.replicate 32 0).take 32 ++
                   [parseNum a2 % 256]⟩
    | _ => some ⟨3, 11, (parsePairs args ++ List.replicate 32 0).take 32 ++ [0]⟩
  else if name = "Uri".data then
    some ⟨3, 24, args.map (fun c => c.toNat % 256)⟩
  else if name = "HD".data then
    match splitComma args with
    | [a1, a2, a3, a4, a5] =>
      if a2 = "GPT".data then
        some ⟨4, 1, u32leBytes (parseNum a1) ++ u64leBytes (parseNum a4) ++
                    u64leBytes (parseNum a5) ++ guidBytes a3 ++ [2, 2]⟩
      else none
    | _ => none
  else if name = "FvFile".data then some ⟨4, 6, guidBytes args⟩
  else if name = "Fv".data then some ⟨4, 7, guidBytes args⟩
  else none

/-- Modelled from the spec: the segment reader of the EDK2 text reader
(vendored outside the library sources): a recognised `Name(Args)`
segment becomes its typed node, anything else is embedded as a
file-path node. -/
def dpNodeFromText (s : List Char) : DpNode :=
  match nodeNameArgs s with
  | none => filePathNodeOf s
  | some (name, args) =>
    match dpTypedFromText name args with
    | some n => n
    | none => filePathNodeOf s

/-- Modelled from the spec: EDK2
`UefiDevicePathLibConvertTextToDevicePath` (vendored outside the
library sources): fail on empty text, otherwise split into segments on
unparenthesised `/` and read each segment. -/
def convertTextToDevicePath (cs : List Char) : Option (List DpNode) :=
  if cs = [] then none
  else some ((splitTop cs).map dpNodeFromText)

/-! ## Plausibility check (efidevpath.c) -/

/-- Alphanumeric test on a UCS-2 code unit, as the C `isalnum` sees it
in the C locale. -/
def isAlnumUnit (u : Nat) : Bool :=
  (48 ≤ u ∧ u ≤ 57) ∨ (65 ≤ u ∧ u ≤ 90) ∨ (97 ≤ u ∧ u ≤ 122)

/-- The per-node test of `efidp_plausible`: a media file-path node
whose text, after dropping one trailing NUL and the leading run of
alphanumeric characters, starts with `(` and ends with `)`. -/
def nodeSuspect (n : DpNode) : Bool :=
  n.typ = 4 ∧ n.sub = 4 ∧
  (let us := ucs2Units n.payload
   let us1 := if us.getLast? = some 0 then us.dropLast else us
   let us2 := us1.dropWhile isAlnumUnit
   us2.head? = some 40 ∧ us2.getLast? = some 41)

/-- The embedding of `efidp_plausible`: scan the nodes up to the first
End-type node (`Type = 0x7F`); the path is plausible when no scanned
file-path node is implausible. -/
def efidp_plausible (ns : List DpNode) : Bool :=
  ¬ (ns.takeWhile (fun n => ¬ n.typ = 0x7f)).any nodeSuspect

/-- The embedding of `efidp_from_text`: convert the text, then reject
implausible results unless `allow_implausible` is set. -/
def efidp_from_text (text : String) (allowLoose : Bool) :
    Option (List DpNode) :=
  match convertTextToDevicePath text.data with
  | none => none
  | some ns =>
    if allowLoose || efidp_plausible ns then some ns else none

/-! ## Proof-support definitions -/

/-- Derivation-style characterisation of the chain walk: `ChainSpec s b
l` holds when the walk of `chainLenGo` starting with flag `s` succeeds
on `b` with result `l` (proved equivalent below). -/
inductive ChainSpec : Bool → List Nat → Nat → Prop
  | stop (b : List Nat) (h4 : 4 ≤ b.length) (ht : b.getD 0 0 = 0x7f)
      (hs : b.getD 1 0 = 0xff) (hl : u16le b 2 = 4) : ChainSpec true b 4
  | cons (s : Bool) (b : List Nat) (r : Nat)
      (h4 : 4 ≤ b.length) (hl : 4 ≤ u16le b 2) (hb : u16le b 2 ≤ b.length)
      (hne : ¬ (b.getD 0 0 = 0x7f ∧ b.getD 1 0 = 0xff))
      (htail : ChainSpec true (b.drop (u16le b 2)) r) :
      ChainSpec s b (u16le b 2 + r)

/-- A byte list that is exactly one well-formed chain. -/
def IsDpChain (c : List Nat) : Prop := efidp_first_chain c = some c.length

instance : DecidablePred IsDpChain := fun c =>
  inferInstanceAs (Decidable (_ = _))

/-- Assemble an `EFI_LOAD_OPTION` record from its parts: attributes,
the `FilePathListLength` field value, the description code units
(without their NUL), the chains, and the optional data. -/
def mkLoadOption (attrs fpll : Nat) (descUnits : List Nat)
    (chains : List (List Nat)) (data : List Nat) : List Nat :=
  u32leBytes attrs ++ u16leBytes fpll ++ ucs2Bytes descUnits ++ [0, 0] ++
    chains.flatten ++ data

/-- Description code units that convert cleanly: no NUL, 16-bit, not
surrogates. -/
def DescUnits (us : List Nat) : Prop :=
  ∀ u ∈ us, u ≠ 0 ∧ u < 65536 ∧ (u < 0xD800 ∨ 0xE000 ≤ u)

instance : DecidablePred DescUnits := fun us =>
  inferInstanceAs (Decidable (∀ u ∈ us, _ ∧ _ ∧ _))

/-! ### Canonical node shapes for the text round-trip -/

/-- Canonical PciRoot node. -/
def CanonPciRoot (n : DpNode) : Prop :=
  n.typ = 2 ∧ n.sub = 1 ∧ n.payload.length = 8 ∧
  u32le n.payload 0 = HID_PCIROOT ∧ ByteList n.payload

/-- Canonical Pci node. -/
def CanonPci (n : DpNode) : Prop :=
  n.typ = 1 ∧ n.sub = 1 ∧ n.payload.length = 2 ∧ ByteList n.payload

/-- Canonical Ata node (selector bytes 0 or 1). -/
def CanonAta (n : DpNode) : Prop :=
  n.typ = 3 ∧ n.sub = 1 ∧ n.payload.length = 4 ∧ ByteList n.payload ∧
  n.payload.getD 0 0 ≤ 1 ∧ n.payload.getD 1 0 ≤ 1

/-- Canonical MAC node (unshown address bytes zero when only six are
rendered). -/
def CanonMac (n : DpNode) : Prop :=
  n.typ = 3 ∧ n.sub = 11 ∧ n.payload.length = 33 ∧ ByteList n.payload ∧
  ((n.payload.getD 32 0 = 0 ∨ n.payload.getD 32 0 = 1) →
   ∀ b ∈ (n.payload.drop 6).take 26, b = 0)

/-- Canonical URI node: printable ASCII text free of parentheses and
commas. -/
def CanonUri (n : DpNode) : Prop :=
  n.typ = 3 ∧ n.sub = 24 ∧
  ∀ b ∈ n.payload, 32 ≤ b ∧ b < 127 ∧ b ≠ 40 ∧ b ≠ 41 ∧ b ≠ 44

/-- Canonical GPT hard-disk node. -/
def CanonHd (n : DpNode) : Prop :=
  n.typ = 4 ∧ n.sub = 1 ∧ n.payload.length = 38 ∧ ByteList n.payload ∧
  n.payload.getD 36 0 = 2 ∧ n.payload.getD 37 0 = 2

/-- Canonical file-path node: a non-empty NUL-terminated UCS-2 text of
printable ASCII characters free of parentheses, commas and the `/`
separator. -/
def CanonFilePath (n : DpNode) : Prop :=
  n.typ = 4 ∧ n.sub = 4 ∧
  n.payload = ucs2Bytes (ucs2Units n.payload) ∧
  (ucs2Units n.payload).getLast? = some 0 ∧
  (ucs2Units n.payload).dropLast ≠ [] ∧
  ∀ u ∈ (ucs2Units n.payload).dropLast,
    32 ≤ u ∧ u < 127 ∧ u ≠ 40 ∧ u ≠ 41 ∧ u ≠ 44 ∧ u ≠ 47

/-- Canonical firmware-file node. -/
def CanonFvFile (n : DpNode) : Prop :=
  n.typ = 4 ∧ n.sub = 6 ∧ n.payload.length = 16 ∧ ByteList n.payload

/-- Canonical firmware-volume node. -/
def CanonFv (n : DpNode) : Prop :=
  n.typ = 4 ∧ n.sub = 7 ∧ n.payload.length = 16 ∧ ByteList n.payload

/-- A node of one of the canonical shapes the modelled codec
round-trips. -/
def canonicalNode (n : DpNode) : Prop :=
  CanonPciRoot n ∨ CanonPci n ∨ CanonAta n ∨ CanonMac n ∨ CanonUri n ∨
  CanonHd n ∨ CanonFilePath n ∨ CanonFvFile n ∨ CanonFv n

instance : DecidablePred CanonPciRoot := fun n =>
  inferInstanceAs (Decidable (_ ∧ _ ∧ _ ∧ _ ∧ ByteList _))

instance : DecidablePred CanonPci := fun n =>
  inferInstanceAs (Decidable (_ ∧ _ ∧ _ ∧ ByteList _))

instance : DecidablePred CanonAta := fun n =>
  inferInstanceAs (Decidable (_ ∧ _ ∧ _ ∧ ByteList _ ∧ _ ∧ _))

instance : DecidablePred CanonMac := fun n =>
  inferInstanceAs (Decidable (_ ∧ _ ∧ _ ∧ ByteList _ ∧ _))

instance : DecidablePred CanonUri := fun n =>
  inferInstanceAs (Decidable (_ ∧ _ ∧ _))

instance : DecidablePred CanonHd := fun n =>
  inferInstanceAs (Decidable (_ ∧ _ ∧ _ ∧ ByteList _ ∧ _ ∧ _))

instance : DecidablePred CanonFilePath := fun n =>
  inferInstanceAs (Decidable (_ ∧ _ ∧ _ ∧ _ ∧ _ ∧ _))

instance : DecidablePred CanonFvFile := fun n =>
  inferInstanceAs (Decidable (_ ∧ _ ∧ _ ∧ ByteList _))

instance : DecidablePred CanonFv := fun n =>
  inferInstanceAs (Decidable (_ ∧ _ ∧ _ ∧ ByteList _))

instance : DecidablePred canonicalNode := fun n =>
  inferInstanceAs (Decidable (_ ∨ _ ∨ _ ∨ _ ∨ _ ∨ _ ∨ _ ∨ _ ∨ _))

/-! ## Concrete test vectors

Byte-level vectors taken from the repository self-tests (`test_hddopt`,
`test_badopt` in efibootdevtest.c). -/

/-- The `PciRoot(0x0)` ACPI node of the hard-disk test path. -/
def hddPciRoot : List Nat :=
  [0x02, 0x01, 0x0c, 0x00, 0xd0, 0x41, 0x03, 0x0a, 0, 0, 0, 0]

/-- The `Pci(0x1,0x2)` node (payload stores Function 2, then Device 1). -/
def hddPci : List Nat := [0x01, 0x01, 0x06, 0x00, 0x02, 0x01]

/-- The `Ata(0x0)` ATAPI node. -/
def hddAta : List Nat := [0x03, 0x01, 0x08, 0x00, 0, 0, 0, 0]

/-- The end-of-device-path node. -/
def dpEnd : List Nat := [0x7f, 0xff, 0x04, 0x00]

/-- The full hard-disk device-path chain of `test_hddopt`. -/
def hddChain : List Nat := hddPciRoot ++ hddPci ++ hddAta ++ dpEnd

/-- The UCS-2 code units of the description string of `test_hddopt`. -/
def hddDescUnits : List Nat := [72, 97, 114, 100, 32, 100, 105, 115, 107]

/-- The complete load-option record of `test_hddopt`. -/
def hddOptBytes : List Nat := mkLoadOption 1 30 hddDescUnits [hddChain] []

/-- The boot entry that decoding `hddOptBytes` produces. -/
def hddEntry : EfiBootEntry :=
  { modified := false, type := .boot, index := EFIBOOT_INDEX_AUTO,
    attributes := 1,
    description := [72, 97, 114, 100, 32, 100, 105, 115, 107],
    paths := [hddChain], data := [], name := "" }

/-- Minimal description vector for witnesses. -/
def c6Desc : List Nat := [66]

/-- Minimal two-node chain (one 4-byte node, then the terminator) for
witnesses. -/
def c6Chain : List Nat := [0x01, 0x01, 0x04, 0x00, 0x7f, 0xff, 0x04, 0x00]

/-- Optional-data vector of `test_badopt`. -/
def c6Data : List Nat := [1, 2, 3, 4, 5]

/-- The empty variable store. -/
def emptyStore : EfiVarStore := { vars := [] }

/-- A mock store pre-populated at `Boot0000`, `Boot0001` and `Boot0003`
(the AUTO-assignment scenario of the specification). -/
def c4Store : EfiVarStore :=
  { vars := [("Boot0000", []), ("Boot0001", []), ("Boot0003", [])] }

/-- A well-formed modified Boot entry with an assigned index and name. -/
def c5Good : EfiBootEntry :=
  { modified := true, type := .boot, index := 5, attributes := 1,
    description := [65], paths := [c6Chain], data := [],
    name := "Boot0005" }

/-- A modified entry of the wrong (Driver) type. -/
def c5Bad : EfiBootEntry :=
  { modified := true, type := .driver, index := EFIBOOT_INDEX_AUTO,
    attributes := 1, description := [66], paths := [c6Chain], data := [],
    name := "" }

/-- Wire form of the firmware-volume GUID
`7CB8BDC9-F8EB-4F34-AAEA-3EE4AF6516A1` of `test_fvfilepath`. -/
def fvGuidBytes : List Nat :=
  [0xC9, 0xBD, 0xB8, 0x7C, 0xEB, 0xF8, 0x34, 0x4F,
   0xAA, 0xEA, 0x3E, 0xE4, 0xAF, 0x65, 0x16, 0xA1]

/-- A file-path node whose text spells the `Uri(http://x)` node
syntax. -/
def uriSpoof : DpNode := filePathNodeOf ("Uri(http://x)").data

/-- The structured nodes of the hard-disk test path. -/
def hddNodes : List DpNode :=
  [⟨2, 1, [0xd0, 0x41, 0x03, 0x0a, 0, 0, 0, 0]⟩, ⟨1, 1, [2, 1]⟩,
   ⟨3, 1, [0, 0, 0, 0]⟩]

/-! ## Theorems

Helper lemmas first, then one theorem (with witness or counterexample
where applicable) per claim. -/

theorem getD_take (b : List Nat) : ∀ (l i : Nat), i < l →
    (b.take l).getD i 0 = b.getD i 0 := by
  induction b with
  | nil => intro l i _; simp
  | cons x xs ih =>
    intro l i hil
    match l, i with
    | l + 1, 0 => simp
    | l + 1, i + 1 =>
      simp only [List.take_succ_cons, List.getD_cons_succ]
      exact ih l i (by omega)

theorem getD_append_left (b ext : List Nat) (i : Nat) (h : i < b.length) :
    (b ++ ext).getD i 0 = b.getD i 0 := by
  simp [List.getD_eq_getElem?_getD, List.getElem?_append_left h]

theorem getD_take_append (b ext : List Nat) (l i : Nat) (hi : i < l)
    (hl : l ≤ b.length) : (b.take l ++ ext).getD i 0 = b.getD i 0 := by
  rw [getD_append_left, getD_take b l i hi]
  simp only [List.length_take]
  omega

theorem u16le_take_append (b ext : List Nat) (l : Nat) (h4 : 4 ≤ l)
    (hl : l ≤ b.length) : u16le (b.take l ++ ext) 2 = u16le b 2 := by
  unfold u16le
  rw [getD_take_append b ext l 2 (by omega) hl,
      getD_take_append b ext l 3 (by omega) hl]

theorem chainLenGo_unfold (f : Nat) (s : Bool) (b : List Nat) :
    chainLenGo (f + 1) s b =
      if b.length < 4 then none
      else if u16le b 2 < 4 then none
      else if b.length < u16le b 2 then none
      else if b.getD 0 0 = 0x7f ∧ b.getD 1 0 = 0xff then
        if u16le b 2 = 4 ∧ s = true then some 4 else none
      else
        (chainLenGo f true (b.drop (u16le b 2))).map
          (fun r => u16le b 2 + r) := rfl

theorem chainLenGo_succ (f : Nat) : ∀ (s : Bool) (b : List Nat),
    b.length ≤ f → chainLenGo (f + 1) s b = chainLenGo f s b := by
  induction f with
  | zero =>
    intro s b hb
    have hbnil : b = [] := List.eq_nil_of_length_eq_zero (Nat.le_zero.mp hb)
    subst hbnil
    simp [chainLenGo]
  | succ f ih =>
    intro s b hb
    rw [chainLenGo_unfold (f + 1) s b, chainLenGo_unfold f s b]
    by_cases h4 : b.length < 4
    · rw [if_pos h4, if_pos h4]
    rw [if_neg h4, if_neg h4]
    by_cases hl4 : u16le b 2 < 4
    · rw [if_pos hl4, if_pos hl4]
    rw [if_neg hl4, if_neg hl4]
    by_cases hbl : b.length < u16le b 2
    · rw [if_pos hbl, if_pos hbl]
    rw [if_neg hbl, if_neg hbl]
    by_cases hend : b.getD 0 0 = 0x7f ∧ b.getD 1 0 = 0xff
    · rw [if_pos hend, if_pos hend]
    rw [if_neg hend, if_neg hend,
        ih true (b.drop (u16le b 2)) (by simp only [List.length_drop]; omega)]

theorem chainLenGo_norm (f : Nat) (s : Bool) (b : List Nat)
    (h : b.length ≤ f) : chainLenGo f s b = chainLenGo b.length s b := by
  induction f with
  | zero =>
    have h0 : b.length = 0 := Nat.le_zero.mp h
    rw [h0]
  | succ f ih =>
    rcases Nat.lt_or_ge f b.length with h1 | h2
    · have hfb : b.length = f + 1 := by omega
      rw [hfb]
    · rw [chainLenGo_succ f s b h2, ih h2]

theorem chainSpec_of_some : ∀ (f : Nat) (s : Bool) (b : List Nat) (l : Nat),
    chainLenGo f s b = some l → ChainSpec s b l := by
  intro f
  induction f with
  | zero => intro s b l h; simp [chainLenGo] at h
  | succ f ih =>
    intro s b l h
    rw [chainLenGo_unfold] at h
    by_cases h4 : b.length < 4
    · rw [if_pos h4] at h; exact absurd h (by simp)
    rw [if_neg h4] at h
    by_cases hl4 : u16le b 2 < 4
    · rw [if_pos hl4] at h; exact absurd h (by simp)
    rw [if_neg hl4] at h
    by_cases hbl : b.length < u16le b 2
    · rw [if_pos hbl] at h; exact absurd h (by simp)
    rw [if_neg hbl] at h
    by_cases hend : b.getD 0 0 = 0x7f ∧ b.getD 1 0 = 0xff
    · rw [if_pos hend] at h
      by_cases hfin : u16le b 2 = 4 ∧ s = true
      · rw [if_pos hfin] at h
        obtain ⟨hf4, hfs⟩ := hfin
        have hl4' : (4 : Nat) = l := Option.some.inj h
        subst hl4'
        subst hfs
        exact ChainSpec.stop b (by omega) hend.1 hend.2 hf4
      · rw [if_neg hfin] at h; exact absurd h (by simp)
    · rw [if_neg hend] at h
      obtain ⟨r, hr, hlr⟩ := Option.map_eq_some'.mp h
      subst hlr
      exact ChainSpec.cons s b r (by omega) (by omega) (by omega) hend
        (ih true (b.drop (u16le b 2)) r hr)

theorem some_of_chainSpec {s : Bool} {b : List Nat} {l : Nat}
    (h : ChainSpec s b l) : ∀ (f : Nat), b.length ≤ f →
    chainLenGo f s b = some l := by
  induction h with
  | stop b h4 ht hs hl =>
    intro f hf
    rcases f with _ | f
    · omega
    · rw [chainLenGo_unfold, if_neg (by omega), if_neg (by omega),
          if_neg (by omega), if_pos ⟨ht, hs⟩, if_pos ⟨hl, rfl⟩]
  | cons s b r h4 hl hb hne htail ih =>
    intro f hf
    rcases f with _ | f
    · omega
    · rw [chainLenGo_unfold, if_neg (by omega), if_neg (by omega),
          if_neg (by omega), if_neg hne,
          ih f (by simp only [List.length_drop]; omega)]
      rfl

theorem efidp_first_chain_iff (b : List Nat) (l : Nat) :
    efidp_first_chain b = some l ↔ ChainSpec false b l := by
  constructor
  · exact chainSpec_of_some b.length false b l
  · intro h
    exact some_of_chainSpec h b.length le_rfl

theorem chainSpec_bounds {s : Bool} {b : List Nat} {l : Nat}
    (h : ChainSpec s b l) : 4 ≤ l ∧ l ≤ b.length := by
  induction h with
  | stop b h4 ht hs hl => exact ⟨le_rfl, h4⟩
  | cons s b r h4 hl hb hne htail ih =>
    simp only [List.length_drop] at ih
    omega

theorem chainSpec_take_append {s : Bool} {b : List Nat} {l : Nat}
    (h : ChainSpec s b l) : ∀ ext, ChainSpec s (b.take l ++ ext) l := by
  induction h with
  | stop b h4 ht hs hl =>
    intro ext
    refine ChainSpec.stop _ (by simp [List.length_take]; omega) ?_ ?_ ?_
    · rw [getD_take_append b ext 4 0 (by omega) h4]; exact ht
    · rw [getD_take_append b ext 4 1 (by omega) h4]; exact hs
    · rw [u16le_take_append b ext 4 (by omega) h4]; exact hl
  | cons s b r h4 hl hb hne htail ih =>
    intro ext
    have hbnd := chainSpec_bounds htail
    simp only [List.length_drop] at hbnd
    have hlen : u16le b 2 + r ≤ b.length := by omega
    have hu : u16le (b.take (u16le b 2 + r) ++ ext) 2 = u16le b 2 :=
      u16le_take_append b ext (u16le b 2 + r) (by omega) hlen
    have h0 : (b.take (u16le b 2 + r) ++ ext).getD 0 0 = b.getD 0 0 :=
      getD_take_append b ext (u16le b 2 + r) 0 (by omega) hlen
    have h1 : (b.take (u16le b 2 + r) ++ ext).getD 1 0 = b.getD 1 0 :=
      getD_take_append b ext (u16le b 2 + r) 1 (by omega) hlen
    have hlenB : (b.take (u16le b 2 + r) ++ ext).length =
        u16le b 2 + r + ext.length := by
      simp only [List.length_append, List.length_take]
      omega
    have hdrop : (b.take (u16le b 2 + r) ++ ext).drop (u16le b 2) =
        (b.drop (u16le b 2)).take r ++ ext := by
      rw [List.drop_append_of_le_length
            (by simp only [List.length_take]; omega),
          List.drop_take]
      congr 2
      omega
    have hres := ChainSpec.cons s (b.take (u16le b 2 + r) ++ ext) r
      (by rw [hlenB]; omega)
      (by rw [hu]; exact hl)
      (by rw [hu, hlenB]; omega)
      (by rw [h0, h1]; exact hne)
      (by rw [hu, hdrop]; exact ih ext)
    rw [hu] at hres
    exact hres

theorem take_drop_take (b : List Nat) (m l : Nat) (h : l ≤ m) :
    (b.take m).drop l = (b.drop l).take (m - l) := by
  rw [List.drop_take]

theorem chainSpec_no_proper_front {s : Bool} {b : List Nat} {l : Nat}
    (h : ChainSpec s b l) : ∀ (m : Nat), m < l → m ≤ b.length →
    ∀ (s' : Bool) (l' : Nat), ¬ ChainSpec s' (b.take m) l' := by
  induction h with
  | stop b h4 ht hs hl =>
    intro m hm hmb s' l' h'
    have hb' := chainSpec_bounds h'
    simp only [List.length_take] at hb'
    omega
  | cons s b r h4 hl hb hne htail ih =>
    intro m hm hmb s' l' h'
    have hb' := chainSpec_bounds h'
    simp only [List.length_take] at hb'
    have hm4 : 4 ≤ m := by omega
    have hu' : u16le (b.take m) 2 = u16le b 2 := by
      unfold u16le
      rw [getD_take b m 2 (by omega), getD_take b m 3 (by omega)]
    have h0' : (b.take m).getD 0 0 = b.getD 0 0 := getD_take b m 0 (by omega)
    have h1' : (b.take m).getD 1 0 = b.getD 1 0 := getD_take b m 1 (by omega)
    cases h' with
    | stop _ g4 gt gs gl =>
      rw [h0'] at gt
      rw [h1'] at gs
      exact hne ⟨gt, gs⟩
    | cons _ _ r' g4 gl gb gne gtail =>
      rw [hu'] at gtail gb
      have hrange : u16le b 2 ≤ m := by
        simp only [List.length_take] at gb
        omega
      rw [take_drop_take b m (u16le b 2) hrange] at gtail
      have hmlt : m - u16le b 2 < r := by omega
      have hmle : m - u16le b 2 ≤ (b.drop (u16le b 2)).length := by
        simp only [List.length_drop]
        omega
      exact ih (m - u16le b 2) hmlt hmle true r' gtail

theorem efidpLenGo_of_chainSpec {s : Bool} {b : List Nat} {l : Nat}
    (h : ChainSpec s b l) : ∀ (f acc : Nat), b.length < f →
    efidpLenGo f b acc = acc + l := by
  induction h with
  | stop b h4 ht hs hl =>
    intro f acc hf
    rcases f with _ | f
    · omega
    · show efidpLenGo (f + 1) b acc = acc + 4
      unfold efidpLenGo
      rw [if_pos ⟨ht, hs⟩, hl]
  | cons s b r h4 hl hb hne htail ih =>
    intro f acc hf
    rcases f with _ | f
    · omega
    · show efidpLenGo (f + 1) b acc = acc + (u16le b 2 + r)
      unfold efidpLenGo
      rw [if_neg hne, if_neg (by omega),
          ih f (acc + u16le b 2) (by simp only [List.length_drop]; omega)]
      omega

theorem efidp_len_of_chain {c : List Nat} (h : IsDpChain c) :
    efidp_len c = c.length := by
  have hs : ChainSpec false c c.length := (efidp_first_chain_iff c c.length).mp h
  unfold efidp_len
  rw [efidpLenGo_of_chainSpec hs (c.length + 1) 0 (by omega)]
  omega

theorem chain_nonempty {c : List Nat} (h : IsDpChain c) : c ≠ [] := by
  have hs := chainSpec_bounds ((efidp_first_chain_iff c c.length).mp h)
  intro hc
  subst hc
  simp at hs

theorem chain_extend {c : List Nat} (h : IsDpChain c) (ext : List Nat) :
    efidp_first_chain (c ++ ext) = some c.length := by
  have hs : ChainSpec false c c.length := (efidp_first_chain_iff c c.length).mp h
  have := chainSpec_take_append hs ext
  rw [List.take_length] at this
  exact (efidp_first_chain_iff _ _).mpr this

theorem pathsWalkGo_succ (f : Nat) : ∀ (b : List Nat), b.length ≤ f →
    pathsWalkGo (f + 1) b = pathsWalkGo f b := by
  induction f with
  | zero =>
    intro b hb
    have hbnil : b = [] := List.eq_nil_of_length_eq_zero (Nat.le_zero.mp hb)
    subst hbnil
    simp [pathsWalkGo]
  | succ f ih =>
    intro b hb
    show pathsWalkGo (f + 1 + 1) b = pathsWalkGo (f + 1) b
    by_cases hbe : b = []
    · subst hbe; simp [pathsWalkGo]
    · have hunf1 : pathsWalkGo (f + 1 + 1) b =
          (if b = [] then some []
           else match efidp_first_chain b with
           | none => none
           | some l => (pathsWalkGo (f + 1) (b.drop l)).map
               (fun cs => b.take l :: cs)) := rfl
      have hunf2 : pathsWalkGo (f + 1) b =
          (if b = [] then some []
           else match efidp_first_chain b with
           | none => none
           | some l => (pathsWalkGo f (b.drop l)).map
               (fun cs => b.take l :: cs)) := rfl
      rw [hunf1, hunf2, if_neg hbe, if_neg hbe]
      cases hch : efidp_first_chain b with
      | none => simp only [hch]
      | some l =>
        have hbnd := chainSpec_bounds ((efidp_first_chain_iff b l).mp hch)
        simp only [hch]
        rw [ih (b.drop l) (by simp only [List.length_drop]; omega)]

theorem pathsWalkGo_norm (f : Nat) (b : List Nat) (h : b.length ≤ f) :
    pathsWalkGo f b = pathsWalkGo b.length b := by
  induction f with
  | zero =>
    have h0 : b.length = 0 := Nat.le_zero.mp h
    rw [h0]
  | succ f ih =>
    rcases Nat.lt_or_ge f b.length with h1 | h2
    · have hfb : b.length = f + 1 := by omega
      rw [hfb]
    · rw [pathsWalkGo_succ f b h2, ih h2]

theorem pathsWalk_sound : ∀ (f : Nat) (b : List Nat), b.length ≤ f →
    ∀ (cs : List (List Nat)), pathsWalkGo f b = some cs →
    b = cs.flatten ∧ ∀ c ∈ cs, IsDpChain c := by
  intro f
  induction f with
  | zero =>
    intro b hb cs h
    have hbnil : b = [] := List.eq_nil_of_length_eq_zero (Nat.le_zero.mp hb)
    subst hbnil
    simp [pathsWalkGo] at h
    subst h
    simp
  | succ f ih =>
    intro b hb cs h
    by_cases hbe : b = []
    · subst hbe
      simp [pathsWalkGo] at h
      subst h
      simp
    · have hunf : pathsWalkGo (f + 1) b =
          (if b = [] then some []
           else match efidp_first_chain b with
           | none => none
           | some l => (pathsWalkGo f (b.drop l)).map
               (fun cs => b.take l :: cs)) := rfl
      rw [hunf, if_neg hbe] at h
      cases hch : efidp_first_chain b with
      | none =>
        simp only [hch] at h
        exact absurd h (by simp)
      | some l =>
        simp only [hch] at h
        obtain ⟨cs', hcs', hcons⟩ := Option.map_eq_some'.mp h
        subst hcons
        have hspec := (efidp_first_chain_iff b l).mp hch
        have hbnd := chainSpec_bounds hspec
        obtain ⟨hflat, hall⟩ := ih (b.drop l)
          (by simp only [List.length_drop]; omega) cs' hcs'
        constructor
        · conv_lhs => rw [← List.take_append_drop l b]
          rw [hflat]
          rfl
        · intro c hc
          rcases List.mem_cons.mp hc with hc1 | hc2
          · subst hc1
            have htk := chainSpec_take_append hspec []
            rw [List.append_nil] at htk
            have hlen : (b.take l).length = l := by
              simp only [List.length_take]
              omega
            unfold IsDpChain
            rw [hlen]
            exact (efidp_first_chain_iff _ _).mpr htk
          · exact hall c hc2

theorem pathsWalk_complete : ∀ (cs : List (List Nat)),
    (∀ c ∈ cs, IsDpChain c) → pathsWalk cs.flatten = some cs := by
  intro cs
  induction cs with
  | nil => intro _; simp [pathsWalk, pathsWalkGo]
  | cons c cs' ih =>
    intro hall
    have hc : IsDpChain c := hall c (List.mem_cons_self c cs')
    have hcs' : ∀ x ∈ cs', IsDpChain x := fun x hx =>
      hall x (List.mem_cons_of_mem c hx)
    have hcne : c ≠ [] := chain_nonempty hc
    have hflat : (c :: cs').flatten = c ++ cs'.flatten := rfl
    have hne : c ++ cs'.flatten ≠ [] := by
      intro hemp
      exact hcne (List.append_eq_nil.mp hemp).1
    have hbnd := chainSpec_bounds ((efidp_first_chain_iff c c.length).mp hc)
    unfold pathsWalk
    rw [hflat]
    rcases hlen : (c ++ cs'.flatten).length with _ | f
    · rw [List.length_append] at hlen
      omega
    · have hunf : pathsWalkGo (f + 1) (c ++ cs'.flatten) =
          (if c ++ cs'.flatten = [] then some []
           else match efidp_first_chain (c ++ cs'.flatten) with
           | none => none
           | some l => (pathsWalkGo f ((c ++ cs'.flatten).drop l)).map
               (fun cs => (c ++ cs'.flatten).take l :: cs)) := rfl
      rw [hunf, if_neg hne, chain_extend hc cs'.flatten]
      have hdrop : (c ++ cs'.flatten).drop c.length = cs'.flatten := by
        simp
      have htake : (c ++ cs'.flatten).take c.length = c := by
        simp
      have hlenf : cs'.flatten.length ≤ f := by
        simp only [List.length_append] at hlen
        omega
      show (pathsWalkGo f ((c ++ cs'.flatten).drop c.length)).map
          (fun cs => (c ++ cs'.flatten).take c.length :: cs) = some (c :: cs')
      rw [hdrop, htake, pathsWalkGo_norm f cs'.flatten hlenf]
      unfold pathsWalk at ih
      rw [ih hcs']
      rfl

theorem u16leBytes_u16le (b0 b1 : Nat) (h0 : b0 < 256) (h1 : b1 < 256) :
    u16leBytes (b0 + 256 * b1) = [b0, b1] := by
  unfold u16leBytes
  congr 1
  · omega
  · congr 1
    omega

theorem u32leBytes_u32le (b0 b1 b2 b3 : Nat) (h0 : b0 < 256) (h1 : b1 < 256)
    (h2 : b2 < 256) (h3 : b3 < 256) :
    u32leBytes (b0 + 256 * b1 + 65536 * b2 + 16777216 * b3) =
      [b0, b1, b2, b3] := by
  unfold u32leBytes
  have e0 : (b0 + 256 * b1 + 65536 * b2 + 16777216 * b3) % 256 = b0 := by omega
  have e1 : (b0 + 256 * b1 + 65536 * b2 + 16777216 * b3) / 256 % 256 = b1 := by
    omega
  have e2 : (b0 + 256 * b1 + 65536 * b2 + 16777216 * b3) / 65536 % 256 = b2 := by
    omega
  have e3 : (b0 + 256 * b1 + 65536 * b2 + 16777216 * b3) / 16777216 % 256 =
      b3 := by omega
  rw [e0, e1, e2, e3]

theorem twoStepInd {P : List Nat → Prop} (h0 : P []) (h1 : ∀ x, P [x])
    (h2 : ∀ x y rest, P rest → P (x :: y :: rest)) : ∀ b, P b
  | [] => h0
  | [x] => h1 x
  | x :: y :: rest => h2 x y rest (twoStepInd h0 h1 h2 rest)

theorem ucs2Units_lt {b : List Nat} (h : ByteList b) :
    ∀ u ∈ ucs2Units b, u < 65536 := by
  induction b using twoStepInd with
  | h0 => intro u hu; simp [ucs2Units] at hu
  | h1 x => intro u hu; simp [ucs2Units] at hu
  | h2 x y rest ih =>
    intro u hu
    simp only [ucs2Units, List.mem_cons] at hu
    rcases hu with hu0 | hu1
    · have hb0 : x < 256 := h x (by simp)
      have hb1 : y < 256 := h y (by simp)
      omega
    · exact ih (fun z hz => h z (by simp [hz])) u hu1

theorem ucs2Units_length : ∀ (b : List Nat),
    (ucs2Units b).length = b.length / 2 := by
  intro b
  induction b using twoStepInd with
  | h0 => simp [ucs2Units]
  | h1 x => simp [ucs2Units]
  | h2 x y rest ih =>
    simp only [ucs2Units, List.length_cons, ih]
    omega

theorem ucs2Bytes_take {b : List Nat} (h : ByteList b) :
    ∀ (k : Nat), k ≤ (ucs2Units b).length →
    ucs2Bytes ((ucs2Units b).take k) = b.take (2 * k) := by
  induction b using twoStepInd with
  | h0 =>
    intro k hk
    simp [ucs2Units] at hk
    simp [hk, ucs2Units, ucs2Bytes]
  | h1 x =>
    intro k hk
    simp [ucs2Units] at hk
    simp [hk, ucs2Units, ucs2Bytes]
  | h2 b0 b1 rest ih =>
    intro k hk
    match k with
    | 0 => simp [ucs2Bytes]
    | k + 1 =>
      simp only [ucs2Units, List.take_succ_cons, List.length_cons] at hk ⊢
      have hb0 : b0 < 256 := h b0 (by simp)
      have hb1 : b1 < 256 := h b1 (by simp)
      have hrest : ByteList rest := fun x hx => h x (by simp [hx])
      have e2 : 2 * (k + 1) = (2 * k) + 1 + 1 := by omega
      rw [e2]
      simp only [List.take_succ_cons]
      unfold ucs2Bytes
      simp only [List.flatMap_cons]
      unfold ucs2Bytes at ih
      rw [ih hrest k (by omega)]
      have e0 : (b0 + 256 * b1) % 256 = b0 := by omega
      have e1 : (b0 + 256 * b1) / 256 % 256 = b1 := by omega
      rw [e0, e1]
      rfl

theorem ucs2Units_bytes : ∀ (us : List Nat), (∀ u ∈ us, u < 65536) →
    ucs2Units (ucs2Bytes us) = us := by
  intro us
  induction us with
  | nil => intro _; simp [ucs2Bytes, ucs2Units]
  | cons u rest ih =>
    intro h
    have hu : u < 65536 := h u (by simp)
    show ucs2Units (u % 256 :: u / 256 % 256 :: ucs2Bytes rest) = u :: rest
    unfold ucs2Units
    rw [ih (fun x hx => h x (by simp [hx]))]
    congr 1
    omega

theorem efi_to_utf8_nil : efi_to_utf8 [] = some [] := rfl

theorem efi_to_utf8_cons (u : Nat) (rest : List Nat) :
    efi_to_utf8 (u :: rest) =
      if 0xD800 ≤ u ∧ u < 0xE000 then none
      else if 65536 ≤ u then none
      else (efi_to_utf8 rest).map (fun d => utf8EncUnit u ++ d) := rfl

theorem utf8_roundtrip : ∀ (us d : List Nat), efi_to_utf8 us = some d →
    utf8_to_efi d = some us := by
  intro us
  induction us with
  | nil =>
    intro d h
    rw [efi_to_utf8_nil] at h
    have hd : d = [] := (Option.some.inj h).symm
    subst hd
    rfl
  | cons u rest ih =>
    intro d h
    rw [efi_to_utf8_cons] at h
    by_cases hs : 0xD800 ≤ u ∧ u < 0xE000
    · rw [if_pos hs] at h; exact absurd h (by simp)
    rw [if_neg hs] at h
    by_cases hb : 65536 ≤ u
    · rw [if_pos hb] at h; exact absurd h (by simp)
    rw [if_neg hb] at h
    obtain ⟨d', hd', hcat⟩ := Option.map_eq_some'.mp h
    subst hcat
    have ihd : utf8DecGo d' 0 0 0 = some rest := ih d' hd'
    unfold utf8_to_efi
    by_cases h1 : u < 0x80
    · have henc : utf8EncUnit u = [u] := by unfold utf8EncUnit; rw [if_pos h1]
      rw [henc]
      show utf8DecGo (u :: d') 0 0 0 = some (u :: rest)
      simp only [utf8DecGo]
      rw [if_pos h1, ihd]
      rfl
    · by_cases h2 : u < 0x800
      · have henc : utf8EncUnit u = [0xC0 + u / 64, 0x80 + u % 64] := by
          unfold utf8EncUnit
          rw [if_neg h1, if_pos h2]
        rw [henc]
        show utf8DecGo ((0xC0 + u / 64) :: (0x80 + u % 64) :: d') 0 0 0 =
          some (u :: rest)
        simp only [utf8DecGo]
        rw [if_neg (by omega), if_neg (by omega), if_pos (by omega),
            if_pos (by constructor <;> omega), if_pos trivial,
            if_neg (by omega), ihd]
        have heq : (0xC0 + u / 64 - 0xC0) * 64 + (0x80 + u % 64 - 0x80) = u := by
          omega
        rw [heq]
        rfl
      · have henc : utf8EncUnit u =
            [0xE0 + u / 4096, 0x80 + u / 64 % 64, 0x80 + u % 64] := by
          unfold utf8EncUnit
          rw [if_neg h1, if_neg h2]
        rw [henc]
        show utf8DecGo
            ((0xE0 + u / 4096) :: (0x80 + u / 64 % 64) :: (0x80 + u % 64) :: d')
            0 0 0 = some (u :: rest)
        simp only [utf8DecGo]
        rw [if_neg (by omega), if_neg (by omega), if_neg (by omega),
            if_pos (by omega), if_pos (by constructor <;> omega),
            if_neg (by omega), if_pos (by constructor <;> omega), if_pos trivial,
            if_neg (by omega), ihd]
        have heq : ((0xE0 + u / 4096 - 0xE0) * 64 + (0x80 + u / 64 % 64 - 0x80)) *
            64 + (0x80 + u % 64 - 0x80) = u := by
          omega
        rw [heq]
        rfl

theorem take_succ_getD : ∀ (l : List Nat) (i : Nat), i < l.length →
    l.take (i + 1) = l.take i ++ [l.getD i 0] := by
  intro l
  induction l with
  | nil => intro i hi; simp at hi
  | cons x xs ih =>
    intro i hi
    match i with
    | 0 => simp
    | i + 1 =>
      show x :: xs.take (i + 1) = x :: xs.take i ++ [xs.getD i 0]
      rw [ih i (by simp at hi; omega)]
      rfl

theorem descNulIdx_spec : ∀ (l : List Nat) (i : Nat), descNulIdx l = some i →
    i < l.length ∧ l.getD i 0 = 0 := by
  intro l
  induction l with
  | nil => intro i h; simp [descNulIdx] at h
  | cons u rest ih =>
    intro i h
    simp only [descNulIdx] at h
    by_cases hu : u = 0
    · rw [if_pos hu] at h
      have h0 : (0 : Nat) = i := Option.some.inj h
      subst h0
      simpa using hu
    · rw [if_neg hu] at h
      obtain ⟨j, hj, hji⟩ := Option.map_eq_some'.mp h
      subst hji
      obtain ⟨h1, h2⟩ := ih j hj
      exact ⟨by simpa using Nat.succ_lt_succ h1, by simpa using h2⟩

theorem descNulIdx_none : ∀ (l : List Nat), (∀ u ∈ l, u ≠ 0) →
    descNulIdx l = none := by
  intro l
  induction l with
  | nil => intro _; rfl
  | cons u rest ih =>
    intro h
    simp only [descNulIdx]
    rw [if_neg (h u (by simp)), ih (fun x hx => h x (by simp [hx]))]
    rfl

theorem descNulIdx_append : ∀ (d : List Nat), (∀ u ∈ d, u ≠ 0) →
    ∀ (rest : List Nat), descNulIdx (d ++ 0 :: rest) = some d.length := by
  intro d
  induction d with
  | nil => intro _ rest; simp [descNulIdx]
  | cons u d' ih =>
    intro h rest
    show descNulIdx (u :: (d' ++ 0 :: rest)) = some (d'.length + 1)
    simp only [descNulIdx]
    rw [if_neg (h u (by simp)), ih (fun x hx => h x (by simp [hx])) rest]
    rfl

theorem bytes_head6 (b : List Nat) (h6 : ¬ b.length < 6) (hB : ByteList b) :
    u32leBytes (u32le b 0) ++ (u16leBytes (u16le b 4) ++ b.drop 6) = b := by
  match b with
  | [] | [_] | [_, _] | [_, _, _] | [_, _, _, _] | [_, _, _, _, _] =>
    simp at h6
  | b0 :: b1 :: b2 :: b3 :: b4 :: b5 :: rest =>
    have e32 : u32le (b0 :: b1 :: b2 :: b3 :: b4 :: b5 :: rest) 0 =
        b0 + 256 * b1 + 65536 * b2 + 16777216 * b3 := rfl
    have e16 : u16le (b0 :: b1 :: b2 :: b3 :: b4 :: b5 :: rest) 4 =
        b4 + 256 * b5 := rfl
    rw [e32, e16,
        u32leBytes_u32le b0 b1 b2 b3 (hB _ (by simp)) (hB _ (by simp))
          (hB _ (by simp)) (hB _ (by simp)),
        u16leBytes_u16le b4 b5 (hB _ (by simp)) (hB _ (by simp))]
    rfl

/-- C1: every load-option byte record accepted by `efiboot_from_option`
is reproduced exactly, byte for byte and with the same length, by
`efiboot_to_option` on the decoded entry. -/
theorem efiboot_option_roundtrip (bytes : List Nat) (hB : ByteList bytes)
    (e : EfiBootEntry) (h : efiboot_from_option bytes = some e) :
    efiboot_to_option e = some bytes := by
  unfold efiboot_from_option at h
  by_cases h6 : bytes.length < 6
  · rw [if_pos h6] at h; exact absurd h (by simp)
  rw [if_neg h6] at h
  cases hfind : descNulIdx (ucs2Units (bytes.drop 6)) with
  | none => rw [hfind] at h; exact absurd h (by simp)
  | some i =>
  rw [hfind] at h
  simp only [Option.some_bind] at h
  by_cases hfp : u16le bytes 4 > ((bytes.drop 6).drop (2 * (i + 1))).length
  · rw [if_pos hfp] at h; exact absurd h (by simp)
  rw [if_neg hfp] at h
  cases hwalk : pathsWalk (((bytes.drop 6).drop (2 * (i + 1))).take
      (u16le bytes 4)) with
  | none => rw [hwalk] at h; exact absurd h (by simp)
  | some chains =>
  rw [hwalk] at h
  simp only [Option.some_bind] at h
  by_cases hcnt : chains.length = 0
  · rw [if_pos hcnt] at h; exact absurd h (by simp)
  rw [if_neg hcnt] at h
  cases hconv : efi_to_utf8 ((ucs2Units (bytes.drop 6)).take i) with
  | none => rw [hconv] at h; exact absurd h (by simp)
  | some desc =>
  rw [hconv] at h
  simp only [Option.some_bind] at h
  have he := Option.some.inj h
  have hdesc_e : e.description = desc := by rw [← he]
  have hpaths_e : e.paths = chains := by rw [← he]
  have hattr_e : e.attributes = u32le bytes 0 := by rw [← he]
  have hdata_e : e.data = ((bytes.drop 6).drop (2 * (i + 1))).drop
      (u16le bytes 4) := by rw [← he]
  have hRB : ByteList (bytes.drop 6) := fun x hx =>
    hB x (List.mem_of_mem_drop hx)
  obtain ⟨hidx, hnul⟩ := descNulIdx_spec _ _ hfind
  unfold pathsWalk at hwalk
  obtain ⟨hflat, hchains⟩ := pathsWalk_sound _ _ le_rfl chains hwalk
  have hregion : (((bytes.drop 6).drop (2 * (i + 1))).take
      (u16le bytes 4)).length = u16le bytes 4 := by
    simp only [List.length_take]
    omega
  have hsum : (chains.map efidp_len).sum = u16le bytes 4 := by
    have hmap : chains.map efidp_len = chains.map List.length :=
      List.map_congr_left (fun c hc => efidp_len_of_chain (hchains c hc))
    rw [hmap, ← List.length_flatten, ← hflat, hregion]
  have hdesc : ucs2Bytes ((ucs2Units (bytes.drop 6)).take i ++ [0]) =
      (bytes.drop 6).take (2 * (i + 1)) := by
    have h1 : (ucs2Units (bytes.drop 6)).take i ++ [0] =
        (ucs2Units (bytes.drop 6)).take (i + 1) := by
      rw [take_succ_getD _ _ hidx, hnul]
    rw [h1]
    have h2 : 2 * (i + 1) = 2 * (i + 1) := rfl
    rw [ucs2Bytes_take hRB (i + 1) (by omega)]
  have hpaths : (chains.map (fun p => p.take (efidp_len p))).flatten =
      ((bytes.drop 6).drop (2 * (i + 1))).take (u16le bytes 4) := by
    have hmap : chains.map (fun p => p.take (efidp_len p)) =
        chains.map (fun p => p) := by
      refine List.map_congr_left (fun c hc => ?_)
      rw [efidp_len_of_chain (hchains c hc), List.take_length]
    rw [hmap, List.map_id', hflat]
  unfold efiboot_to_option
  rw [hdesc_e, utf8_roundtrip _ _ hconv]
  simp only [Option.map_some']
  congr 1
  rw [hpaths_e, hattr_e, hdata_e, hsum, hdesc, hpaths]
  simp only [List.append_assoc]
  rw [List.take_append_drop, List.take_append_drop]
  exact bytes_head6 bytes h6 hB

theorem ucs2Bytes_length (us : List Nat) :
    (ucs2Bytes us).length = 2 * us.length := by
  induction us with
  | nil => rfl
  | cons u rest ih =>
    show ((u % 256 :: u / 256 % 256 :: ucs2Bytes rest)).length = 2 * (rest.length + 1)
    simp only [List.length_cons, ih]
    omega

theorem ucs2Units_bytes_append (us l : List Nat) (h : ∀ u ∈ us, u < 65536) :
    ucs2Units (ucs2Bytes us ++ l) = us ++ ucs2Units l := by
  induction us with
  | nil => rfl
  | cons u rest ih =>
    have hu : u < 65536 := h u (by simp)
    show (u % 256 + 256 * (u / 256 % 256)) :: ucs2Units (ucs2Bytes rest ++ l) =
      u :: (rest ++ ucs2Units l)
    rw [ih (fun x hx => h x (by simp [hx]))]
    congr 1
    omega

theorem efi_to_utf8_total (us : List Nat) (h : DescUnits us) :
    ∃ d, efi_to_utf8 us = some d := by
  induction us with
  | nil => exact ⟨[], rfl⟩
  | cons u rest ih =>
    obtain ⟨hu0, hu1, hu2⟩ := h u (by simp)
    obtain ⟨d, hd⟩ := ih (fun x hx => h x (by simp [hx]))
    refine ⟨utf8EncUnit u ++ d, ?_⟩
    rw [efi_to_utf8_cons, if_neg (by omega), if_neg (by omega), hd]
    rfl

theorem short_chain_none (t : List Nat) (h : t.length < 4) :
    efidp_first_chain t = none := by
  unfold efidp_first_chain
  rcases hl : t.length with _ | f
  · rfl
  · rw [chainLenGo_unfold, if_pos (by omega)]

theorem pathsWalk_flatten_junk : ∀ (chains : List (List Nat)),
    (∀ c ∈ chains, IsDpChain c) → ∀ (t : List Nat), t ≠ [] →
    efidp_first_chain t = none → pathsWalk (chains.flatten ++ t) = none := by
  intro chains
  induction chains with
  | nil =>
    intro _ t htne htc
    show pathsWalk ([] ++ t) = none
    rw [List.nil_append]
    unfold pathsWalk
    rcases hl : t.length with _ | f
    · exact absurd (List.eq_nil_of_length_eq_zero hl) htne
    · have hunf : pathsWalkGo (f + 1) t =
          (if t = [] then some []
           else match efidp_first_chain t with
           | none => none
           | some l => (pathsWalkGo f (t.drop l)).map
               (fun cs => t.take l :: cs)) := rfl
      rw [hunf, if_neg htne, htc]
  | cons c rest ih =>
    intro hall t htne htc
    have hc : IsDpChain c := hall c (List.mem_cons_self c rest)
    have hrest : ∀ x ∈ rest, IsDpChain x := fun x hx =>
      hall x (List.mem_cons_of_mem c hx)
    have hcne : c ≠ [] := chain_nonempty hc
    have hbnd := chainSpec_bounds ((efidp_first_chain_iff c c.length).mp hc)
    have hflat : (c :: rest).flatten ++ t = c ++ (rest.flatten ++ t) := by
      simp [List.append_assoc]
    rw [hflat]
    have hne2 : c ++ (rest.flatten ++ t) ≠ [] := by
      intro hemp
      exact hcne (List.append_eq_nil.mp hemp).1
    unfold pathsWalk
    rcases hl : (c ++ (rest.flatten ++ t)).length with _ | f
    · exact absurd (List.eq_nil_of_length_eq_zero hl) hne2
    · have hunf : pathsWalkGo (f + 1) (c ++ (rest.flatten ++ t)) =
          (if c ++ (rest.flatten ++ t) = [] then some []
           else match efidp_first_chain (c ++ (rest.flatten ++ t)) with
           | none => none
           | some l => (pathsWalkGo f ((c ++ (rest.flatten ++ t)).drop l)).map
               (fun cs => (c ++ (rest.flatten ++ t)).take l :: cs)) := rfl
      rw [hunf, if_neg hne2, chain_extend hc (rest.flatten ++ t)]
      have hdrop : (c ++ (rest.flatten ++ t)).drop c.length =
          rest.flatten ++ t := by simp
      show ((pathsWalkGo f ((c ++ (rest.flatten ++ t)).drop c.length)).map
        (fun cs => (c ++ (rest.flatten ++ t)).take c.length :: cs)) = none
      rw [hdrop]
      have hlenf : (rest.flatten ++ t).length ≤ f := by
        simp only [List.length_append] at hl ⊢
        omega
      rw [pathsWalkGo_norm f (rest.flatten ++ t) hlenf]
      have := ih hrest t htne htc
      unfold pathsWalk at this
      rw [this]
      rfl

theorem pathsWalk_sub_one : ∀ (chains : List (List Nat)),
    (∀ c ∈ chains, IsDpChain c) → chains ≠ [] →
    pathsWalk (chains.flatten.take (chains.flatten.length - 1)) = none := by
  intro chains
  induction chains with
  | nil => intro _ hne; exact absurd rfl hne
  | cons c rest ih =>
    intro hall _
    have hc : IsDpChain c := hall c (List.mem_cons_self c rest)
    have hrest : ∀ x ∈ rest, IsDpChain x := fun x hx =>
      hall x (List.mem_cons_of_mem c hx)
    have hspec : ChainSpec false c c.length :=
      (efidp_first_chain_iff c c.length).mp hc
    have hbnd := chainSpec_bounds hspec
    rcases rest with _ | ⟨r0, rs⟩
    · have hflat : (c :: ([] : List (List Nat))).flatten = c := by simp
      rw [hflat]
      have hm : c.length - 1 < c.length := by omega
      have hnone : efidp_first_chain (c.take (c.length - 1)) = none := by
        cases hfc : efidp_first_chain (c.take (c.length - 1)) with
        | none => rfl
        | some l' =>
          exact absurd ((efidp_first_chain_iff _ _).mp hfc)
            (chainSpec_no_proper_front hspec (c.length - 1) hm (by omega)
              false l')
      have htne : c.take (c.length - 1) ≠ [] := by
        intro hemp
        have hle := congrArg List.length hemp
        simp only [List.length_take, List.length_nil] at hle
        omega
      unfold pathsWalk
      rcases hl : (c.take (c.length - 1)).length with _ | f
      · exact absurd (List.eq_nil_of_length_eq_zero hl) htne
      · have hunf : pathsWalkGo (f + 1) (c.take (c.length - 1)) =
            (if c.take (c.length - 1) = [] then some []
             else match efidp_first_chain (c.take (c.length - 1)) with
             | none => none
             | some l => (pathsWalkGo f ((c.take (c.length - 1)).drop l)).map
                 (fun cs => (c.take (c.length - 1)).take l :: cs)) := rfl
        rw [hunf, if_neg htne, hnone]
    · have hrne : r0 :: rs ≠ [] := List.cons_ne_nil r0 rs
      have hx : IsDpChain r0 := hrest r0 (by simp)
      have hxb := chainSpec_bounds ((efidp_first_chain_iff r0 r0.length).mp hx)
      have hfrlen : 1 ≤ (r0 :: rs).flatten.length := by
        simp only [List.flatten_cons, List.length_append]
        omega
      have hflat : (c :: r0 :: rs).flatten = c ++ (r0 :: rs).flatten := rfl
      rw [hflat]
      have hlen1 : (c ++ (r0 :: rs).flatten).length - 1 =
          c.length + ((r0 :: rs).flatten.length - 1) := by
        rw [List.length_append]
        omega
      rw [hlen1, List.take_append]
      have htail := ih hrest hrne
      unfold pathsWalk at htail ⊢
      have hne2 : c ++ (r0 :: rs).flatten.take ((r0 :: rs).flatten.length - 1)
          ≠ [] := by
        intro hemp
        exact (chain_nonempty hc) (List.append_eq_nil.mp hemp).1
      rcases hl : (c ++ (r0 :: rs).flatten.take
          ((r0 :: rs).flatten.length - 1)).length with _ | f
      · exact absurd (List.eq_nil_of_length_eq_zero hl) hne2
      · have hunf : pathsWalkGo (f + 1)
            (c ++ (r0 :: rs).flatten.take ((r0 :: rs).flatten.length - 1)) =
            (if c ++ (r0 :: rs).flatten.take ((r0 :: rs).flatten.length - 1)
               = [] then some []
             else match efidp_first_chain
                 (c ++ (r0 :: rs).flatten.take
                   ((r0 :: rs).flatten.length - 1)) with
             | none => none
             | some l => (pathsWalkGo f
                 ((c ++ (r0 :: rs).flatten.take
                   ((r0 :: rs).flatten.length - 1)).drop l)).map
                 (fun cs =>
                   (c ++ (r0 :: rs).flatten.take
                     ((r0 :: rs).flatten.length - 1)).take l :: cs)) := rfl
        rw [hunf, if_neg hne2, chain_extend hc _]
        show ((pathsWalkGo f
            ((c ++ (r0 :: rs).flatten.take
              ((r0 :: rs).flatten.length - 1)).drop c.length)).map _) = none
        have hdrop : (c ++ (r0 :: rs).flatten.take
            ((r0 :: rs).flatten.length - 1)).drop c.length =
            (r0 :: rs).flatten.take ((r0 :: rs).flatten.length - 1) := by simp
        rw [hdrop]
        have hlenf : ((r0 :: rs).flatten.take
            ((r0 :: rs).flatten.length - 1)).length ≤ f := by
          simp only [List.length_append, List.length_take] at hl ⊢
          omega
        rw [pathsWalkGo_norm f _ hlenf, htail]
        rfl

theorem drop_exact (l1 l2 : List Nat) (n : Nat) (h : l1.length = n) :
    (l1 ++ l2).drop n = l2 := by
  subst h
  exact List.drop_left l1 l2

theorem take_exact (l1 l2 : List Nat) (n : Nat) (h : l1.length = n) :
    (l1 ++ l2).take n = l1 := by
  subst h
  exact List.take_left l1 l2

theorem ucs2Units_cons00 (w : List Nat) :
    ucs2Units (0 :: 0 :: w) = 0 :: ucs2Units w := by
  show (0 + 256 * 0) :: ucs2Units w = 0 :: ucs2Units w
  norm_num

theorem mk_drop6 (a f : Nat) (d : List Nat) (cs : List (List Nat))
    (t : List Nat) : (mkLoadOption a f d cs t).drop 6 =
    ucs2Bytes d ++ [0, 0] ++ cs.flatten ++ t := rfl

theorem mk_u16le4 (a f : Nat) (d : List Nat) (cs : List (List Nat))
    (t : List Nat) (hf : f < 65536) : u16le (mkLoadOption a f d cs t) 4 = f := by
  have h : u16le (mkLoadOption a f d cs t) 4 =
      f % 256 + 256 * (f / 256 % 256) := rfl
  rw [h]
  omega

theorem mk_not_short (a f : Nat) (d : List Nat) (cs : List (List Nat))
    (t : List Nat) : ¬ (mkLoadOption a f d cs t).length < 6 := by
  unfold mkLoadOption u32leBytes u16leBytes
  simp only [List.length_append, List.length_cons]
  simp
  omega

theorem mk_length (a f : Nat) (d : List Nat) (cs : List (List Nat))
    (t : List Nat) : (mkLoadOption a f d cs t).length =
    8 + 2 * d.length + cs.flatten.length + t.length := by
  unfold mkLoadOption u32leBytes u16leBytes
  simp only [List.length_append, List.length_cons, List.length_nil,
    ucs2Bytes_length]
  omega

theorem decode_mk_shape (a f : Nat) (d : List Nat) (cs : List (List Nat))
    (t : List Nat) (hdU : DescUnits d) (hf : f < 65536) :
    efiboot_from_option (mkLoadOption a f d cs t) =
      (if f > (cs.flatten ++ t).length then none
       else (pathsWalk ((cs.flatten ++ t).take f)).bind (fun chains =>
         if chains.length = 0 then none
         else (efi_to_utf8 d).bind (fun desc =>
           some { modified := false, type := .boot,
                  index := EFIBOOT_INDEX_AUTO,
                  attributes := u32le (mkLoadOption a f d cs t) 0,
                  description := desc, paths := chains,
                  data := (cs.flatten ++ t).drop f, name := "" }))) := by
  unfold efiboot_from_option
  rw [if_neg (mk_not_short a f d cs t)]
  have h1 : (mkLoadOption a f d cs t).drop 6 =
      (ucs2Bytes d ++ [0, 0]) ++ (cs.flatten ++ t) := by
    rw [mk_drop6]
    simp [List.append_assoc]
  rw [h1]
  have h2 : ucs2Units ((ucs2Bytes d ++ [0, 0]) ++ (cs.flatten ++ t)) =
      d ++ (0 :: ucs2Units (cs.flatten ++ t)) := by
    rw [List.append_assoc,
        ucs2Units_bytes_append d _ (fun u hu => (hdU u hu).2.1)]
    congr 1
  rw [h2, descNulIdx_append d (fun u hu => (hdU u hu).1) _]
  simp only [Option.some_bind]
  have h3 : ((ucs2Bytes d ++ [0, 0]) ++ (cs.flatten ++ t)).drop
      (2 * (d.length + 1)) = cs.flatten ++ t := by
    refine drop_exact _ _ _ ?_
    simp only [List.length_append, ucs2Bytes_length, List.length_cons,
      List.length_nil]
    omega
  rw [h3]
  have h4 : (d ++ (0 :: ucs2Units (cs.flatten ++ t))).take d.length = d :=
    take_exact _ _ _ rfl
  rw [h4, mk_u16le4 a f d cs t hf]

/-- C6: `efiboot_from_option` rejects every load-option record whose
`FilePathListLength` is one more or one less than the total byte length of
its device-path chains, zero, or the whole record length, and every record
whose description has no UCS-2LE NUL terminator within the remaining bytes;
with the correct `FilePathListLength` the record is accepted. -/
theorem efiboot_from_option_bad_fpll
    (attrs : Nat) (d : List Nat) (cs : List (List Nat)) (t : List Nat)
    (hdU : DescUnits d) (hch : ∀ c ∈ cs, IsDpChain c) (hne : cs ≠ [])
    (hS : cs.flatten.length + 1 < 65536)
    (hL : (mkLoadOption attrs cs.flatten.length d cs t).length < 65536) :
    (∃ e, efiboot_from_option (mkLoadOption attrs cs.flatten.length d cs t)
        = some e ∧ e.paths = cs ∧ e.data = t) ∧
    efiboot_from_option (mkLoadOption attrs (cs.flatten.length + 1) d cs t)
      = none ∧
    efiboot_from_option (mkLoadOption attrs (cs.flatten.length - 1) d cs t)
      = none ∧
    efiboot_from_option (mkLoadOption attrs 0 d cs t) = none ∧
    efiboot_from_option (mkLoadOption attrs
      (mkLoadOption attrs cs.flatten.length d cs t).length d cs t) = none ∧
    ∀ r : List Nat, (∀ u ∈ ucs2Units (r.drop 6), u ≠ 0) →
      efiboot_from_option r = none := by
  have hS4 : 4 ≤ cs.flatten.length := by
    rcases cs with _ | ⟨c0, cr⟩
    · exact absurd rfl hne
    · have h0 : IsDpChain c0 := hch c0 (List.mem_cons_self c0 cr)
      have hb := chainSpec_bounds ((efidp_first_chain_iff c0 c0.length).mp h0)
      simp only [List.flatten_cons, List.length_append]
      omega
  refine ⟨?_, ?_, ?_, ?_, ?_, ?_⟩
  · -- correct FilePathListLength: accepted, with the given paths and data
    rw [decode_mk_shape attrs _ d cs t hdU (by omega)]
    rw [if_neg (by simp only [List.length_append]; omega)]
    rw [take_exact cs.flatten t _ rfl, pathsWalk_complete cs hch]
    simp only [Option.some_bind]
    rw [if_neg (fun h0 => hne (List.length_eq_zero.mp h0))]
    obtain ⟨desc, hdesc⟩ := efi_to_utf8_total d hdU
    rw [hdesc]
    simp only [Option.some_bind]
    exact ⟨_, rfl, rfl, drop_exact cs.flatten t _ rfl⟩
  · -- one more than the chain total: rejected
    rw [decode_mk_shape attrs _ d cs t hdU (by omega)]
    rcases t with _ | ⟨t0, ts⟩
    · rw [if_pos (by simp)]
    · rw [if_neg (by simp only [List.length_append, List.length_cons]; omega)]
      have htk : (cs.flatten ++ t0 :: ts).take (cs.flatten.length + 1) =
          cs.flatten ++ [t0] := by
        rw [List.take_append]
        rfl
      rw [htk, pathsWalk_flatten_junk cs hch [t0] (by simp)
        (short_chain_none [t0] (by simp))]
      rfl
  · -- one less than the chain total: rejected
    rw [decode_mk_shape attrs _ d cs t hdU (by omega)]
    rw [if_neg (by simp only [List.length_append]; omega)]
    have htk : (cs.flatten ++ t).take (cs.flatten.length - 1) =
        cs.flatten.take (cs.flatten.length - 1) := by
      rw [List.take_append_of_le_length (by omega)]
    rw [htk, pathsWalk_sub_one cs hch hne]
    rfl
  · -- zero: rejected (no chains parsed)
    rw [decode_mk_shape attrs 0 d cs t hdU (by omega)]
    rw [if_neg (by omega), List.take_zero]
    have hw : pathsWalk ([] : List Nat) = some [] := rfl
    rw [hw]
    simp only [Option.some_bind, List.length_nil]
    rw [if_pos trivial]
  · -- whole record length: rejected (exceeds the remaining bytes)
    rw [decode_mk_shape attrs _ d cs t hdU hL]
    rw [if_pos (by
      rw [mk_length]
      simp only [List.length_append]
      omega)]
  · -- no NUL terminator in the description area: rejected
    intro r hr
    unfold efiboot_from_option
    by_cases h6 : r.length < 6
    · rw [if_pos h6]
    · rw [if_neg h6, descNulIdx_none _ hr]
      rfl

theorem efiboot_option_roundtrip_witness :
    ByteList hddOptBytes ∧ efiboot_from_option hddOptBytes = some hddEntry ∧
    efiboot_to_option hddEntry = some hddOptBytes :=
  ⟨by decide, by decide,
   efiboot_option_roundtrip hddOptBytes (by decide) hddEntry (by decide)⟩

theorem efiboot_from_option_bad_fpll_witness :
    (DescUnits c6Desc ∧ (∀ c ∈ [c6Chain], IsDpChain c) ∧
      ([c6Chain] : List (List Nat)) ≠ [] ∧
      ([c6Chain] : List (List Nat)).flatten.length + 1 < 65536 ∧
      (mkLoadOption 1 ([c6Chain] : List (List Nat)).flatten.length c6Desc
        [c6Chain] c6Data).length < 65536) ∧
    ((∃ e, efiboot_from_option (mkLoadOption 1
          ([c6Chain] : List (List Nat)).flatten.length c6Desc [c6Chain]
          c6Data) = some e ∧ e.paths = [c6Chain] ∧ e.data = c6Data) ∧
     efiboot_from_option (mkLoadOption 1
       (([c6Chain] : List (List Nat)).flatten.length + 1) c6Desc [c6Chain]
       c6Data) = none ∧
     efiboot_from_option (mkLoadOption 1
       (([c6Chain] : List (List Nat)).flatten.length - 1) c6Desc [c6Chain]
       c6Data) = none ∧
     efiboot_from_option (mkLoadOption 1 0 c6Desc [c6Chain] c6Data)
       = none ∧
     efiboot_from_option (mkLoadOption 1 (mkLoadOption 1
       ([c6Chain] : List (List Nat)).flatten.length c6Desc [c6Chain]
       c6Data).length c6Desc [c6Chain] c6Data) = none ∧
     ∀ r : List Nat, (∀ u ∈ ucs2Units (r.drop 6), u ≠ 0) →
       efiboot_from_option r = none) :=
  ⟨⟨by decide, by decide, by decide, by decide, by decide⟩,
   efiboot_from_option_bad_fpll 1 c6Desc [c6Chain] c6Data (by decide)
     (by decide) (by decide) (by decide) (by decide)⟩

/-- C9: every boot entry produced by `efiboot_from_option` has its
modified flag clear, type Boot, index AUTO and an empty variable name,
and saving such an untouched entry succeeds without writing anything. -/
theorem efiboot_from_option_fresh (bytes : List Nat) (e : EfiBootEntry)
    (h : efiboot_from_option bytes = some e) :
    e.modified = false ∧ e.type = BootOptionType.boot ∧
    e.index = EFIBOOT_INDEX_AUTO ∧ e.name = "" ∧ efiboot_name e = none ∧
    ∀ st : EfiVarStore, efiboot_save st e = (st, e, true) := by
  unfold efiboot_from_option at h
  by_cases h6 : bytes.length < 6
  · rw [if_pos h6] at h; exact absurd h (by simp)
  rw [if_neg h6] at h
  cases hfind : descNulIdx (ucs2Units (bytes.drop 6)) with
  | none => rw [hfind] at h; exact absurd h (by simp)
  | some i =>
  rw [hfind] at h
  simp only [Option.some_bind] at h
  by_cases hfp : u16le bytes 4 > ((bytes.drop 6).drop (2 * (i + 1))).length
  · rw [if_pos hfp] at h; exact absurd h (by simp)
  rw [if_neg hfp] at h
  cases hwalk : pathsWalk (((bytes.drop 6).drop (2 * (i + 1))).take
      (u16le bytes 4)) with
  | none => rw [hwalk] at h; exact absurd h (by simp)
  | some chains =>
  rw [hwalk] at h
  simp only [Option.some_bind] at h
  by_cases hcnt : chains.length = 0
  · rw [if_pos hcnt] at h; exact absurd h (by simp)
  rw [if_neg hcnt] at h
  cases hconv : efi_to_utf8 ((ucs2Units (bytes.drop 6)).take i) with
  | none => rw [hconv] at h; exact absurd h (by simp)
  | some desc =>
  rw [hconv] at h
  simp only [Option.some_bind] at h
  have he := Option.some.inj h
  have hm : e.modified = false := by rw [← he]
  have hn : e.name = "" := by rw [← he]
  refine ⟨hm, by rw [← he], by rw [← he], hn, ?_, ?_⟩
  · unfold efiboot_name
    rw [hn]
    rfl
  · intro st
    unfold efiboot_save
    rw [hm]
    simp

theorem efiboot_from_option_fresh_witness :
    efiboot_from_option hddOptBytes = some hddEntry ∧
    (hddEntry.modified = false ∧ hddEntry.type = BootOptionType.boot ∧
     hddEntry.index = EFIBOOT_INDEX_AUTO ∧ hddEntry.name = "" ∧
     efiboot_name hddEntry = none ∧
     ∀ st : EfiVarStore, efiboot_save st hddEntry = (st, hddEntry, true)) :=
  ⟨by decide, efiboot_from_option_fresh hddOptBytes hddEntry (by decide)⟩

theorem set_type_index_atomic (e : EfiBootEntry) (t : BootOptionType)
    (i : Nat) (h : (efiboot_set_type_index e t i).2 = false) :
    (efiboot_set_type_index e t i).1 = e := by
  simp only [efiboot_set_type_index] at h ⊢
  by_cases hg : i % 4294967296 > EFIBOOT_INDEX_MAX ∧
      i % 4294967296 ≠ EFIBOOT_INDEX_AUTO
  · rw [if_pos hg]
  · rw [if_neg hg] at h
    exact absurd h (by simp)

theorem set_paths_atomic (e : EfiBootEntry) (ok : Bool)
    (ps : List (List Nat)) (h : (efiboot_set_paths e ok ps).2 = false) :
    (efiboot_set_paths e ok ps).1 = e := by
  simp only [efiboot_set_paths] at h ⊢
  by_cases h1 : ps.length < 1
  · rw [if_pos h1]
  · rw [if_neg h1] at h ⊢
    by_cases h2 : ¬ ok = true
    · rw [if_pos h2]
    · rw [if_neg h2] at h
      exact absurd h (by simp)

/-- C10: every fallible boot-entry setter is atomic on failure — when
the call reports failure the entry is returned exactly as it was. -/
theorem efiboot_setters_atomic (e : EfiBootEntry) :
    (∀ t i, (efiboot_set_type_index e t i).2 = false →
      (efiboot_set_type_index e t i).1 = e) ∧
    (∀ t, (efiboot_set_type e t).2 = false →
      (efiboot_set_type e t).1 = e) ∧
    (∀ i, (efiboot_set_index e i).2 = false →
      (efiboot_set_index e i).1 = e) ∧
    (∀ ok d, (efiboot_set_description e ok d).2 = false →
      (efiboot_set_description e ok d).1 = e) ∧
    (∀ ok ps, (efiboot_set_paths e ok ps).2 = false →
      (efiboot_set_paths e ok ps).1 = e) ∧
    (∀ ok1 ok2 i p, (efiboot_set_path e ok1 ok2 i p).2 = false →
      (efiboot_set_path e ok1 ok2 i p).1 = e) ∧
    (∀ ok d, (efiboot_set_data e ok d).2 = false →
      (efiboot_set_data e ok d).1 = e) := by
  refine ⟨set_type_index_atomic e, fun t => set_type_index_atomic e t e.index,
    fun i => set_type_index_atomic e e.type i, ?_, set_paths_atomic e,
    ?_, ?_⟩
  · intro ok d h
    simp only [efiboot_set_description] at h ⊢
    by_cases h1 : ¬ ok = true
    · rw [if_pos h1]
    · rw [if_neg h1] at h
      exact absurd h (by simp)
  · intro ok1 ok2 i p h
    simp only [efiboot_set_path] at h ⊢
    by_cases h1 : i ≥ e.paths.length
    · rw [if_pos h1]
    · rw [if_neg h1] at h ⊢
      by_cases h2 : ¬ ok1 = true
      · rw [if_pos h2]
      · rw [if_neg h2] at h ⊢
        exact set_paths_atomic e ok2 _ h
  · intro ok d h
    simp only [efiboot_set_data] at h ⊢
    by_cases h1 : d.length ≠ 0 ∧ ¬ ok = true
    · rw [if_pos h1]
    · rw [if_neg h1] at h
      exact absurd h (by simp)

theorem efiboot_setters_atomic_witness :
    (efiboot_set_index hddEntry 65536).2 = false ∧
    (efiboot_set_index hddEntry 65536).1 = hddEntry :=
  ⟨by decide, (efiboot_setters_atomic hddEntry).2.2.1 65536 (by decide)⟩

/-- C3 (code bug): a successful `efiboot_autoindex` on a fresh entry
adopts index 0 — no longer AUTO — yet leaves the `name` buffer empty,
while the invariant demands the name `Boot0000`; `efiboot_autoindex`
never updates the name buffer. -/
theorem efiboot_autoindex_breaks_name_invariant :
    (efiboot_autoindex emptyStore efiboot_new).2 = true ∧
    (efiboot_autoindex emptyStore efiboot_new).1.index = 0 ∧
    (efiboot_autoindex emptyStore efiboot_new).1.index ≠
      EFIBOOT_INDEX_AUTO ∧
    (efiboot_autoindex emptyStore efiboot_new).1.name = "" ∧
    efiboot_index_name BootOptionType.boot 0 = some "Boot0000" := by
  decide

/-- C4 (code bug): with `Boot0000`, `Boot0001`, `Boot0003` in the store,
an AUTO save adopts index 2 but, since the name is never recomputed,
the save fails (NULL variable name) without writing `Boot0002`, and a
second attempt adopts 2 again rather than the specified 4. -/
theorem efiboot_save_auto_adopt_bug :
    (efiboot_autoindex c4Store efiboot_new).2 = true ∧
    (efiboot_autoindex c4Store efiboot_new).1.index = 2 ∧
    (efiboot_autoindex c4Store efiboot_new).1.name = "" ∧
    efiboot_save c4Store efiboot_new =
      (c4Store, (efiboot_autoindex c4Store efiboot_new).1, false) ∧
    efivars_exists c4Store "Boot0002" = false ∧
    (efiboot_autoindex c4Store
      ((efiboot_save c4Store efiboot_new).2.1)).1.index = 2 := by
  decide

theorem find_filter_ne (n m : String) (h : m ≠ n) :
    ∀ (l : List (String × List Nat)),
    ((l.filter (fun v => ¬ v.1 == n)).find? (fun v => v.1 == m)) =
    l.find? (fun v => v.1 == m) := by
  intro l
  induction l with
  | nil => rfl
  | cons v vs ih =>
    by_cases hn : v.1 = n
    · rw [List.filter_cons, if_neg (by simp [hn])]
      rw [List.find?_cons]
      have hm2 : (v.1 == m) = false := by
        simp only [beq_eq_false_iff_ne]
        rw [hn]
        exact fun he => h he.symm
      simp only [hm2]
      exact ih
    · rw [List.filter_cons, if_pos (by simp [hn])]
      rw [List.find?_cons, List.find?_cons]
      cases hm : v.1 == m with
      | true => simp only [hm]
      | false =>
        simp only [hm]
        exact ih

theorem efivars_read_write_ne (st : EfiVarStore) (n : String)
    (d : List Nat) (m : String) (h : m ≠ n) :
    efivars_read (efivars_write st n d) m = efivars_read st m := by
  unfold efivars_read efivars_write
  simp only [List.find?_cons]
  have hnm : (n == m) = false := by
    simp only [beq_eq_false_iff_ne]
    exact fun he => h he.symm
  simp only [hnm]
  rw [find_filter_ne n m h]

theorem autoindex_name (st : EfiVarStore) (e : EfiBootEntry) :
    (efiboot_autoindex st e).1.name = e.name := by
  unfold efiboot_autoindex
  cases autoindexGo st e.type 65536 0 <;> rfl

theorem efiboot_save_read_ne (st : EfiVarStore) (e : EfiBootEntry)
    (n : String) (hn : n ≠ e.name) :
    efivars_read (efiboot_save st e).1 n = efivars_read st n := by
  unfold efiboot_save
  by_cases hm : ¬ e.modified = true
  · rw [if_pos hm]
  · rw [if_neg hm]
    rcases hix : (if e.index = EFIBOOT_INDEX_AUTO
        then efiboot_autoindex st e else (e, true)) with ⟨e1, ok⟩
    have hname : e1.name = e.name := by
      by_cases hA : e.index = EFIBOOT_INDEX_AUTO
      · rw [if_pos hA] at hix
        have : e1 = (efiboot_autoindex st e).1 := by rw [hix]
        rw [this]
        exact autoindex_name st e
      · rw [if_neg hA] at hix
        cases hix
        rfl
    dsimp only
    by_cases hok : ¬ ok = true
    · simp only [if_pos hok]
    · simp only [if_neg hok]
      cases hto : efiboot_to_option e1 with
      | none => simp only [hto]
      | some bytes =>
        simp only [hto]
        cases hnm : efiboot_name e1 with
        | none => simp only [hnm]
        | some nm =>
          simp only [hnm]
          have hnm2 : nm = e1.name := by
            unfold efiboot_name at hnm
            by_cases hne : e1.name = ""
            · rw [if_pos hne] at hnm
              exact absurd hnm (by simp)
            · rw [if_neg hne] at hnm
              exact (Option.some.inj hnm).symm
          exact efivars_read_write_ne st nm bytes n
            (by rw [hnm2, hname]; exact hn)

theorem saveAllGo_read_ne (t : BootOptionType) (n : String) :
    ∀ (entries : List EfiBootEntry) (st : EfiVarStore),
    (∀ e ∈ entries, n ≠ e.name) →
    efivars_read (saveAllGo t st entries).1 n = efivars_read st n := by
  intro entries
  induction entries with
  | nil => intro st _; rfl
  | cons e rest ih =>
    intro st hall
    have hne : n ≠ e.name := hall e (List.mem_cons_self e rest)
    have hrest : ∀ x ∈ rest, n ≠ x.name := fun x hx =>
      hall x (List.mem_cons_of_mem e hx)
    unfold saveAllGo
    by_cases ht : e.type ≠ t
    · rw [if_pos ht]
    · rw [if_neg ht]
      rcases hsv : efiboot_save st e with ⟨st1, e1, ok⟩
      have hst1 : efivars_read st1 n = efivars_read st n := by
        have h1 : st1 = (efiboot_save st e).1 := by rw [hsv]
        rw [h1]
        exact efiboot_save_read_ne st e n hne
      dsimp only
      by_cases hok : ¬ ok = true
      · rw [if_pos hok]
        exact hst1
      · rw [if_neg hok]
        rcases hgo : saveAllGo t st1 rest with ⟨st2, rest1, ok2⟩
        have h2 : efivars_read st2 n = efivars_read st1 n := by
          have h3 : st2 = (saveAllGo t st1 rest).1 := by rw [hgo]
          rw [h3]
          exact ih st1 hrest
        dsimp only
        rw [h2, hst1]

theorem saveAllGo_fail (t : BootOptionType) :
    ∀ (entries : List EfiBootEntry) (st : EfiVarStore),
    (∃ e ∈ entries, e.type ≠ t) →
    (saveAllGo t st entries).2.2 = false := by
  intro entries
  induction entries with
  | nil =>
    intro st hex
    obtain ⟨e, he, _⟩ := hex
    exact absurd he (List.not_mem_nil e)
  | cons e rest ih =>
    intro st hex
    unfold saveAllGo
    by_cases ht : e.type ≠ t
    · rw [if_pos ht]
    · rw [if_neg ht]
      have hrest : ∃ x ∈ rest, x.type ≠ t := by
        obtain ⟨x, hx, hxt⟩ := hex
        rcases List.mem_cons.mp hx with h1 | h1
        · exact absurd (h1 ▸ hxt) ht
        · exact ⟨x, h1, hxt⟩
      rcases hsv : efiboot_save st e with ⟨st1, e1, ok⟩
      dsimp only
      by_cases hok : ¬ ok = true
      · rw [if_pos hok]
      · rw [if_neg hok]
        rcases hgo : saveAllGo t st1 rest with ⟨st2, rest1, ok2⟩
        have h3 : ok2 = (saveAllGo t st1 rest).2.2 := by rw [hgo]
        dsimp only
        rw [h3]
        exact ih st1 hrest

/-- C5 (corrected): `efiboot_save_all` reports failure whenever some
entry has the wrong type, and never writes the ordering variable on
such a failure; however the type check runs inside the per-entry loop,
so entries preceding the first mismatch are already saved (see the
counterexample for the original claim). -/
theorem efiboot_save_all_mismatch_fails (t : BootOptionType)
    (st : EfiVarStore) (entries : List EfiBootEntry)
    (h : ∃ e ∈ entries, e.type ≠ t)
    (h2 : ∀ e ∈ entries, e.name ≠ efiboot_order_name t) :
    (efiboot_save_all t st entries).2.2 = false ∧
    efivars_read (efiboot_save_all t st entries).1 (efiboot_order_name t)
      = efivars_read st (efiboot_order_name t) := by
  unfold efiboot_save_all
  rcases hgo : saveAllGo t st entries with ⟨st1, es1, ok⟩
  have hfail : ok = false := by
    have h3 := saveAllGo_fail t entries st h
    rw [hgo] at h3
    exact h3
  subst hfail
  dsimp only
  rw [if_pos (by simp)]
  refine ⟨rfl, ?_⟩
  have h4 := saveAllGo_read_ne t (efiboot_order_name t) entries st
    (fun e he => Ne.symm (h2 e he))
  rw [hgo] at h4
  exact h4

/-- C5 counterexample to the original claim: with a correctly-typed
modified entry ahead of a wrongly-typed one, the failing
`efiboot_save_all` has already written the first entry's variable. -/
theorem efiboot_save_all_writes_before_reject :
    (efiboot_save_all BootOptionType.boot emptyStore
      [c5Good, c5Bad]).2.2 = false ∧
    efivars_exists (efiboot_save_all BootOptionType.boot emptyStore
      [c5Good, c5Bad]).1 "Boot0005" = true ∧
    efivars_exists emptyStore "Boot0005" = false := by
  decide

theorem efiboot_save_all_mismatch_fails_witness :
    ((∃ e ∈ [c5Good, c5Bad], e.type ≠ BootOptionType.boot) ∧
     ∀ e ∈ [c5Good, c5Bad],
       e.name ≠ efiboot_order_name BootOptionType.boot) ∧
    ((efiboot_save_all BootOptionType.boot emptyStore
       [c5Good, c5Bad]).2.2 = false ∧
     efivars_read (efiboot_save_all BootOptionType.boot emptyStore
       [c5Good, c5Bad]).1 (efiboot_order_name BootOptionType.boot)
       = efivars_read emptyStore
         (efiboot_order_name BootOptionType.boot)) :=
  ⟨⟨by decide, by decide⟩,
   efiboot_save_all_mismatch_fails BootOptionType.boot emptyStore
     [c5Good, c5Bad] (by decide) (by decide)⟩

theorem hexDigit_range : ∀ m < 16,
    ('0' ≤ hexDigit m ∧ hexDigit m ≤ '9') ∨
    ('A' ≤ hexDigit m ∧ hexDigit m ≤ 'F') := by
  decide

theorem hexPad_len : ∀ (w n : Nat), (hexPad w n).length = w := by
  intro w
  induction w with
  | zero => intro n; rfl
  | succ w ih =>
    intro n
    show (hexPad w (n / 16) ++ [hexDigit (n % 16)]).length = w + 1
    simp [ih]

theorem hexPad_chars : ∀ (w n : Nat), ∀ c ∈ hexPad w n,
    ('0' ≤ c ∧ c ≤ '9') ∨ ('A' ≤ c ∧ c ≤ 'F') := by
  intro w
  induction w with
  | zero => intro n c hc; exact absurd hc (List.not_mem_nil c)
  | succ w ih =>
    intro n c hc
    have hc2 : c ∈ hexPad w (n / 16) ++ [hexDigit (n % 16)] := hc
    rcases List.mem_append.mp hc2 with h1 | h1
    · exact ih (n / 16) c h1
    · rcases List.mem_singleton.mp h1 with rfl
      exact hexDigit_range (n % 16) (Nat.mod_lt n (by omega))

theorem hexPairs_chars (bs : List Nat) : ∀ c ∈ hexPairs bs,
    ('0' ≤ c ∧ c ≤ '9') ∨ ('A' ≤ c ∧ c ≤ 'F') := by
  intro c hc
  obtain ⟨b, _, hc2⟩ := List.mem_flatMap.mp hc
  exact hexPad_chars 2 b c hc2

theorem hexPairs_len (bs : List Nat) :
    (hexPairs bs).length = 2 * bs.length := by
  induction bs with
  | nil => rfl
  | cons b rest ih =>
    show (hexPad 2 b ++ hexPairs rest).length = 2 * (rest.length + 1)
    simp only [List.length_append, hexPad_len, ih]
    omega

/-- C8 (corrected): `guidText` always renders a GUID as five
dash-separated groups of 8, 4, 4, 4 and 12 hexadecimal digits — but
with UPPERCASE digits (as the repository's own test texts pin), not
the lowercase digits the specification describes; the canonical GUID
node forms all reach this renderer through `efidp_to_text`. -/
theorem guid_text_uppercase (g : List Nat) :
    (∃ s1 s2 s3 s4 s5 : List Char,
      guidText g = s1 ++ '-' :: (s2 ++ '-' :: (s3 ++ '-' ::
        (s4 ++ '-' :: s5))) ∧
      s1.length = 8 ∧ s2.length = 4 ∧ s3.length = 4 ∧ s4.length = 4 ∧
      s5.length = 12 ∧
      ∀ c ∈ s1 ++ s2 ++ s3 ++ s4 ++ s5,
        ('0' ≤ c ∧ c ≤ '9') ∨ ('A' ≤ c ∧ c ≤ 'F')) ∧
    (∀ n : DpNode, CanonFv n → efidp_to_text [n] false false =
      String.mk ('F' :: 'v' :: '(' :: (guidText n.payload ++ [')']))) ∧
    (∀ n : DpNode, CanonFvFile n → efidp_to_text [n] false false =
      String.mk ('F' :: 'v' :: 'F' :: 'i' :: 'l' :: 'e' :: '(' ::
        (guidText n.payload ++ [')']))) ∧
    (∀ n : DpNode, CanonHd n → efidp_to_text [n] false false =
      String.mk (renderHd n)) := by
  refine ⟨⟨hexPad 8 (u32le g 0), hexPad 4 (u16le g 4), hexPad 4 (u16le g 6),
    hexPad 2 (g.getD 8 0) ++ hexPad 2 (g.getD 9 0),
    hexPairs [g.getD 10 0, g.getD 11 0, g.getD 12 0, g.getD 13 0,
              g.getD 14 0, g.getD 15 0], ?_, ?_, ?_, ?_, ?_, ?_, ?_⟩,
    ?_, ?_, ?_⟩
  · simp [guidText, List.append_assoc]
  · exact hexPad_len 8 _
  · exact hexPad_len 4 _
  · exact hexPad_len 4 _
  · simp [List.length_append, hexPad_len]
  · simp [hexPairs_len]
  · intro c hc
    simp only [List.mem_append] at hc
    rcases hc with ((((h | h) | h) | (h | h)) | h)
    · exact hexPad_chars 8 _ c h
    · exact hexPad_chars 4 _ c h
    · exact hexPad_chars 4 _ c h
    · exact hexPad_chars 2 _ c h
    · exact hexPad_chars 2 _ c h
    · exact hexPairs_chars _ c h
  · intro n hn
    obtain ⟨ht, hs, hl, _⟩ := hn
    unfold efidp_to_text dpChainText
    simp only [List.map_cons, List.map_nil, List.intercalate,
      List.intersperse, List.flatten, List.append_nil]
    congr 1
    simp [dpNodeText, ht, hs, hl, renderFv]
  · intro n hn
    obtain ⟨ht, hs, hl, _⟩ := hn
    unfold efidp_to_text dpChainText
    simp only [List.map_cons, List.map_nil, List.intercalate,
      List.intersperse, List.flatten, List.append_nil]
    congr 1
    simp [dpNodeText, ht, hs, hl, renderFvFile]
  · intro n hn
    obtain ⟨ht, hs, hl, hB, h36, h37⟩ := hn
    unfold efidp_to_text dpChainText
    simp only [List.map_cons, List.map_nil, List.intercalate,
      List.intersperse, List.flatten, List.append_nil]
    congr 1
    rw [List.getD_eq_getElem n.payload 0 (by omega)] at h36
    rw [List.getD_eq_getElem n.payload 0 (by omega)] at h37
    simp [dpNodeText, ht, hs, hl, h36, h37]

/-- C8 counterexample to the original claim: the firmware-volume GUID
of `test_fvfilepath` renders with uppercase hexadecimal letters, so its
text is not made of lowercase-hex groups. -/
theorem guid_text_not_lowercase :
    ¬ ∀ c ∈ guidText fvGuidBytes,
      c = '-' ∨ ('0' ≤ c ∧ c ≤ '9') ∨ ('a' ≤ c ∧ c ≤ 'f') := by
  decide

/-- C7: whenever the parsed result of a text is implausible — some
file-path node among those before the End node spells `(...)` after the
optional alphanumeric prefix — `efidp_from_text` with
`allow_implausible = false` fails while `allow_implausible = true`
returns that result; the correctly-spelled `Uri(http://x)` parses to a
typed URI node in both modes, while the wrongly-cased `URI(http://x)`
is rejected in strict mode and becomes a file-path node otherwise. -/
theorem efidp_from_text_plausibility :
    (∀ (s : String) (ns : List DpNode),
      convertTextToDevicePath s.data = some ns →
      efidp_plausible ns = false →
      efidp_from_text s false = none ∧ efidp_from_text s true = some ns) ∧
    efidp_from_text "Uri(http://x)" false =
      some [⟨3, 24, [104, 116, 116, 112, 58, 47, 47, 120]⟩] ∧
    efidp_from_text "Uri(http://x)" true =
      some [⟨3, 24, [104, 116, 116, 112, 58, 47, 47, 120]⟩] ∧
    efidp_from_text "URI(http://x)" false = none ∧
    efidp_from_text "URI(http://x)" true =
      some [filePathNodeOf ("URI(http://x)").data] := by
  refine ⟨?_, by decide, by decide, by decide, by decide⟩
  intro s ns hconv himpl
  unfold efidp_from_text
  rw [hconv]
  dsimp only
  constructor
  · rw [if_neg (by simp [himpl])]
  · rw [if_pos (by simp)]

theorem hexVal_hexDigit : ∀ d < 16, hexVal (hexDigit d) = d := by
  decide

theorem hexGo_foldl : ∀ (fuel n acc : Nat), n ≤ fuel →
    List.foldl (fun a c => a * 16 + hexVal c) acc (hexGo fuel n) =
    acc * 16 ^ (hexGo fuel n).length + n := by
  intro fuel
  induction fuel with
  | zero =>
    intro n acc h
    have hn : n = 0 := by omega
    subst hn
    simp [hexGo]
  | succ fuel ih =>
    intro n acc h
    by_cases h0 : n = 0
    · subst h0
      have hz : hexGo (fuel + 1) 0 = [] := rfl
      rw [hz]
      simp
    · have hunf : hexGo (fuel + 1) n =
          hexGo fuel (n / 16) ++ [hexDigit (n % 16)] := by
        show (if n = 0 then [] else _) = _
        rw [if_neg h0]
      rw [hunf, List.foldl_append, ih (n / 16) acc (by omega)]
      simp only [List.foldl_cons, List.foldl_nil, List.length_append,
        List.length_cons, List.length_nil]
      rw [hexVal_hexDigit (n % 16) (Nat.mod_lt n (by omega))]
      rw [pow_succ]
      have h3 : acc * (16 ^ (hexGo fuel (n / 16)).length * 16) =
          acc * 16 ^ (hexGo fuel (n / 16)).length * 16 := by ring
      rw [h3]
      omega

theorem parseHex_hexChars (n : Nat) : parseHex (hexChars n) = n := by
  unfold parseHex hexChars
  by_cases h0 : n = 0
  · subst h0
    rfl
  · rw [if_neg h0]
    rw [hexGo_foldl n n 0 le_rfl]
    simp

theorem parseNum_renderNum (n : Nat) : parseNum (renderNum n) = n := by
  show parseHex (hexChars n) = n
  exact parseHex_hexChars n

theorem hexPad_foldl : ∀ (w n acc : Nat),
    List.foldl (fun a c => a * 16 + hexVal c) acc (hexPad w n) =
    acc * 16 ^ w + n % 16 ^ w := by
  intro w
  induction w with
  | zero => intro n acc; simp [hexPad, Nat.mod_one]
  | succ w ih =>
    intro n acc
    show List.foldl _ acc (hexPad w (n / 16) ++ [hexDigit (n % 16)]) = _
    rw [List.foldl_append, ih (n / 16) acc]
    simp only [List.foldl_cons, List.foldl_nil]
    rw [hexVal_hexDigit (n % 16) (Nat.mod_lt n (by omega))]
    rw [pow_succ]
    have h1 : n % (16 ^ w * 16) = n % 16 + 16 * (n / 16 % 16 ^ w) := by
      rw [mul_comm, Nat.mod_mul]
    have h3 : acc * (16 ^ w * 16) = acc * 16 ^ w * 16 := by ring
    rw [h3]
    omega

theorem parseHex_hexPad (w n : Nat) (h : n < 16 ^ w) :
    parseHex (hexPad w n) = n := by
  unfold parseHex
  rw [hexPad_foldl w n 0]
  simp [Nat.mod_eq_of_lt h]

theorem decVal_digit : ∀ d < 10, decVal (Char.ofNat (48 + d)) = d := by
  decide

theorem decGo_foldl : ∀ (fuel n acc : Nat), n ≤ fuel →
    List.foldl (fun a c => a * 10 + decVal c) acc (decGo fuel n) =
    acc * 10 ^ (decGo fuel n).length + n := by
  intro fuel
  induction fuel with
  | zero =>
    intro n acc h
    have hn : n = 0 := by omega
    subst hn
    simp [decGo]
  | succ fuel ih =>
    intro n acc h
    by_cases h0 : n = 0
    · subst h0
      have hz : decGo (fuel + 1) 0 = [] := rfl
      rw [hz]
      simp
    · have hunf : decGo (fuel + 1) n =
          decGo fuel (n / 10) ++ [Char.ofNat (48 + n % 10)] := by
        show (if n = 0 then [] else _) = _
        rw [if_neg h0]
      rw [hunf, List.foldl_append, ih (n / 10) acc (by omega)]
      simp only [List.foldl_cons, List.foldl_nil, List.length_append,
        List.length_cons, List.length_nil]
      rw [decVal_digit (n % 10) (Nat.mod_lt n (by omega))]
      rw [pow_succ]
      have h3 : acc * (10 ^ (decGo fuel (n / 10)).length * 10) =
          acc * 10 ^ (decGo fuel (n / 10)).length * 10 := by ring
      rw [h3]
      omega

theorem parseDec_decChars (n : Nat) : parseDec (decChars n) = n := by
  unfold parseDec decChars
  by_cases h0 : n = 0
  · subst h0
    rfl
  · rw [if_neg h0]
    rw [decGo_foldl n n 0 le_rfl]
    simp

theorem decGo_head : ∀ (fuel n : Nat), 1 ≤ n → n ≤ fuel →
    ∃ c rest, decGo fuel n = c :: rest ∧ c ≠ '0' := by
  intro fuel
  induction fuel with
  | zero => intro n h1 h2; omega
  | succ fuel ih =>
    intro n h1 h2
    have hunf : decGo (fuel + 1) n =
        decGo fuel (n / 10) ++ [Char.ofNat (48 + n % 10)] := by
      show (if n = 0 then [] else _) = _
      rw [if_neg (by omega)]
    by_cases hsm : n < 10
    · have hz : decGo fuel (n / 10) = [] := by
        have : n / 10 = 0 := by omega
        rw [this]
        cases fuel <;> rfl
      refine ⟨Char.ofNat (48 + n % 10), [], ?_, ?_⟩
      · rw [hunf, hz]
        rfl
      · have hm : n % 10 = n := Nat.mod_eq_of_lt hsm
        rw [hm]
        have hd : ∀ m, 1 ≤ m → m < 10 → Char.ofNat (48 + m) ≠ '0' := by
          decide
        exact hd n h1 hsm
    · obtain ⟨c, rest, hcr, hc⟩ := ih (n / 10) (by omega) (by omega)
      exact ⟨c, rest ++ [Char.ofNat (48 + n % 10)], by rw [hunf, hcr]; rfl, hc⟩

theorem parseNum_head_ne (cs : List Char) (h : ∀ r, cs ≠ '0' :: r) :
    parseNum cs = parseDec cs := by
  unfold parseNum
  split
  · exact absurd rfl (h _)
  · exact absurd rfl (h _)
  · rfl

theorem parseNum_decChars (n : Nat) : parseNum (decChars n) = n := by
  by_cases h0 : n = 0
  · subst h0
    rfl
  · rw [parseNum_head_ne, parseDec_decChars]
    intro r hr
    unfold decChars at hr
    rw [if_neg h0] at hr
    obtain ⟨c, rest, hcr, hc⟩ := decGo_head n n (by omega) le_rfl
    rw [hcr] at hr
    exact hc (List.cons.inj hr).1

theorem hexPad_two (b : Nat) :
    hexPad 2 b = [hexDigit (b / 16 % 16), hexDigit (b % 16)] := rfl

theorem parsePairs_hexPairs (bs : List Nat) (h : ByteList bs) :
    parsePairs (hexPairs bs) = bs := by
  induction bs with
  | nil => rfl
  | cons b rest ih =>
    have hb : b < 256 := h b (List.mem_cons_self b rest)
    have hrest : ByteList rest := fun x hx =>
      h x (List.mem_cons_of_mem b hx)
    have hunf : hexPairs (b :: rest) =
        hexDigit (b / 16 % 16) :: hexDigit (b % 16) :: hexPairs rest := by
      show hexPad 2 b ++ hexPairs rest = _
      rw [hexPad_two]
      rfl
    rw [hunf]
    show (hexVal (hexDigit (b / 16 % 16)) * 16 + hexVal (hexDigit (b % 16)))
        :: parsePairs (hexPairs rest) = b :: rest
    rw [hexVal_hexDigit (b / 16 % 16) (Nat.mod_lt _ (by omega)),
        hexVal_hexDigit (b % 16) (Nat.mod_lt b (by omega)), ih hrest]
    congr 1
    omega

theorem dash_not_in_hexPad (w n : Nat) : '-' ∉ hexPad w n := by
  intro h
  rcases hexPad_chars w n '-' h with ⟨h1, h2⟩ | ⟨h1, h2⟩
  · exact absurd (And.intro h1 h2) (by decide)
  · exact absurd (And.intro h1 h2) (by decide)

theorem dash_not_in_hexPairs (bs : List Nat) : '-' ∉ hexPairs bs := by
  intro h
  rcases hexPairs_chars bs '-' h with ⟨h1, h2⟩ | ⟨h1, h2⟩
  · exact absurd (And.intro h1 h2) (by decide)
  · exact absurd (And.intro h1 h2) (by decide)

theorem guid_split (g : List Nat) :
    (guidText g).splitOn '-' =
      [hexPad 8 (u32le g 0), hexPad 4 (u16le g 4), hexPad 4 (u16le g 6),
       hexPad 2 (g.getD 8 0) ++ hexPad 2 (g.getD 9 0),
       hexPairs [g.getD 10 0, g.getD 11 0, g.getD 12 0, g.getD 13 0,
                 g.getD 14 0, g.getD 15 0]] := by
  have hint : guidText g = List.intercalate ['-']
      [hexPad 8 (u32le g 0), hexPad 4 (u16le g 4), hexPad 4 (u16le g 6),
       hexPad 2 (g.getD 8 0) ++ hexPad 2 (g.getD 9 0),
       hexPairs [g.getD 10 0, g.getD 11 0, g.getD 12 0, g.getD 13 0,
                 g.getD 14 0, g.getD 15 0]] := by
    simp [guidText, List.intercalate, List.intersperse, List.append_assoc]
  rw [hint]
  refine List.splitOn_intercalate _ '-' ?_ (by simp)
  intro l hl
  simp only [List.mem_cons, List.not_mem_nil, or_false] at hl
  rcases hl with rfl | rfl | rfl | rfl | rfl
  · exact dash_not_in_hexPad 8 _
  · exact dash_not_in_hexPad 4 _
  · exact dash_not_in_hexPad 4 _
  · intro hmem
    rcases List.mem_append.mp hmem with h1 | h1
    · exact dash_not_in_hexPad 2 _ h1
    · exact dash_not_in_hexPad 2 _ h1
  · exact dash_not_in_hexPairs _

theorem getD_lt (b : List Nat) (h : ByteList b) (i : Nat) :
    b.getD i 0 < 256 := by
  by_cases hi : i < b.length
  · rw [List.getD_eq_getElem b 0 hi]
    exact h _ (List.getElem_mem hi)
  · rw [List.getD_eq_default b 0 (by omega)]
    omega

theorem u16le_lt (b : List Nat) (h : ByteList b) (i : Nat) :
    u16le b i < 65536 := by
  have h1 := getD_lt b h i
  have h2 := getD_lt b h (i + 1)
  unfold u16le
  omega

theorem u32le_lt (b : List Nat) (h : ByteList b) (i : Nat) :
    u32le b i < 4294967296 := by
  have h1 := getD_lt b h i
  have h2 := getD_lt b h (i + 1)
  have h3 := getD_lt b h (i + 2)
  have h4 := getD_lt b h (i + 3)
  simp only [u32le, u16le]
  omega

theorem u64le_lt (b : List Nat) (h : ByteList b) (i : Nat) :
    u64le b i < 18446744073709551616 := by
  have h1 := u32le_lt b h i
  have h2 := u32le_lt b h (i + 4)
  have h3 : u64le b i = u32le b i + 4294967296 * u32le b (i + 4) := rfl
  omega

theorem u16leBytes_getD (b : List Nat) (h : ByteList b) (i : Nat) :
    u16leBytes (u16le b i) = [b.getD i 0, b.getD (i + 1) 0] := by
  have h1 := getD_lt b h i
  have h2 := getD_lt b h (i + 1)
  unfold u16leBytes u16le
  congr 1
  · omega
  · congr 1
    omega

theorem u32leBytes_getD (b : List Nat) (h : ByteList b) (i : Nat) :
    u32leBytes (u32le b i) =
      [b.getD i 0, b.getD (i + 1) 0, b.getD (i + 2) 0, b.getD (i + 3) 0] := by
  have h1 := getD_lt b h i
  have h2 := getD_lt b h (i + 1)
  have h3 := getD_lt b h (i + 2)
  have h4 := getD_lt b h (i + 3)
  simp only [u32leBytes, u32le, u16le]
  congr 1
  · omega
  congr 1
  · omega
  congr 1
  · omega
  congr 1
  omega

theorem parsePairs_two (a b : Nat) (ha : a < 256) (hb : b < 256) :
    parsePairs (hexPad 2 a ++ hexPad 2 b) = [a, b] := by
  have he : hexPad 2 a ++ hexPad 2 b = hexPairs [a, b] := by
    show _ = hexPad 2 a ++ (hexPad 2 b ++ [])
    rw [List.append_nil]
  rw [he, parsePairs_hexPairs [a, b]]
  intro x hx
  rcases List.mem_cons.mp hx with rfl | hx2
  · exact ha
  · rcases List.mem_singleton.mp hx2 with rfl
    exact hb

theorem guidBytes_guidText (g : List Nat) (hB : ByteList g)
    (hl : g.length = 16) : guidBytes (guidText g) = g := by
  unfold guidBytes
  rw [guid_split g]
  dsimp only
  have h168 : (16 : Nat) ^ 8 = 4294967296 := by norm_num
  have h164 : (16 : Nat) ^ 4 = 65536 := by norm_num
  rw [parseHex_hexPad 8 _ (by rw [h168]; exact u32le_lt g hB 0)]
  rw [parseHex_hexPad 4 _ (by rw [h164]; exact u16le_lt g hB 4)]
  rw [parseHex_hexPad 4 _ (by rw [h164]; exact u16le_lt g hB 6)]
  rw [parsePairs_two _ _ (getD_lt g hB 8) (getD_lt g hB 9)]
  rw [parsePairs_hexPairs _ (by
    intro x hx
    simp only [List.mem_cons, List.not_mem_nil, or_false] at hx
    rcases hx with rfl | rfl | rfl | rfl | rfl | rfl
    · exact getD_lt g hB 10
    · exact getD_lt g hB 11
    · exact getD_lt g hB 12
    · exact getD_lt g hB 13
    · exact getD_lt g hB 14
    · exact getD_lt g hB 15)]
  rw [u32leBytes_getD g hB 0, u16leBytes_getD g hB 4, u16leBytes_getD g hB 6]
  rcases g with _ | ⟨b0, _ | ⟨b1, _ | ⟨b2, _ | ⟨b3, _ | ⟨b4, _ | ⟨b5,
    _ | ⟨b6, _ | ⟨b7, _ | ⟨b8, _ | ⟨b9, _ | ⟨b10, _ | ⟨b11, _ | ⟨b12,
    _ | ⟨b13, _ | ⟨b14, _ | ⟨b15, tail⟩⟩⟩⟩⟩⟩⟩⟩⟩⟩⟩⟩⟩⟩⟩⟩ <;>
    simp_all

theorem splitCommaGo_term : ∀ (s : List Char) (acc : List Char),
    ',' ∉ s → splitCommaGo s acc = [acc.reverse ++ s] := by
  intro s
  induction s with
  | nil => intro acc _; simp [splitCommaGo]
  | cons c rest ih =>
    intro acc h
    have hc : c ≠ ',' := fun he => h (he ▸ List.mem_cons_self c rest)
    show (if c = ',' then _ else splitCommaGo rest (c :: acc)) = _
    rw [if_neg hc, ih (c :: acc) (fun hm => h (List.mem_cons_of_mem c hm))]
    simp

theorem splitCommaGo_sep : ∀ (s t : List Char) (acc : List Char),
    ',' ∉ s → splitCommaGo (s ++ ',' :: t) acc =
      (acc.reverse ++ s) :: splitCommaGo t [] := by
  intro s
  induction s with
  | nil =>
    intro t acc _
    show (if (',' : Char) = ',' then _ else _) = _
    rw [if_pos rfl]
    simp
  | cons c rest ih =>
    intro t acc h
    have hc : c ≠ ',' := fun he => h (he ▸ List.mem_cons_self c rest)
    show (if c = ',' then _ else splitCommaGo (rest ++ ',' :: t) (c :: acc))
        = _
    rw [if_neg hc, ih t (c :: acc) (fun hm => h (List.mem_cons_of_mem c hm))]
    simp

theorem splitComma_two (a1 a2 : List Char) (h1 : ',' ∉ a1) (h2 : ',' ∉ a2) :
    splitComma (a1 ++ ',' :: a2) = [a1, a2] := by
  unfold splitComma
  rw [splitCommaGo_sep a1 a2 [] h1, splitCommaGo_term a2 [] h2]
  simp

theorem splitComma_three (a1 a2 a3 : List Char) (h1 : ',' ∉ a1)
    (h2 : ',' ∉ a2) (h3 : ',' ∉ a3) :
    splitComma (a1 ++ ',' :: (a2 ++ ',' :: a3)) = [a1, a2, a3] := by
  unfold splitComma
  rw [splitCommaGo_sep a1 _ [] h1, splitCommaGo_sep a2 _ [] h2,
    splitCommaGo_term a3 [] h3]
  simp

theorem splitComma_five (a1 a2 a3 a4 a5 : List Char) (h1 : ',' ∉ a1)
    (h2 : ',' ∉ a2) (h3 : ',' ∉ a3) (h4 : ',' ∉ a4) (h5 : ',' ∉ a5) :
    splitComma (a1 ++ ',' :: (a2 ++ ',' :: (a3 ++ ',' ::
      (a4 ++ ',' :: a5)))) = [a1, a2, a3, a4, a5] := by
  unfold splitComma
  rw [splitCommaGo_sep a1 _ [] h1, splitCommaGo_sep a2 _ [] h2,
    splitCommaGo_sep a3 _ [] h3, splitCommaGo_sep a4 _ [] h4,
    splitCommaGo_term a5 [] h5]
  simp

theorem nameSplitGo_find : ∀ (nm : List Char) (rest acc : List Char),
    '(' ∉ nm → nameSplitGo (nm ++ '(' :: rest) acc =
      some (acc.reverse ++ nm, rest) := by
  intro nm
  induction nm with
  | nil =>
    intro rest acc _
    show (if ('(' : Char) = '(' then _ else _) = _
    rw [if_pos rfl]
    simp
  | cons c tl ih =>
    intro rest acc h
    have hc : c ≠ '(' := fun he => h (he ▸ List.mem_cons_self c tl)
    show (if c = '(' then _ else nameSplitGo (tl ++ '(' :: rest) (c :: acc))
        = _
    rw [if_neg hc, ih rest (c :: acc) (fun hm => h (List.mem_cons_of_mem c hm))]
    simp

theorem nameSplitGo_none : ∀ (s acc : List Char), '(' ∉ s →
    nameSplitGo s acc = none := by
  intro s
  induction s with
  | nil => intro acc _; rfl
  | cons c tl ih =>
    intro acc h
    have hc : c ≠ '(' := fun he => h (he ▸ List.mem_cons_self c tl)
    show (if c = '(' then _ else nameSplitGo tl (c :: acc)) = _
    rw [if_neg hc]
    exact ih (c :: acc) (fun hm => h (List.mem_cons_of_mem c hm))

theorem nodeNameArgs_wrap (nm args : List Char) (hn : '(' ∉ nm) :
    nodeNameArgs (nm ++ '(' :: (args ++ [')'])) = some (nm, args) := by
  unfold nodeNameArgs
  rw [nameSplitGo_find nm _ [] hn]
  simp only [List.reverse_nil, List.nil_append]
  rw [List.getLast?_concat]
  rw [if_pos rfl]
  simp [List.dropLast_concat]

theorem nodeNameArgs_none (s : List Char) (h : '(' ∉ s) :
    nodeNameArgs s = none := by
  unfold nodeNameArgs
  rw [nameSplitGo_none s [] h]

theorem segSafeGo_skip0 : ∀ (xs rest : List Char),
    (∀ c ∈ xs, c ≠ '(' ∧ c ≠ ')' ∧ c ≠ '/') →
    segSafeGo (xs ++ rest) 0 = segSafeGo rest 0 := by
  intro xs
  induction xs with
  | nil => intro rest _; rfl
  | cons c tl ih =>
    intro rest h
    obtain ⟨h1, h2, h3⟩ := h c (List.mem_cons_self c tl)
    show (if c = '/' ∧ (0 : Nat) = 0 then false
          else segSafeGo (tl ++ rest) (depthStep 0 c)) = _
    rw [if_neg (fun hc => h3 hc.1)]
    have hd : depthStep 0 c = 0 := by
      unfold depthStep
      rw [if_neg h1, if_neg h2]
    rw [hd]
    exact ih rest (fun x hx => h x (List.mem_cons_of_mem c hx))

theorem segSafeGo_skip1 : ∀ (xs rest : List Char) (d : Nat), d ≠ 0 →
    (∀ c ∈ xs, c ≠ '(' ∧ c ≠ ')') →
    segSafeGo (xs ++ rest) d = segSafeGo rest d := by
  intro xs
  induction xs with
  | nil => intro rest d _ _; rfl
  | cons c tl ih =>
    intro rest d hd h
    obtain ⟨h1, h2⟩ := h c (List.mem_cons_self c tl)
    show (if c = '/' ∧ d = 0 then false
          else segSafeGo (tl ++ rest) (depthStep d c)) = _
    rw [if_neg (fun hc => hd hc.2)]
    have hds : depthStep d c = d := by
      unfold depthStep
      rw [if_neg h1, if_neg h2]
    rw [hds]
    exact ih rest d hd (fun x hx => h x (List.mem_cons_of_mem c hx))

theorem segSafe_wrap (nm args : List Char)
    (hn : ∀ c ∈ nm, c ≠ '(' ∧ c ≠ ')' ∧ c ≠ '/')
    (ha : ∀ c ∈ args, c ≠ '(' ∧ c ≠ ')') :
    segSafe (nm ++ '(' :: (args ++ [')'])) = true := by
  unfold segSafe
  rw [segSafeGo_skip0 nm _ hn]
  show segSafeGo (args ++ [')']) (depthStep 0 '(') = true
  have hd1 : depthStep 0 '(' = 1 := rfl
  rw [hd1, segSafeGo_skip1 args [')'] 1 (by omega) ha]
  rfl

theorem segSafe_plain (s : List Char)
    (h : ∀ c ∈ s, c ≠ '(' ∧ c ≠ ')' ∧ c ≠ '/') : segSafe s = true := by
  unfold segSafe
  have := segSafeGo_skip0 s [] h
  rw [List.append_nil] at this
  rw [this]
  rfl

theorem splitTopGo_term : ∀ (s : List Char) (d : Nat) (acc : List Char),
    segSafeGo s d = true → splitTopGo s d acc = [acc.reverse ++ s] := by
  intro s
  induction s with
  | nil =>
    intro d acc _
    simp [splitTopGo]
  | cons c tl ih =>
    intro d acc hsafe
    have hcond : ¬ (c = '/' ∧ d = 0) := by
      intro hc
      have : segSafeGo (c :: tl) d = false := by
        show (if c = '/' ∧ d = 0 then false else _) = false
        rw [if_pos hc]
      rw [this] at hsafe
      exact absurd hsafe (by simp)
    have hrec : segSafeGo tl (depthStep d c) = true := by
      have : segSafeGo (c :: tl) d = segSafeGo tl (depthStep d c) := by
        show (if c = '/' ∧ d = 0 then false else _) = _
        rw [if_neg hcond]
      rw [← this]
      exact hsafe
    show (if c = '/' ∧ d = 0 then _ else splitTopGo tl (depthStep d c)
      (c :: acc)) = _
    rw [if_neg hcond, ih (depthStep d c) (c :: acc) hrec]
    simp

theorem splitTopGo_sep : ∀ (s rest : List Char) (d : Nat) (acc : List Char),
    segSafeGo s d = true →
    splitTopGo (s ++ '/' :: rest) d acc =
      (acc.reverse ++ s) :: splitTopGo rest 0 [] := by
  intro s
  induction s with
  | nil =>
    intro rest d acc hsafe
    have hd : d = 0 := by
      have : segSafeGo [] d = decide (d = 0) := rfl
      rw [this] at hsafe
      exact of_decide_eq_true hsafe
    subst hd
    show (if ('/' : Char) = '/' ∧ (0 : Nat) = 0 then
      acc.reverse :: splitTopGo rest 0 [] else _) = _
    rw [if_pos ⟨rfl, rfl⟩]
    simp
  | cons c tl ih =>
    intro rest d acc hsafe
    have hcond : ¬ (c = '/' ∧ d = 0) := by
      intro hc
      have : segSafeGo (c :: tl) d = false := by
        show (if c = '/' ∧ d = 0 then false else _) = false
        rw [if_pos hc]
      rw [this] at hsafe
      exact absurd hsafe (by simp)
    have hrec : segSafeGo tl (depthStep d c) = true := by
      have : segSafeGo (c :: tl) d = segSafeGo tl (depthStep d c) := by
        show (if c = '/' ∧ d = 0 then false else _) = _
        rw [if_neg hcond]
      rw [← this]
      exact hsafe
    show (if c = '/' ∧ d = 0 then _ else
      splitTopGo (tl ++ '/' :: rest) (depthStep d c) (c :: acc)) = _
    rw [if_neg hcond, ih rest (depthStep d c) (c :: acc) hrec]
    simp

theorem splitTop_safe : ∀ (segs : List (List Char)), segs ≠ [] →
    (∀ s ∈ segs, segSafe s = true) →
    splitTop (List.intercalate ['/'] segs) = segs := by
  intro segs
  induction segs with
  | nil => intro h _; exact absurd rfl h
  | cons s rest ih =>
    intro _ hall
    have hs : segSafe s = true := hall s (List.mem_cons_self s rest)
    rcases rest with _ | ⟨r0, rs⟩
    · have hone : List.intercalate ['/'] [s] = s := by
        simp [List.intercalate]
      rw [hone]
      unfold splitTop
      rw [splitTopGo_term s 0 [] hs]
      simp
    · have hcons : List.intercalate ['/'] (s :: r0 :: rs) =
          s ++ '/' :: List.intercalate ['/'] (r0 :: rs) := by
        simp [List.intercalate, List.intersperse]
      rw [hcons]
      unfold splitTop
      rw [splitTopGo_sep s _ 0 [] hs]
      simp only [List.reverse_nil, List.nil_append]
      congr 1
      have := ih (by simp) (fun x hx => hall x (List.mem_cons_of_mem s hx))
      unfold splitTop at this
      exact this

theorem hexrange_ok (c : Char)
    (h : ('0' ≤ c ∧ c ≤ '9') ∨ ('A' ≤ c ∧ c ≤ 'F')) :
    c ≠ '(' ∧ c ≠ ')' ∧ c ≠ ',' ∧ c ≠ '/' := by
  refine ⟨?_, ?_, ?_, ?_⟩ <;>
    (intro he
     subst he
     rcases h with ⟨h1, _⟩ | ⟨h1, _⟩ <;> exact absurd h1 (by decide))

theorem hexGo_chars : ∀ (fuel n : Nat), ∀ c ∈ hexGo fuel n,
    ('0' ≤ c ∧ c ≤ '9') ∨ ('A' ≤ c ∧ c ≤ 'F') := by
  intro fuel
  induction fuel with
  | zero => intro n c hc; exact absurd hc (List.not_mem_nil c)
  | succ fuel ih =>
    intro n c hc
    by_cases h0 : n = 0
    · subst h0
      exact absurd hc (List.not_mem_nil c)
    · have hunf : hexGo (fuel + 1) n =
          hexGo fuel (n / 16) ++ [hexDigit (n % 16)] := by
        show (if n = 0 then [] else _) = _
        rw [if_neg h0]
      rw [hunf] at hc
      rcases List.mem_append.mp hc with h1 | h1
      · exact ih (n / 16) c h1
      · rcases List.mem_singleton.mp h1 with rfl
        exact hexDigit_range (n % 16) (Nat.mod_lt n (by omega))

theorem hexChars_chars (n : Nat) : ∀ c ∈ hexChars n,
    ('0' ≤ c ∧ c ≤ '9') ∨ ('A' ≤ c ∧ c ≤ 'F') := by
  intro c hc
  unfold hexChars at hc
  by_cases h0 : n = 0
  · rw [if_pos h0] at hc
    rcases List.mem_singleton.mp hc with rfl
    exact Or.inl (by decide)
  · rw [if_neg h0] at hc
    exact hexGo_chars n n c hc

theorem renderNum_ok (v : Nat) : ∀ c ∈ renderNum v,
    c ≠ '(' ∧ c ≠ ')' ∧ c ≠ ',' ∧ c ≠ '/' := by
  intro c hc
  unfold renderNum at hc
  rcases List.mem_cons.mp hc with rfl | hc1
  · exact (by decide)
  rcases List.mem_cons.mp hc1 with rfl | hc2
  · exact (by decide)
  · exact hexrange_ok c (hexChars_chars v c hc2)

theorem decGo_chars : ∀ (fuel n : Nat), ∀ c ∈ decGo fuel n,
    '0' ≤ c ∧ c ≤ '9' := by
  intro fuel
  induction fuel with
  | zero => intro n c hc; exact absurd hc (List.not_mem_nil c)
  | succ fuel ih =>
    intro n c hc
    by_cases h0 : n = 0
    · subst h0
      exact absurd hc (List.not_mem_nil c)
    · have hunf : decGo (fuel + 1) n =
          decGo fuel (n / 10) ++ [Char.ofNat (48 + n % 10)] := by
        show (if n = 0 then [] else _) = _
        rw [if_neg h0]
      rw [hunf] at hc
      rcases List.mem_append.mp hc with h1 | h1
      · exact ih (n / 10) c h1
      · rcases List.mem_singleton.mp h1 with rfl
        have hd : ∀ m < 10, '0' ≤ Char.ofNat (48 + m) ∧
            Char.ofNat (48 + m) ≤ '9' := by decide
        exact hd (n % 10) (Nat.mod_lt n (by omega))

theorem decChars_ok (n : Nat) : ∀ c ∈ decChars n,
    c ≠ '(' ∧ c ≠ ')' ∧ c ≠ ',' ∧ c ≠ '/' := by
  intro c hc
  unfold decChars at hc
  by_cases h0 : n = 0
  · rw [if_pos h0] at hc
    rcases List.mem_singleton.mp hc with rfl
    exact (by decide)
  · rw [if_neg h0] at hc
    exact hexrange_ok c (Or.inl (decGo_chars n n c hc))

theorem guidText_ok (g : List Nat) : ∀ c ∈ guidText g,
    c ≠ '(' ∧ c ≠ ')' ∧ c ≠ ',' ∧ c ≠ '/' := by
  intro c hc
  unfold guidText at hc
  simp only [List.mem_append, List.mem_cons] at hc
  rcases hc with h | h
  · exact hexrange_ok c (hexPad_chars 8 _ c h)
  rcases h with rfl | h
  · exact (by decide)
  rcases h with h | h
  · exact hexrange_ok c (hexPad_chars 4 _ c h)
  rcases h with rfl | h
  · exact (by decide)
  rcases h with h | h
  · exact hexrange_ok c (hexPad_chars 4 _ c h)
  rcases h with rfl | h
  · exact (by decide)
  rcases h with (h | h) | h
  · exact hexrange_ok c (hexPad_chars 2 _ c h)
  · exact hexrange_ok c (hexPad_chars 2 _ c h)
  rcases h with rfl | h
  · exact (by decide)
  · exact hexrange_ok c (hexPairs_chars _ c h)

theorem listD8 (l : List Nat) (h : l.length = 8) :
    l = [l.getD 0 0, l.getD 1 0, l.getD 2 0, l.getD 3 0,
         l.getD 4 0, l.getD 5 0, l.getD 6 0, l.getD 7 0] := by
  refine List.ext_getElem (by simp [h]) ?_
  intro i h1 h2
  rw [h] at h1
  interval_cases i <;>
    (simp only [List.getElem_cons_zero, List.getElem_cons_succ]
     rw [List.getD_eq_getElem l 0 (by omega)])

theorem node_roundtrip_pciroot (n : DpNode) (h : CanonPciRoot n) :
    dpNodeFromText (dpNodeText false n) = n := by
  obtain ⟨ht, hs, hl, hhid, hB⟩ := h
  rcases n with ⟨t, s, p⟩
  simp only at ht hs hl hhid hB
  subst ht hs
  have hrender : dpNodeText false ⟨2, 1, p⟩ = renderPciRoot ⟨2, 1, p⟩ := by
    unfold dpNodeText
    rw [if_pos ⟨rfl, rfl, hl, hhid⟩]
  rw [hrender]
  have hshape : renderPciRoot ⟨2, 1, p⟩ =
      "PciRoot".data ++ '(' :: (renderNum (u32le p 4) ++ [')']) := rfl
  rw [hshape]
  unfold dpNodeFromText
  rw [nodeNameArgs_wrap _ _ (by decide)]
  dsimp only
  have htyped : dpTypedFromText "PciRoot".data (renderNum (u32le p 4)) =
      some ⟨2, 1, u32leBytes HID_PCIROOT ++ u32leBytes (u32le p 4)⟩ := by
    unfold dpTypedFromText
    rw [if_pos rfl, parseNum_renderNum]
  rw [htyped]
  show (⟨2, 1, u32leBytes HID_PCIROOT ++ u32leBytes (u32le p 4)⟩ : DpNode)
      = ⟨2, 1, p⟩
  simp only [DpNode.mk.injEq, true_and]
  rw [u32leBytes_getD p hB 4]
  have hu : u32leBytes HID_PCIROOT = [0xd0, 0x41, 0x03, 0x0a] := rfl
  rw [hu]
  have g0 := getD_lt p hB 0
  have g1 := getD_lt p hB 1
  have g2 := getD_lt p hB 2
  have g3 := getD_lt p hB 3
  have hhid2 : p.getD 0 0 + 256 * p.getD 1 0 +
      65536 * (p.getD 2 0 + 256 * p.getD 3 0) = 0x0a0341d0 := by
    have h5 := hhid
    simp only [u32le, u16le, HID_PCIROOT, Nat.reduceAdd] at h5
    omega
  show [0xd0, 0x41, 0x03, 0x0a] ++
    [p.getD 4 0, p.getD 5 0, p.getD 6 0, p.getD 7 0] = p
  conv_rhs => rw [listD8 p hl]
  simp only [List.cons_append, List.nil_append, List.cons.injEq]
  refine ⟨by omega, by omega, by omega, by omega, trivial⟩

theorem node_roundtrip_pci (n : DpNode) (h : CanonPci n) :
    dpNodeFromText (dpNodeText false n) = n := by
  obtain ⟨ht, hs, hl, hB⟩ := h
  rcases n with ⟨t, s, p⟩
  simp only at ht hs hl hB
  subst ht hs
  rcases p with _ | ⟨b0, _ | ⟨b1, tail⟩⟩
  · simp at hl
  · simp at hl
  have htail : tail = [] := by
    simp only [List.length_cons] at hl
    exact List.eq_nil_of_length_eq_zero (by omega)
  subst htail
  have hb0 : b0 < 256 := hB b0 (by simp)
  have hb1 : b1 < 256 := hB b1 (by simp)
  have hrender : dpNodeText false ⟨1, 1, [b0, b1]⟩ =
      renderPci ⟨1, 1, [b0, b1]⟩ := by
    unfold dpNodeText
    rw [if_neg (by simp), if_pos ⟨rfl, rfl, rfl⟩]
  rw [hrender]
  have hshape : renderPci ⟨1, 1, [b0, b1]⟩ = "Pci".data ++ '(' ::
      ((renderNum b1 ++ ',' :: renderNum b0) ++ [')']) := by
    simp [renderPci, List.append_assoc]
  rw [hshape]
  unfold dpNodeFromText
  rw [nodeNameArgs_wrap _ _ (by decide)]
  dsimp only
  have htyped : dpTypedFromText "Pci".data
      (renderNum b1 ++ ',' :: renderNum b0) = some ⟨1, 1, [b0, b1]⟩ := by
    unfold dpTypedFromText
    rw [if_neg (by decide), if_pos rfl]
    rw [splitComma_two _ _
      (fun hm => ((renderNum_ok b1 ',' hm).2.2.1) rfl)
      (fun hm => ((renderNum_ok b0 ',' hm).2.2.1) rfl)]
    dsimp only
    rw [parseNum_renderNum, parseNum_renderNum]
    rw [Nat.mod_eq_of_lt hb0, Nat.mod_eq_of_lt hb1]
  rw [htyped]

theorem node_roundtrip_ata (n : DpNode) (h : CanonAta n) :
    dpNodeFromText (dpNodeText false n) = n := by
  obtain ⟨ht, hs, hl, hB, hps, hsm⟩ := h
  rcases n with ⟨t, s, p⟩
  simp only at ht hs hl hB hps hsm
  subst ht hs
  rcases p with _ | ⟨b0, _ | ⟨b1, _ | ⟨b2, _ | ⟨b3, tail⟩⟩⟩⟩
  · simp at hl
  · simp at hl
  · simp at hl
  · simp at hl
  have htail : tail = [] := by
    simp only [List.length_cons] at hl
    exact List.eq_nil_of_length_eq_zero (by omega)
  subst htail
  have hb2 : b2 < 256 := hB b2 (by simp)
  have hb3 : b3 < 256 := hB b3 (by simp)
  simp only [List.getD_cons_zero, List.getD_cons_succ] at hps hsm
  have hrender : dpNodeText false ⟨3, 1, [b0, b1, b2, b3]⟩ =
      renderAta false ⟨3, 1, [b0, b1, b2, b3]⟩ := by
    unfold dpNodeText
    rw [if_neg (by simp), if_neg (by simp), if_pos ⟨rfl, rfl, rfl⟩]
  rw [hrender]
  have hu16 : u16le [b0, b1, b2, b3] 2 = b2 + 256 * b3 := rfl
  have hsel1 : (if b0 = 1 then "Secondary".data else "Primary".data) =
      (if b0 = 1 then "Secondary".data else "Primary".data) := rfl
  have hshape : renderAta false ⟨3, 1, [b0, b1, b2, b3]⟩ =
      "Ata".data ++ '(' ::
        (((if b0 = 1 then "Secondary".data else "Primary".data) ++ ',' ::
          ((if b1 = 1 then "Slave".data else "Master".data) ++ ',' ::
            renderNum (b2 + 256 * b3))) ++ [')']) := by
    show renderAta false ⟨3, 1, [b0, b1, b2, b3]⟩ = _
    unfold renderAta
    rw [if_neg (by simp)]
    simp [List.append_assoc, List.getD_cons_zero, List.getD_cons_succ, hu16]
  rw [hshape]
  unfold dpNodeFromText
  rw [nodeNameArgs_wrap _ _ (by decide)]
  dsimp only
  have hc1 : ',' ∉ (if b0 = 1 then "Secondary".data else "Primary".data) := by
    by_cases h0 : b0 = 1
    · rw [if_pos h0]; decide
    · rw [if_neg h0]; decide
  have hc2 : ',' ∉ (if b1 = 1 then "Slave".data else "Master".data) := by
    by_cases h0 : b1 = 1
    · rw [if_pos h0]; decide
    · rw [if_neg h0]; decide
  have htyped : dpTypedFromText "Ata".data
      ((if b0 = 1 then "Secondary".data else "Primary".data) ++ ',' ::
        ((if b1 = 1 then "Slave".data else "Master".data) ++ ',' ::
          renderNum (b2 + 256 * b3))) = some ⟨3, 1, [b0, b1, b2, b3]⟩ := by
    unfold dpTypedFromText
    rw [if_neg (by decide), if_neg (by decide), if_pos rfl]
    rw [splitComma_three _ _ _ hc1 hc2
      (fun hm => ((renderNum_ok _ ',' hm).2.2.1) rfl)]
    dsimp only
    rw [parseNum_renderNum]
    rw [u16leBytes_u16le b2 b3 hb2 hb3]
    have he1 : (if (if b0 = 1 then "Secondary".data else "Primary".data) =
        "Secondary".data then 1 else 0) = b0 := by
      by_cases h0 : b0 = 1
      · rw [if_pos h0, if_pos rfl, h0]
      · rw [if_neg h0, if_neg (by decide)]
        omega
    have he2 : (if (if b1 = 1 then "Slave".data else "Master".data) =
        "Slave".data then 1 else 0) = b1 := by
      by_cases h0 : b1 = 1
      · rw [if_pos h0, if_pos rfl, h0]
      · rw [if_neg h0, if_neg (by decide)]
        omega
    rw [he1, he2]
    rfl
  rw [htyped]

theorem drop_last_one (l : List Nat) (n : Nat) (h : l.length = n + 1) :
    l.drop n = [l.getD n 0] := by
  have h1 : (l.drop n).length = 1 := by simp [h]
  rcases hd : l.drop n with _ | ⟨x, xs⟩
  · rw [hd] at h1
    simp at h1
  · rw [hd] at h1
    simp only [List.length_cons] at h1
    have hxs : xs = [] := List.eq_nil_of_length_eq_zero (by omega)
    subst hxs
    have hx : x = l.getD n 0 := by
      have h2 : (l.drop n).getD 0 0 = x := by rw [hd]; rfl
      rw [← h2]
      have h3 : n < l.length := by omega
      rw [List.getD_eq_getElem l 0 h3,
          List.getD_eq_getElem (l.drop n) 0 (by rw [hd]; simp)]
      simp
    rw [hx]

theorem node_roundtrip_mac (n : DpNode) (h : CanonMac n) :
    dpNodeFromText (dpNodeText false n) = n := by
  obtain ⟨ht, hs, hl, hB, hz⟩ := h
  rcases n with ⟨t, s, p⟩
  simp only at ht hs hl hB hz
  subst ht hs
  have hift : p.getD 32 0 < 256 := getD_lt p hB 32
  have hrender : dpNodeText false ⟨3, 11, p⟩ = renderMac ⟨3, 11, p⟩ := by
    unfold dpNodeText
    rw [if_neg (by simp), if_neg (by simp), if_neg (by simp),
        if_pos ⟨rfl, rfl, hl⟩]
  rw [hrender]
  have hshape : renderMac ⟨3, 11, p⟩ = "MAC".data ++ '(' ::
      ((hexPairs (if p.getD 32 0 = 0 ∨ p.getD 32 0 = 1
        then p.take 6 else p.take 32) ++ ',' ::
        renderNum (p.getD 32 0)) ++ [')']) := by
    unfold renderMac
    simp [List.append_assoc]
  rw [hshape]
  unfold dpNodeFromText
  rw [nodeNameArgs_wrap _ _ (by decide)]
  dsimp only
  have hcomma : ',' ∉ hexPairs (if p.getD 32 0 = 0 ∨ p.getD 32 0 = 1
      then p.take 6 else p.take 32) :=
    fun hm => ((hexrange_ok ',' (hexPairs_chars _ ',' hm)).2.2.1) rfl
  have hBtake : ∀ k, ByteList (p.take k) := fun k x hx =>
    hB x (List.mem_of_mem_take hx)
  have hsplit : p = p.take 32 ++ [p.getD 32 0] := by
    have hd := drop_last_one p 32 hl
    rw [← hd]
    exact (List.take_append_drop 32 p).symm
  have htyped : dpTypedFromText "MAC".data
      (hexPairs (if p.getD 32 0 = 0 ∨ p.getD 32 0 = 1
        then p.take 6 else p.take 32) ++ ',' ::
        renderNum (p.getD 32 0)) = some ⟨3, 11, p⟩ := by
    unfold dpTypedFromText
    rw [if_neg (by decide), if_neg (by decide), if_neg (by decide),
        if_pos rfl]
    rw [splitComma_two _ _ hcomma
      (fun hm => ((renderNum_ok _ ',' hm).2.2.1) rfl)]
    dsimp only
    rw [parseNum_renderNum, Nat.mod_eq_of_lt hift]
    by_cases hcase : p.getD 32 0 = 0 ∨ p.getD 32 0 = 1
    · rw [if_pos hcase]
      rw [parsePairs_hexPairs _ (hBtake 6)]
      have htk : (p.take 6 ++ List.replicate 32 0).take 32 =
          p.take 6 ++ List.replicate 26 0 := by
        rw [List.take_append_eq_append_take]
        have h6 : (p.take 6).length = 6 := by simp [hl]
        rw [List.take_of_length_le (by omega), h6, List.take_replicate]
        norm_num
      rw [htk]
      have hz26 : (p.drop 6).take 26 = List.replicate 26 0 := by
        refine List.eq_replicate_iff.mpr ⟨by simp [hl], hz hcase⟩
      have htk32 : p.take 32 = p.take 6 ++ (p.drop 6).take 26 := by
        have := List.take_add p 6 26
        norm_num at this
        exact this
      have hre : p.take 6 ++ List.replicate 26 0 = p.take 32 := by
        rw [htk32, hz26]
      rw [hre, ← hsplit]
    · rw [if_neg hcase]
      rw [parsePairs_hexPairs _ (hBtake 32)]
      have htk : (p.take 32 ++ List.replicate 32 0).take 32 = p.take 32 :=
        take_exact _ _ _ (by simp [hl])
      rw [htk, ← hsplit]
  rw [htyped]

theorem node_roundtrip_uri (n : DpNode) (h : CanonUri n) :
    dpNodeFromText (dpNodeText false n) = n := by
  obtain ⟨ht, hs, hch⟩ := h
  rcases n with ⟨t, s, p⟩
  simp only at ht hs hch
  subst ht hs
  have hrender : dpNodeText false ⟨3, 24, p⟩ = renderUri ⟨3, 24, p⟩ := by
    unfold dpNodeText
    rw [if_neg (by simp), if_neg (by simp), if_neg (by simp),
        if_neg (by simp), if_pos ⟨rfl, rfl⟩]
  rw [hrender]
  have hshape : renderUri ⟨3, 24, p⟩ =
      "Uri".data ++ '(' :: (p.map Char.ofNat ++ [')']) := rfl
  rw [hshape]
  unfold dpNodeFromText
  rw [nodeNameArgs_wrap _ _ (by decide)]
  dsimp only
  have htyped : dpTypedFromText "Uri".data (p.map Char.ofNat) =
      some ⟨3, 24, (p.map Char.ofNat).map (fun c => c.toNat % 256)⟩ := by
    unfold dpTypedFromText
    rw [if_neg (by decide), if_neg (by decide), if_neg (by decide),
        if_neg (by decide), if_pos rfl]
  rw [htyped]
  have hmm : (p.map Char.ofNat).map (fun c => c.toNat % 256) = p := by
    rw [List.map_map]
    have hpt : ∀ b ∈ p, ((fun c => Char.toNat c % 256) ∘ Char.ofNat) b
        = id b := by
      intro b hb
      obtain ⟨h1, h2, _⟩ := hch b hb
      have hd : ∀ m < 127, (Char.ofNat m).toNat % 256 = m := by decide
      exact hd b h2
    rw [List.map_congr_left hpt, List.map_id]
  rw [hmm]

theorem node_roundtrip_fv (n : DpNode) (h : CanonFv n) :
    dpNodeFromText (dpNodeText false n) = n := by
  obtain ⟨ht, hs, hl, hB⟩ := h
  rcases n with ⟨t, s, p⟩
  simp only at ht hs hl hB
  subst ht hs
  have hrender : dpNodeText false ⟨4, 7, p⟩ = renderFv ⟨4, 7, p⟩ := by
    unfold dpNodeText
    rw [if_neg (by simp), if_neg (by simp), if_neg (by simp),
        if_neg (by simp), if_neg (by simp), if_neg (by simp),
        if_neg (by simp), if_neg (by simp), if_pos ⟨rfl, rfl, hl⟩]
  rw [hrender]
  have hshape : renderFv ⟨4, 7, p⟩ =
      "Fv".data ++ '(' :: (guidText p ++ [')']) := rfl
  rw [hshape]
  unfold dpNodeFromText
  rw [nodeNameArgs_wrap _ _ (by decide)]
  dsimp only
  have htyped : dpTypedFromText "Fv".data (guidText p) =
      some ⟨4, 7, guidBytes (guidText p)⟩ := by
    unfold dpTypedFromText
    rw [if_neg (by decide), if_neg (by decide), if_neg (by decide),
        if_neg (by decide), if_neg (by decide), if_neg (by decide),
        if_neg (by decide), if_pos rfl]
  rw [htyped, guidBytes_guidText p hB hl]

theorem node_roundtrip_fvfile (n : DpNode) (h : CanonFvFile n) :
    dpNodeFromText (dpNodeText false n) = n := by
  obtain ⟨ht, hs, hl, hB⟩ := h
  rcases n with ⟨t, s, p⟩
  simp only at ht hs hl hB
  subst ht hs
  have hrender : dpNodeText false ⟨4, 6, p⟩ = renderFvFile ⟨4, 6, p⟩ := by
    unfold dpNodeText
    rw [if_neg (by simp), if_neg (by simp), if_neg (by simp),
        if_neg (by simp), if_neg (by simp), if_neg (by simp),
        if_neg (by simp), if_pos ⟨rfl, rfl, hl⟩]
  rw [hrender]
  have hshape : renderFvFile ⟨4, 6, p⟩ =
      "FvFile".data ++ '(' :: (guidText p ++ [')']) := rfl
  rw [hshape]
  unfold dpNodeFromText
  rw [nodeNameArgs_wrap _ _ (by decide)]
  dsimp only
  have htyped : dpTypedFromText "FvFile".data (guidText p) =
      some ⟨4, 6, guidBytes (guidText p)⟩ := by
    unfold dpTypedFromText
    rw [if_neg (by decide), if_neg (by decide), if_neg (by decide),
        if_neg (by decide), if_neg (by decide), if_neg (by decide),
        if_pos rfl]
  rw [htyped, guidBytes_guidText p hB hl]

theorem takeWhile_exact (q : Nat → Bool) :
    ∀ (a : List Nat) (x : Nat) (rest : List Nat),
    (∀ u ∈ a, q u = true) → q x = false →
    (a ++ x :: rest).takeWhile q = a := by
  intro a
  induction a with
  | nil =>
    intro x rest _ hx
    show List.takeWhile q (x :: rest) = []
    rw [List.takeWhile_cons, hx]
    simp
  | cons u tl ih =>
    intro x rest h hx
    have hu : q u = true := h u (List.mem_cons_self u tl)
    show List.takeWhile q (u :: (tl ++ x :: rest)) = u :: tl
    rw [List.takeWhile_cons, hu]
    rw [ih x rest (fun v hv => h v (List.mem_cons_of_mem u hv)) hx]
    simp

theorem node_roundtrip_filepath (n : DpNode) (h : CanonFilePath n) :
    dpNodeFromText (dpNodeText false n) = n := by
  obtain ⟨ht, hs, hpay, hlast, hne, hch⟩ := h
  rcases n with ⟨t, s, p⟩
  simp only at ht hs hpay hlast hne hch
  subst ht hs
  have husne : ucs2Units p ≠ [] := by
    intro he
    rw [he] at hlast
    simp at hlast
  have hgl : (ucs2Units p).getLast husne = 0 := by
    have h1 := List.getLast?_eq_getLast (ucs2Units p) husne
    rw [h1] at hlast
    exact Option.some.inj hlast
  have hus : (ucs2Units p).dropLast ++ [0] = ucs2Units p := by
    have h2 := List.dropLast_append_getLast husne
    rw [hgl] at h2
    exact h2
  have hrender : dpNodeText false ⟨4, 4, p⟩ = renderFilePath ⟨4, 4, p⟩ := by
    unfold dpNodeText
    rw [if_neg (by simp), if_neg (by simp), if_neg (by simp),
        if_neg (by simp), if_neg (by simp), if_neg (by simp),
        if_pos ⟨rfl, rfl⟩]
  rw [hrender]
  have htw2 : List.takeWhile (fun u => decide (¬ u = 0))
      ((ucs2Units p).dropLast ++ 0 :: []) = (ucs2Units p).dropLast := by
    refine takeWhile_exact (fun u => decide (¬ u = 0))
      ((ucs2Units p).dropLast) 0 [] ?_ (by decide)
    intro u hu
    have h32 := (hch u hu).1
    rw [decide_eq_true_eq]
    omega
  have htw : (ucs2Units p).takeWhile (fun u => ¬ u = 0) =
      (ucs2Units p).dropLast := by
    conv_lhs => rw [← hus]
    exact htw2
  have hshape : renderFilePath ⟨4, 4, p⟩ =
      ((ucs2Units p).dropLast).map Char.ofNat := by
    unfold renderFilePath
    rw [htw]
  rw [hshape]
  unfold dpNodeFromText
  have hparen : '(' ∉ ((ucs2Units p).dropLast).map Char.ofNat := by
    intro hm
    obtain ⟨u, hu, he⟩ := List.mem_map.mp hm
    obtain ⟨h1, h2, h3, _⟩ := hch u hu
    have hd : ∀ m < 127, Char.ofNat m = '(' → m = 40 := by decide
    exact h3 (hd u h2 he)
  rw [nodeNameArgs_none _ hparen]
  unfold filePathNodeOf
  have hmm : (((ucs2Units p).dropLast).map Char.ofNat).map Char.toNat =
      (ucs2Units p).dropLast := by
    rw [List.map_map]
    have hpt : ∀ b ∈ (ucs2Units p).dropLast,
        (Char.toNat ∘ Char.ofNat) b = id b := by
      intro b hb
      have h2 := (hch b hb).2.1
      have hd : ∀ m < 127, (Char.ofNat m).toNat = m := by decide
      exact hd b h2
    rw [List.map_congr_left hpt, List.map_id]
  rw [hmm, hus, ← hpay]

theorem getD_drop (l : List Nat) (m k : Nat) :
    (l.drop m).getD k 0 = l.getD (m + k) 0 := by
  by_cases h : m + k < l.length
  · rw [List.getD_eq_getElem (l.drop m) 0 (by simp; omega),
        List.getD_eq_getElem l 0 h]
    rw [List.getElem_drop]
  · rw [List.getD_eq_default (l.drop m) 0 (by simp; omega),
        List.getD_eq_default l 0 (by omega)]

theorem listD4 (l : List Nat) (h : l.length = 4) :
    l = [l.getD 0 0, l.getD 1 0, l.getD 2 0, l.getD 3 0] := by
  refine List.ext_getElem (by simp [h]) ?_
  intro i h1 h2
  rw [h] at h1
  interval_cases i <;>
    (simp only [List.getElem_cons_zero, List.getElem_cons_succ]
     rw [List.getD_eq_getElem l 0 (by omega)])

theorem drop_last_two (l : List Nat) (n : Nat) (h : l.length = n + 2) :
    l.drop n = [l.getD n 0, l.getD (n + 1) 0] := by
  have h1 : (l.drop n).length = 2 := by simp [h]
  rcases hd : l.drop n with _ | ⟨x, _ | ⟨y, tail⟩⟩
  · rw [hd] at h1
    simp at h1
  · rw [hd] at h1
    simp at h1
  · rw [hd] at h1
    simp only [List.length_cons] at h1
    have htail : tail = [] := List.eq_nil_of_length_eq_zero (by omega)
    subst htail
    have hx : x = l.getD n 0 := by
      have h2 : (l.drop n).getD 0 0 = x := by rw [hd]; rfl
      rw [← h2, getD_drop]
      simp
    have hy : y = l.getD (n + 1) 0 := by
      have h2 : (l.drop n).getD 1 0 = y := by rw [hd]; rfl
      rw [← h2, getD_drop]
    rw [hx, hy]

theorem u64leBytes_getD (b : List Nat) (h : ByteList b) (i : Nat) :
    u64leBytes (u64le b i) =
      [b.getD i 0, b.getD (i + 1) 0, b.getD (i + 2) 0, b.getD (i + 3) 0,
       b.getD (i + 4) 0, b.getD (i + 5) 0, b.getD (i + 6) 0,
       b.getD (i + 7) 0] := by
  have hL := u32le_lt b h i
  have hrfl : u64le b i = u32le b i + 4294967296 * u32le b (i + 4) := rfl
  have hdiv : u64le b i / 4294967296 = u32le b (i + 4) := by omega
  have hsplit : u64leBytes (u64le b i) =
      u32leBytes (u32le b i) ++ u32leBytes (u32le b (i + 4)) := by
    show u32leBytes (u64le b i) ++ u32leBytes (u64le b i / 4294967296) = _
    rw [hdiv]
    congr 1
    unfold u32leBytes
    congr 1
    · omega
    congr 1
    · omega
    congr 1
    · omega
    congr 1
    omega
  rw [hsplit, u32leBytes_getD b h i, u32leBytes_getD b h (i + 4)]
  simp only [List.cons_append, List.nil_append]

theorem take20_getD (l : List Nat) (h : 20 ≤ l.length) :
    l.take 20 = [l.getD 0 0, l.getD 1 0, l.getD 2 0, l.getD 3 0,
      l.getD 4 0, l.getD 5 0, l.getD 6 0, l.getD 7 0, l.getD 8 0,
      l.getD 9 0, l.getD 10 0, l.getD 11 0, l.getD 12 0, l.getD 13 0,
      l.getD 14 0, l.getD 15 0, l.getD 16 0, l.getD 17 0, l.getD 18 0,
      l.getD 19 0] := by
  refine List.ext_getElem (by simp; omega) ?_
  intro i h1 h2
  simp only [List.length_take] at h1
  have hi : i < 20 := by omega
  interval_cases i <;>
    (simp only [List.getElem_cons_zero, List.getElem_cons_succ,
       List.getElem_take]
     rw [List.getD_eq_getElem l 0 (by omega)])

theorem node_roundtrip_hd (n : DpNode) (h : CanonHd n) :
    dpNodeFromText (dpNodeText false n) = n := by
  obtain ⟨ht, hs, hl, hB, h36, h37⟩ := h
  rcases n with ⟨t, s, p⟩
  simp only at ht hs hl hB h36 h37
  subst ht hs
  have hrender : dpNodeText false ⟨4, 1, p⟩ = renderHd ⟨4, 1, p⟩ := by
    unfold dpNodeText
    rw [if_neg (by simp), if_neg (by simp), if_neg (by simp),
        if_neg (by simp), if_neg (by simp), if_pos ⟨rfl, rfl, hl, h36, h37⟩]
  rw [hrender]
  have hshape : renderHd ⟨4, 1, p⟩ = "HD".data ++ '(' ::
      ((decChars (u32le p 0) ++ ',' :: ("GPT".data ++ ',' ::
        (guidText ((p.drop 20).take 16) ++ ',' ::
          (renderNum (u64le p 4) ++ ',' :: renderNum (u64le p 12)))))
       ++ [')']) := by
    unfold renderHd
    simp [List.append_assoc]
  rw [hshape]
  unfold dpNodeFromText
  rw [nodeNameArgs_wrap _ _ (by decide)]
  dsimp only
  have hB20 : ByteList ((p.drop 20).take 16) := fun x hx =>
    hB x (List.mem_of_mem_drop (List.mem_of_mem_take hx))
  have hl20 : ((p.drop 20).take 16).length = 16 := by simp [hl]
  have htyped : dpTypedFromText "HD".data
      (decChars (u32le p 0) ++ ',' :: ("GPT".data ++ ',' ::
        (guidText ((p.drop 20).take 16) ++ ',' ::
          (renderNum (u64le p 4) ++ ',' :: renderNum (u64le p 12))))) =
      some ⟨4, 1, u32leBytes (u32le p 0) ++ u64leBytes (u64le p 4) ++
        u64leBytes (u64le p 12) ++ (p.drop 20).take 16 ++ [2, 2]⟩ := by
    unfold dpTypedFromText
    rw [if_neg (by decide), if_neg (by decide), if_neg (by decide),
        if_neg (by decide), if_neg (by decide), if_pos rfl]
    rw [splitComma_five _ _ _ _ _
      (fun hm => ((decChars_ok _ ',' hm).2.2.1) rfl)
      (by decide)
      (fun hm => ((guidText_ok _ ',' hm).2.2.1) rfl)
      (fun hm => ((renderNum_ok _ ',' hm).2.2.1) rfl)
      (fun hm => ((renderNum_ok _ ',' hm).2.2.1) rfl)]
    dsimp only
    rw [if_pos rfl]
    rw [parseNum_decChars, parseNum_renderNum, parseNum_renderNum,
        guidBytes_guidText _ hB20 hl20]
  rw [htyped]
  have hd36 : p.drop 36 = [2, 2] := by
    rw [drop_last_two p 36 (by omega)]
    rw [h36, h37]
  have ht36 : p.take 36 = p.take 20 ++ (p.drop 20).take 16 := by
    have := List.take_add p 20 16
    norm_num at this
    exact this
  have hp : p.take 20 ++ (p.drop 20).take 16 ++ [2, 2] = p := by
    rw [← ht36, ← hd36]
    exact List.take_append_drop 36 p
  rw [u32leBytes_getD p hB 0, u64leBytes_getD p hB 4,
      u64leBytes_getD p hB 12]
  show (⟨4, 1, _⟩ : DpNode) = ⟨4, 1, p⟩
  simp only [DpNode.mk.injEq, true_and]
  conv_rhs => rw [← hp]
  rw [take20_getD p (by omega)]
  simp [List.append_assoc]

theorem node_roundtrip (n : DpNode) (h : canonicalNode n) :
    dpNodeFromText (dpNodeText false n) = n := by
  rcases h with h | h | h | h | h | h | h | h | h
  · exact node_roundtrip_pciroot n h
  · exact node_roundtrip_pci n h
  · exact node_roundtrip_ata n h
  · exact node_roundtrip_mac n h
  · exact node_roundtrip_uri n h
  · exact node_roundtrip_hd n h
  · exact node_roundtrip_filepath n h
  · exact node_roundtrip_fvfile n h
  · exact node_roundtrip_fv n h

set_option maxRecDepth 4096 in
theorem ofNat_spec_inv (m : Nat) (h : m < 127) :
    (Char.ofNat m = '(' → m = 40) ∧ (Char.ofNat m = ')' → m = 41) ∧
    (Char.ofNat m = '/' → m = 47) := by
  have hd : ∀ k ∈ List.range 127, (Char.ofNat k = '(' → k = 40) ∧
      (Char.ofNat k = ')' → k = 41) ∧ (Char.ofNat k = '/' → k = 47) := by
    decide
  exact hd m (List.mem_range.mpr h)

theorem filepath_takeWhile (p : List Nat)
    (hlast : (ucs2Units p).getLast? = some 0)
    (hch : ∀ u ∈ (ucs2Units p).dropLast, 32 ≤ u) :
    (ucs2Units p).takeWhile (fun u => ¬ u = 0) =
      (ucs2Units p).dropLast := by
  have husne : ucs2Units p ≠ [] := by
    intro he
    rw [he] at hlast
    simp at hlast
  have hgl : (ucs2Units p).getLast husne = 0 := by
    have h1 := List.getLast?_eq_getLast (ucs2Units p) husne
    rw [h1] at hlast
    exact Option.some.inj hlast
  have hus : (ucs2Units p).dropLast ++ [0] = ucs2Units p := by
    have h2 := List.dropLast_append_getLast husne
    rw [hgl] at h2
    exact h2
  have htw2 : List.takeWhile (fun u => decide (¬ u = 0))
      ((ucs2Units p).dropLast ++ 0 :: []) = (ucs2Units p).dropLast := by
    refine takeWhile_exact (fun u => decide (¬ u = 0))
      ((ucs2Units p).dropLast) 0 [] ?_ (by decide)
    intro u hu
    have h32 := hch u hu
    rw [decide_eq_true_eq]
    omega
  conv_lhs => rw [← hus]
  exact htw2

theorem seg_safe_node (n : DpNode) (h : canonicalNode n) :
    segSafe (dpNodeText false n) = true := by
  rcases h with h | h | h | h | h | h | h | h | h
  · obtain ⟨ht, hs, hl, hhid, _⟩ := h
    have hrender : dpNodeText false n = "PciRoot".data ++ '(' ::
        (renderNum (u32le n.payload 4) ++ [')']) := by
      unfold dpNodeText
      rw [if_pos ⟨ht, hs, hl, hhid⟩]
      rfl
    rw [hrender]
    exact segSafe_wrap _ _ (by decide)
      (fun c hc => ⟨(renderNum_ok _ c hc).1, (renderNum_ok _ c hc).2.1⟩)
  · obtain ⟨ht, hs, hl, _⟩ := h
    have hrender : dpNodeText false n = "Pci".data ++ '(' ::
        ((renderNum (n.payload.getD 1 0) ++ ',' ::
          renderNum (n.payload.getD 0 0)) ++ [')']) := by
      unfold dpNodeText
      rw [if_neg (by simp [ht]), if_pos ⟨ht, hs, hl⟩]
      unfold renderPci
      simp [List.append_assoc]
    rw [hrender]
    refine segSafe_wrap _ _ (by decide) ?_
    intro c hc
    rcases List.mem_append.mp hc with h1 | h1
    · exact ⟨(renderNum_ok _ c h1).1, (renderNum_ok _ c h1).2.1⟩
    rcases List.mem_cons.mp h1 with rfl | h1
    · exact (by decide)
    · exact ⟨(renderNum_ok _ c h1).1, (renderNum_ok _ c h1).2.1⟩
  · obtain ⟨ht, hs, hl, _, _, _⟩ := h
    have hrender : dpNodeText false n = "Ata".data ++ '(' ::
        (((if n.payload.getD 0 0 = 1 then "Secondary".data
           else "Primary".data) ++ ',' ::
          ((if n.payload.getD 1 0 = 1 then "Slave".data
            else "Master".data) ++ ',' ::
            renderNum (u16le n.payload 2))) ++ [')']) := by
      unfold dpNodeText
      rw [if_neg (by simp [ht]), if_neg (by simp [ht]),
          if_pos ⟨ht, hs, hl⟩]
      unfold renderAta
      rw [if_neg (by simp)]
      simp [List.append_assoc]
    rw [hrender]
    have hsel1 : ∀ c ∈ (if n.payload.getD 0 0 = 1 then "Secondary".data
        else "Primary".data), c ≠ '(' ∧ c ≠ ')' := by
      by_cases hb : n.payload.getD 0 0 = 1
      · rw [if_pos hb]; decide
      · rw [if_neg hb]; decide
    have hsel2 : ∀ c ∈ (if n.payload.getD 1 0 = 1 then "Slave".data
        else "Master".data), c ≠ '(' ∧ c ≠ ')' := by
      by_cases hb : n.payload.getD 1 0 = 1
      · rw [if_pos hb]; decide
      · rw [if_neg hb]; decide
    refine segSafe_wrap _ _ (by decide) ?_
    intro c hc
    rcases List.mem_append.mp hc with h1 | h1
    · exact hsel1 c h1
    rcases List.mem_cons.mp h1 with rfl | h1
    · exact (by decide)
    rcases List.mem_append.mp h1 with h1 | h1
    · exact hsel2 c h1
    rcases List.mem_cons.mp h1 with rfl | h1
    · exact (by decide)
    · exact ⟨(renderNum_ok _ c h1).1, (renderNum_ok _ c h1).2.1⟩
  · obtain ⟨ht, hs, hl, _, _⟩ := h
    have hrender : dpNodeText false n = "MAC".data ++ '(' ::
        ((hexPairs (if n.payload.getD 32 0 = 0 ∨ n.payload.getD 32 0 = 1
          then n.payload.take 6 else n.payload.take 32) ++ ',' ::
          renderNum (n.payload.getD 32 0)) ++ [')']) := by
      unfold dpNodeText
      rw [if_neg (by simp [ht]), if_neg (by simp [ht]),
          if_neg (by simp [hs]), if_pos ⟨ht, hs, hl⟩]
      unfold renderMac
      simp [List.append_assoc]
    rw [hrender]
    refine segSafe_wrap _ _ (by decide) ?_
    intro c hc
    rcases List.mem_append.mp hc with h1 | h1
    · exact ⟨(hexrange_ok c (hexPairs_chars _ c h1)).1,
        (hexrange_ok c (hexPairs_chars _ c h1)).2.1⟩
    rcases List.mem_cons.mp h1 with rfl | h1
    · exact (by decide)
    · exact ⟨(renderNum_ok _ c h1).1, (renderNum_ok _ c h1).2.1⟩
  · obtain ⟨ht, hs, hch⟩ := h
    have hrender : dpNodeText false n = "Uri".data ++ '(' ::
        (n.payload.map Char.ofNat ++ [')']) := by
      unfold dpNodeText
      rw [if_neg (by simp [ht]), if_neg (by simp [ht]),
          if_neg (by simp [hs]), if_neg (by simp [hs]),
          if_pos ⟨ht, hs⟩]
      rfl
    rw [hrender]
    refine segSafe_wrap _ _ (by decide) ?_
    intro c hc
    obtain ⟨u, hu, he⟩ := List.mem_map.mp hc
    obtain ⟨h1, h2, h3, h4, _⟩ := hch u hu
    obtain ⟨e1, e2, _⟩ := ofNat_spec_inv u h2
    constructor
    · intro hcc
      rw [hcc] at he
      exact h3 (e1 he)
    · intro hcc
      rw [hcc] at he
      exact h4 (e2 he)
  · obtain ⟨ht, hs, hl, _, h36, h37⟩ := h
    have hrender : dpNodeText false n = "HD".data ++ '(' ::
        ((decChars (u32le n.payload 0) ++ ',' :: ("GPT".data ++ ',' ::
          (guidText ((n.payload.drop 20).take 16) ++ ',' ::
            (renderNum (u64le n.payload 4) ++ ',' ::
              renderNum (u64le n.payload 12))))) ++ [')']) := by
      unfold dpNodeText
      rw [if_neg (by simp [ht]), if_neg (by simp [ht]),
          if_neg (by simp [ht]), if_neg (by simp [ht]),
          if_neg (by simp [ht]), if_pos ⟨ht, hs, hl, h36, h37⟩]
      unfold renderHd
      simp [List.append_assoc]
    rw [hrender]
    refine segSafe_wrap _ _ (by decide) ?_
    intro c hc
    rcases List.mem_append.mp hc with h1 | h1
    · exact ⟨(decChars_ok _ c h1).1, (decChars_ok _ c h1).2.1⟩
    rcases List.mem_cons.mp h1 with rfl | h1
    · exact (by decide)
    rcases List.mem_append.mp h1 with h1 | h1
    · have hgpt : ∀ x ∈ "GPT".data, x ≠ '(' ∧ x ≠ ')' := by decide
      exact hgpt c h1
    rcases List.mem_cons.mp h1 with rfl | h1
    · exact (by decide)
    rcases List.mem_append.mp h1 with h1 | h1
    · exact ⟨(guidText_ok _ c h1).1, (guidText_ok _ c h1).2.1⟩
    rcases List.mem_cons.mp h1 with rfl | h1
    · exact (by decide)
    rcases List.mem_append.mp h1 with h1 | h1
    · exact ⟨(renderNum_ok _ c h1).1, (renderNum_ok _ c h1).2.1⟩
    rcases List.mem_cons.mp h1 with rfl | h1
    · exact (by decide)
    · exact ⟨(renderNum_ok _ c h1).1, (renderNum_ok _ c h1).2.1⟩
  · obtain ⟨ht, hs, hpay, hlast, hne, hch⟩ := h
    have hrender : dpNodeText false n =
        ((ucs2Units n.payload).takeWhile (fun u => ¬ u = 0)).map
          Char.ofNat := by
      unfold dpNodeText
      rw [if_neg (by simp [ht]), if_neg (by simp [ht]),
          if_neg (by simp [ht]), if_neg (by simp [ht]),
          if_neg (by simp [ht]), if_neg (by simp [hs]),
          if_pos ⟨ht, hs⟩]
      rfl
    rw [hrender,
        filepath_takeWhile n.payload hlast (fun u hu => (hch u hu).1)]
    refine segSafe_plain _ ?_
    intro c hc
    obtain ⟨u, hu, he⟩ := List.mem_map.mp hc
    obtain ⟨h1, h2, h3, h4, _, h6⟩ := hch u hu
    obtain ⟨e1, e2, e3⟩ := ofNat_spec_inv u h2
    refine ⟨?_, ?_, ?_⟩
    · intro hcc
      rw [hcc] at he
      exact h3 (e1 he)
    · intro hcc
      rw [hcc] at he
      exact h4 (e2 he)
    · intro hcc
      rw [hcc] at he
      exact h6 (e3 he)
  · obtain ⟨ht, hs, hl, _⟩ := h
    have hrender : dpNodeText false n = "FvFile".data ++ '(' ::
        (guidText n.payload ++ [')']) := by
      unfold dpNodeText
      rw [if_neg (by simp [ht]), if_neg (by simp [ht]),
          if_neg (by simp [ht]), if_neg (by simp [ht]),
          if_neg (by simp [ht]), if_neg (by simp [hs]),
          if_neg (by simp [hs]), if_pos ⟨ht, hs, hl⟩]
      rfl
    rw [hrender]
    exact segSafe_wrap _ _ (by decide)
      (fun c hc => ⟨(guidText_ok _ c hc).1, (guidText_ok _ c hc).2.1⟩)
  · obtain ⟨ht, hs, hl, _⟩ := h
    have hrender : dpNodeText false n = "Fv".data ++ '(' ::
        (guidText n.payload ++ [')']) := by
      unfold dpNodeText
      rw [if_neg (by simp [ht]), if_neg (by simp [ht]),
          if_neg (by simp [ht]), if_neg (by simp [ht]),
          if_neg (by simp [ht]), if_neg (by simp [hs]),
          if_neg (by simp [hs]), if_neg (by simp [hs]),
          if_pos ⟨ht, hs, hl⟩]
      rfl
    rw [hrender]
    exact segSafe_wrap _ _ (by decide)
      (fun c hc => ⟨(guidText_ok _ c hc).1, (guidText_ok _ c hc).2.1⟩)

theorem dpNodeText_ne_nil (n : DpNode) (h : canonicalNode n) :
    dpNodeText false n ≠ [] := by
  rcases h with h | h | h | h | h | h | h | h | h
  · obtain ⟨ht, hs, hl, hhid, _⟩ := h
    unfold dpNodeText
    rw [if_pos ⟨ht, hs, hl, hhid⟩]
    simp [renderPciRoot]
  · obtain ⟨ht, hs, hl, _⟩ := h
    unfold dpNodeText
    rw [if_neg (by simp [ht]), if_pos ⟨ht, hs, hl⟩]
    simp [renderPci]
  · obtain ⟨ht, hs, hl, _, _, _⟩ := h
    unfold dpNodeText
    rw [if_neg (by simp [ht]), if_neg (by simp [ht]),
        if_pos ⟨ht, hs, hl⟩]
    unfold renderAta
    rw [if_neg (by simp)]
    simp
  · obtain ⟨ht, hs, hl, _, _⟩ := h
    unfold dpNodeText
    rw [if_neg (by simp [ht]), if_neg (by simp [ht]),
        if_neg (by simp [hs]), if_pos ⟨ht, hs, hl⟩]
    simp [renderMac]
  · obtain ⟨ht, hs, _⟩ := h
    unfold dpNodeText
    rw [if_neg (by simp [ht]), if_neg (by simp [ht]),
        if_neg (by simp [hs]), if_neg (by simp [hs]), if_pos ⟨ht, hs⟩]
    simp [renderUri]
  · obtain ⟨ht, hs, hl, _, h36, h37⟩ := h
    unfold dpNodeText
    rw [if_neg (by simp [ht]), if_neg (by simp [ht]),
        if_neg (by simp [ht]), if_neg (by simp [ht]),
        if_neg (by simp [ht]), if_pos ⟨ht, hs, hl, h36, h37⟩]
    simp [renderHd]
  · obtain ⟨ht, hs, hpay, hlast, hne, hch⟩ := h
    unfold dpNodeText
    rw [if_neg (by simp [ht]), if_neg (by simp [ht]),
        if_neg (by simp [ht]), if_neg (by simp [ht]),
        if_neg (by simp [ht]), if_neg (by simp [hs]), if_pos ⟨ht, hs⟩]
    show ((ucs2Units n.payload).takeWhile (fun u => ¬ u = 0)).map
      Char.ofNat ≠ []
    rw [filepath_takeWhile n.payload hlast (fun u hu => (hch u hu).1)]
    intro hcc
    exact hne (List.map_eq_nil.mp hcc)
  · obtain ⟨ht, hs, hl, _⟩ := h
    unfold dpNodeText
    rw [if_neg (by simp [ht]), if_neg (by simp [ht]),
        if_neg (by simp [ht]), if_neg (by simp [ht]),
        if_neg (by simp [ht]), if_neg (by simp [hs]),
        if_neg (by simp [hs]), if_pos ⟨ht, hs, hl⟩]
    simp [renderFvFile]
  · obtain ⟨ht, hs, hl, _⟩ := h
    unfold dpNodeText
    rw [if_neg (by simp [ht]), if_neg (by simp [ht]),
        if_neg (by simp [ht]), if_neg (by simp [ht]),
        if_neg (by simp [ht]), if_neg (by simp [hs]),
        if_neg (by simp [hs]), if_neg (by simp [hs]),
        if_pos ⟨ht, hs, hl⟩]
    simp [renderFv]

theorem nodeSuspect_canonical (n : DpNode) (h : canonicalNode n) :
    nodeSuspect n = false := by
  rcases h with h | h | h | h | h | h | h | h | h
  · simp [nodeSuspect, h.1]
  · simp [nodeSuspect, h.1]
  · simp [nodeSuspect, h.1]
  · simp [nodeSuspect, h.1]
  · simp [nodeSuspect, h.1]
  · simp [nodeSuspect, h.2.1]
  · obtain ⟨ht, hs, hpay, hlast, hne, hch⟩ := h
    unfold nodeSuspect
    simp only [ht, hs]
    rw [if_pos hlast]
    have hhead : ((ucs2Units n.payload).dropLast.dropWhile
        isAlnumUnit).head? ≠ some 40 := by
      intro hh
      rcases hd : (ucs2Units n.payload).dropLast.dropWhile isAlnumUnit with
        _ | ⟨u, tl⟩
      · rw [hd] at hh
        simp at hh
      · rw [hd] at hh
        have hu : u = 40 := by
          simp only [List.head?_cons] at hh
          exact Option.some.inj hh
        have hmem : u ∈ (ucs2Units n.payload).dropLast := by
          have hsub := List.dropWhile_sublist (l := (ucs2Units
            n.payload).dropLast) (p := isAlnumUnit)
          refine hsub.mem ?_
          rw [hd]
          exact List.mem_cons_self u tl
        exact (hch u hmem).2.2.1 hu
    simp only [decide_eq_false_iff_not]
    intro hcontra
    exact hhead hcontra.2.2.1
  · simp [nodeSuspect, h.2.1]
  · simp [nodeSuspect, h.2.1]

theorem efidp_plausible_canonical (ns : List DpNode)
    (h : ∀ n ∈ ns, canonicalNode n) : efidp_plausible ns = true := by
  unfold efidp_plausible
  simp only [decide_eq_true_eq, Bool.not_eq_true]
  rw [List.any_eq_false]
  intro n hn
  have hmem : n ∈ ns := List.Sublist.mem hn (List.takeWhile_sublist _)
  rw [Bool.not_eq_true]
  exact nodeSuspect_canonical n (h n hmem)

/-- C2 (corrected): converting a non-empty chain of canonically-shaped
nodes to text with `display_only = false`, `allow_shortcuts = false`
and parsing the text back yields exactly the original chain.  The
unrestricted claim is false: a file-path node whose text spells a
recognised node syntax re-parses as the typed node (see the
counterexample below). -/
theorem efidp_text_roundtrip (ns : List DpNode)
    (hcanon : ∀ n ∈ ns, canonicalNode n) (hne : ns ≠ []) :
    efidp_from_text (efidp_to_text ns false false) false = some ns := by
  unfold efidp_from_text efidp_to_text
  have hdata : (String.mk (dpChainText false ns)).data =
      dpChainText false ns := rfl
  rw [hdata]
  have htext : dpChainText false ns ≠ [] := by
    rcases ns with _ | ⟨n0, rest⟩
    · exact absurd rfl hne
    rcases rest with _ | ⟨n1, rs⟩
    · have h1 : dpChainText false [n0] = dpNodeText false n0 := by
        simp [dpChainText, List.intercalate, List.intersperse]
      rw [h1]
      exact dpNodeText_ne_nil n0 (hcanon n0 (by simp))
    · have hcons : dpChainText false (n0 :: n1 :: rs) =
          dpNodeText false n0 ++ '/' ::
            List.intercalate ['/'] ((n1 :: rs).map (dpNodeText false)) := by
        simp [dpChainText, List.intercalate, List.intersperse]
      rw [hcons]
      intro hcc
      exact absurd (List.append_eq_nil.mp hcc).2 (by simp)
  have hconv : convertTextToDevicePath (dpChainText false ns) = some ns := by
    unfold convertTextToDevicePath
    rw [if_neg htext]
    unfold dpChainText
    rw [splitTop_safe (ns.map (dpNodeText false))
      (by simp [hne]) (fun s hs => by
        obtain ⟨n, hn, hrfl⟩ := List.mem_map.mp hs
        rw [← hrfl]
        exact seg_safe_node n (hcanon n hn))]
    rw [List.map_map]
    have hid : ns.map (dpNodeFromText ∘ dpNodeText false) = ns.map id :=
      List.map_congr_left (fun n hn => node_roundtrip n (hcanon n hn))
    rw [hid, List.map_id]
  rw [hconv]
  dsimp only
  rw [efidp_plausible_canonical ns hcanon]
  simp

/-- C2 counterexample to the original claim: `uriSpoof` is a valid
file-path chain whose text `Uri(http://x)` parses back as a typed URI
node, not the original file-path node. -/
theorem efidp_text_roundtrip_counterexample :
    efidp_valid (encodeChain [uriSpoof]) = true ∧
    efidp_from_text (efidp_to_text [uriSpoof] false false) false =
      some [⟨3, 24, [104, 116, 116, 112, 58, 47, 47, 120]⟩] ∧
    (⟨3, 24, [104, 116, 116, 112, 58, 47, 47, 120]⟩ : DpNode) ≠
      uriSpoof := by
  decide

theorem efidp_text_roundtrip_witness :
    ((∀ n ∈ hddNodes, canonicalNode n) ∧ hddNodes ≠ []) ∧
    (encodeChain hddNodes = hddChain ∧
     efidp_from_text (efidp_to_text hddNodes false false) false =
       some hddNodes) :=
  ⟨⟨by decide, by decide⟩, by decide,
   efidp_text_roundtrip hddNodes (by decide) (by decide)⟩
